import Mathlib

/-!
# BFS maze solver (`main.go`): shallow embedding and verified properties

The Go program is embedded as pure Lean functions.

* Go `int` fields are `Int`; the additions of the BFS loop and of the driver
  wrap to 64 bits (`wrap64`).
* `map[Point]Point` is an association list with unique keys (`ParentMap`);
  reading an absent key gives the zero `Point`, as in Go.
* `map[Point]bool` (`visited`) is the list of the keys set to `true`.
* A slice index out of range is the fault `indexOutOfRange`.
* The two unbounded loops (the BFS `for len(queue) > 0` and the back-walk of
  `reconstructPath`) are driven by a fuel counter; `SolveBFS` supplies
  `rows * cols + 1`, and running out is the separate fault `outOfFuel`.
  Theorem `SolveBFS_returns` shows that on a rectangular grid neither fault occurs.

* For the claims about what a call does on the way (which cells it reads, what it enqueues,
  which `parents` entries it writes and reads) the same functions are given once more with
  a ghost log (`Trace`, `SolveBFSTraced`); dropping the log gives `SolveBFS` back
  (`SolveBFSTraced_erase`).

The proofs rest on one loop invariant (`Inv`): every discovered cell carries the sequence
of direction numbers by which it was discovered, and the list of all cells ever enqueued is
strictly increasing in the bijective base-4 value (`rank`) of these sequences.
-/

namespace BFSMaze

/-! ## Data model -/

/-- Go `type Point struct { Row int; Col int }`. -/
structure Point where
  Row : Int
  Col : Int
deriving DecidableEq, Repr

/-- Ways in which a run of the embedded program can fail to return. -/
inductive Fault where
  | indexOutOfRange
  | outOfFuel
deriving DecidableEq, Repr

/-- Go `map[Point]Point`, as a key-unique association list. -/
abbrev ParentMap := List (Point × Point)

/-- Go `type MazeSolver[T] struct`. -/
structure MazeSolver (T : Type) where
  maze : List (List T)
  rows : Int
  cols : Int
  parents : ParentMap
  wall : T
deriving DecidableEq

deriving instance DecidableEq for Except

/-- Two's-complement wrap of a mathematical integer to a Go `int` (64 bits). -/
def wrap64 (x : Int) : Int :=
  (x + 9223372036854775808) % 18446744073709551616 - 9223372036854775808

/-- Lookup `m[k]` with presence flag. -/
def mapFind : ParentMap → Point → Option Point
  | [], _ => none
  | (k0, v) :: m, k => if k0 = k then some v else mapFind m k

/-- Go `m[k]` on a `map[Point]Point`: the zero value when the key is absent. -/
def mapGet (m : ParentMap) (k : Point) : Point :=
  match mapFind m k with
  | some v => v
  | none => ⟨0, 0⟩

/-- Go `m[k] = v`. -/
def mapSet (m : ParentMap) (k v : Point) : ParentMap :=
  (k, v) :: m.filter (fun e => !decide (e.1 = k))

/-- Go slice indexing `xs[i]` with an `int` index. -/
def index {α : Type} (xs : List α) (i : Int) : Except Fault α :=
  if i < 0 then .error .indexOutOfRange
  else
    match xs.get? i.toNat with
    | some x => .ok x
    | none => .error .indexOutOfRange

/-- Go `maze[r][c]`. -/
def cell {T : Type} (maze : List (List T)) (r c : Int) : Except Fault T :=
  match index maze r with
  | .error e => .error e
  | .ok row => index row c

/-! ## The program -/

/-- Back-walk loop of `reconstructPath` (lines 25-27):
`for current := end; current != start; current = s.parents[current]`. -/
def backWalk (parents : ParentMap) (start : Point) :
    Nat → Point → List Point → Except Fault (List Point)
  | fuel, current, path =>
    if current = start then .ok path
    else
      match fuel with
      | 0 => .error .outOfFuel
      | fuel + 1 => backWalk parents start fuel (mapGet parents current) (path ++ [current])

/-- Function `reconstructPath` (lines 23-34); the in-place swap loop of lines 30-32
is list reversal. -/
def reconstructPath (fuel : Nat) (parents : ParentMap) (start e : Point) :
    Except Fault (List Point) :=
  match backWalk parents start fuel e [] with
  | .error err => .error err
  | .ok path => .ok (path ++ [start]).reverse

/-- Function `NewMazeSolver` (lines 37-45); `len(maze[0])` faults on an empty grid. -/
def NewMazeSolver {T : Type} (maze : List (List T)) (wall : T) : Except Fault (MazeSolver T) :=
  match maze with
  | [] => .error .indexOutOfRange
  | row0 :: _ =>
    .ok { maze := maze, rows := maze.length, cols := row0.length, parents := [], wall := wall }

/-- Inner loop of `findEndNode` (lines 49-53): columns `c, c+1, ...`, `n` of them left. -/
def scanCols {T : Type} [DecidableEq T] (s : MazeSolver T) (endValue : T) (r : Nat) :
    Nat → Nat → Except Fault (Option Point)
  | _, 0 => .ok none
  | c, n + 1 =>
    match cell s.maze r c with
    | .error e => .error e
    | .ok x => if x = endValue then .ok (some ⟨r, c⟩) else scanCols s endValue r (c + 1) n

/-- Outer loop of `findEndNode` (lines 48-54): rows `r, r+1, ...`, `n` of them left. -/
def scanRows {T : Type} [DecidableEq T] (s : MazeSolver T) (endValue : T) :
    Nat → Nat → Except Fault (Option Point)
  | _, 0 => .ok none
  | r, n + 1 =>
    match scanCols s endValue r 0 s.cols.toNat with
    | .error e => .error e
    | .ok (some p) => .ok (some p)
    | .ok none => scanRows s endValue (r + 1) n

/-- Function `findEndNode` (lines 47-56). -/
def findEndNode {T : Type} [DecidableEq T] (s : MazeSolver T) (endValue : T) :
    Except Fault (Point × Bool) :=
  match scanRows s endValue 0 s.rows.toNat with
  | .error e => .error e
  | .ok (some p) => .ok (p, true)
  | .ok none => .ok (⟨0, 0⟩, false)

/-- Local state of the BFS loop, with the solver's `parents` field it mutates. -/
structure BfsState where
  queue : List Point
  visited : List Point
  parents : ParentMap

/-- The slice `directions` (lines 69-71): up, down, left, right. -/
def directions : List Point := [⟨-1, 0⟩, ⟨1, 0⟩, ⟨0, -1⟩, ⟨0, 1⟩]

/-- The coordinate `next` of line 80. -/
def nextPoint (currentNode dir : Point) : Point :=
  ⟨wrap64 (currentNode.Row + dir.Row), wrap64 (currentNode.Col + dir.Col)⟩

/-- One iteration of the direction loop (lines 80-93). -/
def visit {T : Type} [DecidableEq T] (s : MazeSolver T) (currentNode : Point) (st : BfsState)
    (dir : Point) : Except Fault BfsState :=
  let next := nextPoint currentNode dir
  if next.Row < 0 ∨ next.Row ≥ s.rows ∨ next.Col < 0 ∨ next.Col ≥ s.cols then .ok st
  else
    match cell s.maze next.Row next.Col with
    | .error e => .error e
    | .ok x =>
      if x = s.wall then .ok st
      else if next ∈ st.visited then .ok st
      else
        .ok { queue := st.queue ++ [next], visited := next :: st.visited,
              parents := mapSet st.parents next currentNode }

/-- The loop `for _, dir := range directions` (lines 79-94) over a list of directions. -/
def expandDirs {T : Type} [DecidableEq T] (s : MazeSolver T) (currentNode : Point) :
    List Point → BfsState → Except Fault BfsState
  | [], st => .ok st
  | dir :: rest, st =>
    match visit s currentNode st dir with
    | .error e => .error e
    | .ok st1 => expandDirs s currentNode rest st1

/-- The loop `for len(queue) > 0` (lines 73-95) followed by line 96. The result is the
returned pair together with the final `parents` map. -/
def bfsLoop {T : Type} [DecidableEq T] (s : MazeSolver T) (start e : Point) (pathFuel : Nat) :
    Nat → BfsState → Except Fault ((List Point × Bool) × ParentMap)
  | fuel, st =>
    match st.queue with
    | [] => .ok (([], false), st.parents)
    | currentNode :: queue =>
      match fuel with
      | 0 => .error .outOfFuel
      | fuel + 1 =>
        if currentNode = e then
          match reconstructPath pathFuel st.parents start e with
          | .error err => .error err
          | .ok path => .ok ((path, true), st.parents)
        else
          match expandDirs s currentNode directions
              { queue := queue, visited := st.visited, parents := st.parents } with
          | .error err => .error err
          | .ok st1 => bfsLoop s start e pathFuel fuel st1

/-- Fuel that `SolveBFS` gives to its loops: one more than the number of cells. -/
def solveFuel {T : Type} (s : MazeSolver T) : Nat := (s.rows * s.cols).toNat + 1

/-- Function `SolveBFS` (lines 58-97). Returns the Go result `(path, found)` (with `nil` as
`[]`) and the solver after the call. The diagnostic print of line 61 is not modelled. -/
def SolveBFS {T : Type} [DecidableEq T] (s : MazeSolver T) (start : Point) (endValue : T) :
    Except Fault ((List Point × Bool) × MazeSolver T) :=
  match findEndNode s endValue with
  | .error err => .error err
  | .ok (_, false) => .ok (([], false), s)
  | .ok (e, true) =>
    match bfsLoop s start e (solveFuel s) (solveFuel s)
        { queue := [start], visited := [start], parents := s.parents } with
    | .error err => .error err
    | .ok (r, parents) => .ok (r, { s with parents := parents })

/-- The four arrows the driver can print. -/
inductive Glyph where
  | down
  | right
  | left
  | up
deriving DecidableEq, Repr

/-- The four independent `if` statements of the driver (lines 136-147): the glyphs printed
for a path entry `p` whose `parents` entry is `parent`, in print order. -/
def glyphs (parent p : Point) : List Glyph :=
  (if parent.Col = p.Col ∧ wrap64 (parent.Row + 1) = p.Row then [Glyph.down] else []) ++
  (if wrap64 (parent.Col + 1) = p.Col ∧ parent.Row = p.Row then [Glyph.right] else []) ++
  (if wrap64 (parent.Col - 1) = p.Col ∧ parent.Row = p.Row then [Glyph.left] else []) ++
  (if parent.Col = p.Col ∧ wrap64 (parent.Row - 1) = p.Row then [Glyph.up] else [])

/-! ## The program with a log

The same functions once more, each threading a ghost log of what it does to the grid, the
queue and the `parents` map. Theorem `SolveBFSTraced_erase` shows that dropping the log gives
`SolveBFS` back. -/

/-- Ghost log of one call of `SolveBFS`, each list in order of occurrence. -/
structure Trace where
  /-- The coordinates `(r, c)` of every access `maze[r][c]`. -/
  reads : List Point
  /-- Every coordinate put on the queue, the initial `start` included. -/
  enqueued : List Point
  /-- Every coordinate taken off the queue. -/
  dequeued : List Point
  /-- Every assignment `s.parents[k] = v`, as `(k, v)`. -/
  assigned : List (Point × Point)
  /-- Every key `k` read as `s.parents[k]` by `reconstructPath`. -/
  lookups : List Point
deriving DecidableEq, Repr

/-- Loop `backWalk` with the keys it reads from `parents`. -/
def backWalkTraced (parents : ParentMap) (start : Point) :
    Nat → Point → List Point → List Point → Except Fault (List Point × List Point)
  | fuel, current, path, lookups =>
    if current = start then .ok (path, lookups)
    else
      match fuel with
      | 0 => .error .outOfFuel
      | fuel + 1 =>
        backWalkTraced parents start fuel (mapGet parents current) (path ++ [current])
          (lookups ++ [current])

/-- Function `reconstructPath` with the keys it reads from `parents`. -/
def reconstructPathTraced (fuel : Nat) (parents : ParentMap) (start e : Point) :
    Except Fault (List Point × List Point) :=
  match backWalkTraced parents start fuel e [] [] with
  | .error err => .error err
  | .ok (path, lookups) => .ok ((path ++ [start]).reverse, lookups)

/-- Loop `scanCols` with the cells it reads. -/
def scanColsTraced {T : Type} [DecidableEq T] (s : MazeSolver T) (endValue : T) (r : Nat) :
    Nat → Nat → List Point → Except Fault (Option Point × List Point)
  | _, 0, reads => .ok (none, reads)
  | c, n + 1, reads =>
    match cell s.maze r c with
    | .error e => .error e
    | .ok x =>
      if x = endValue then .ok (some ⟨r, c⟩, reads ++ [⟨r, c⟩])
      else scanColsTraced s endValue r (c + 1) n (reads ++ [⟨r, c⟩])

/-- Loop `scanRows` with the cells it reads. -/
def scanRowsTraced {T : Type} [DecidableEq T] (s : MazeSolver T) (endValue : T) :
    Nat → Nat → List Point → Except Fault (Option Point × List Point)
  | _, 0, reads => .ok (none, reads)
  | r, n + 1, reads =>
    match scanColsTraced s endValue r 0 s.cols.toNat reads with
    | .error e => .error e
    | .ok (some p, reads1) => .ok (some p, reads1)
    | .ok (none, reads1) => scanRowsTraced s endValue (r + 1) n reads1

/-- Function `findEndNode` with the cells it reads. -/
def findEndNodeTraced {T : Type} [DecidableEq T] (s : MazeSolver T) (endValue : T) :
    Except Fault ((Point × Bool) × List Point) :=
  match scanRowsTraced s endValue 0 s.rows.toNat [] with
  | .error e => .error e
  | .ok (some p, reads) => .ok ((p, true), reads)
  | .ok (none, reads) => .ok ((⟨0, 0⟩, false), reads)

/-- One iteration of the direction loop (`visit`) with its log entries: the read of line 85,
and for a newly discovered cell the assignment of line 92 and the append of line 93. -/
def visitTraced {T : Type} [DecidableEq T] (s : MazeSolver T) (currentNode : Point)
    (st : BfsState) (tr : Trace) (dir : Point) : Except Fault (BfsState × Trace) :=
  let next := nextPoint currentNode dir
  if next.Row < 0 ∨ next.Row ≥ s.rows ∨ next.Col < 0 ∨ next.Col ≥ s.cols then .ok (st, tr)
  else
    match cell s.maze next.Row next.Col with
    | .error e => .error e
    | .ok x =>
      if x = s.wall then .ok (st, { tr with reads := tr.reads ++ [next] })
      else if next ∈ st.visited then .ok (st, { tr with reads := tr.reads ++ [next] })
      else
        .ok ({ queue := st.queue ++ [next], visited := next :: st.visited,
               parents := mapSet st.parents next currentNode },
             { tr with reads := tr.reads ++ [next], enqueued := tr.enqueued ++ [next],
                       assigned := tr.assigned ++ [(next, currentNode)] })

/-- Loop `expandDirs` with its log. -/
def expandDirsTraced {T : Type} [DecidableEq T] (s : MazeSolver T) (currentNode : Point) :
    List Point → BfsState → Trace → Except Fault (BfsState × Trace)
  | [], st, tr => .ok (st, tr)
  | dir :: rest, st, tr =>
    match visitTraced s currentNode st tr dir with
    | .error e => .error e
    | .ok (st1, tr1) => expandDirsTraced s currentNode rest st1 tr1

/-- Loop `bfsLoop` with its log: every dequeue of line 74 is recorded. -/
def bfsLoopTraced {T : Type} [DecidableEq T] (s : MazeSolver T) (start e : Point)
    (pathFuel : Nat) :
    Nat → BfsState → Trace → Except Fault (((List Point × Bool) × ParentMap) × Trace)
  | fuel, st, tr =>
    match st.queue with
    | [] => .ok ((([], false), st.parents), tr)
    | currentNode :: queue =>
      match fuel with
      | 0 => .error .outOfFuel
      | fuel + 1 =>
        if currentNode = e then
          match reconstructPathTraced pathFuel st.parents start e with
          | .error err => .error err
          | .ok (path, lookups) =>
            .ok (((path, true), st.parents),
              { tr with dequeued := tr.dequeued ++ [currentNode],
                        lookups := tr.lookups ++ lookups })
        else
          match expandDirsTraced s currentNode directions
              { queue := queue, visited := st.visited, parents := st.parents }
              { tr with dequeued := tr.dequeued ++ [currentNode] } with
          | .error err => .error err
          | .ok (st1, tr1) => bfsLoopTraced s start e pathFuel fuel st1 tr1

/-- Function `SolveBFS` with its log. -/
def SolveBFSTraced {T : Type} [DecidableEq T] (s : MazeSolver T) (start : Point)
    (endValue : T) : Except Fault (((List Point × Bool) × MazeSolver T) × Trace) :=
  match findEndNodeTraced s endValue with
  | .error err => .error err
  | .ok ((_, false), reads) => .ok ((([], false), s), ⟨reads, [], [], [], []⟩)
  | .ok ((e, true), reads) =>
    match bfsLoopTraced s start e (solveFuel s) (solveFuel s)
        { queue := [start], visited := [start], parents := s.parents }
        ⟨reads, [start], [], [], []⟩ with
    | .error err => .error err
    | .ok ((r, parents), tr) => .ok ((r, { s with parents := parents }), tr)

/-! ## Specification vocabulary -/

/-- Grid precondition of the solver: at least one row, every row of one common width that
is at least 1, and both sizes representable as a Go `int`. -/
def Rect {T : Type} (maze : List (List T)) : Prop :=
  0 < maze.length ∧ (maze.length : Int) < 9223372036854775808 ∧
    ∃ w : Nat, 0 < w ∧ (w : Int) < 9223372036854775808 ∧ ∀ row ∈ maze, row.length = w

/-- A solver whose size fields describe its rectangular grid; `parents` is arbitrary. -/
def Built {T : Type} (s : MazeSolver T) : Prop :=
  0 < s.rows ∧ s.rows < 9223372036854775808 ∧ 0 < s.cols ∧ s.cols < 9223372036854775808 ∧
    (s.maze.length : Int) = s.rows ∧ ∀ row ∈ s.maze, (row.length : Int) = s.cols

/-- Negation of the bounds test of line 81. -/
def InBounds {T : Type} (s : MazeSolver T) (p : Point) : Prop :=
  0 ≤ p.Row ∧ p.Row < s.rows ∧ 0 ≤ p.Col ∧ p.Col < s.cols

/-- The cell at `p` holds the value `v`. -/
def CellIs {T : Type} (s : MazeSolver T) (p : Point) (v : T) : Prop :=
  cell s.maze p.Row p.Col = .ok v

/-- An in-bounds cell whose content is not the wall marker. -/
def Open {T : Type} (s : MazeSolver T) (p : Point) : Prop :=
  InBounds s p ∧ ¬ CellIs s p s.wall

instance {T : Type} (s : MazeSolver T) (p : Point) : Decidable (InBounds s p) :=
  inferInstanceAs (Decidable (0 ≤ p.Row ∧ p.Row < s.rows ∧ 0 ≤ p.Col ∧ p.Col < s.cols))

instance {T : Type} [DecidableEq T] (s : MazeSolver T) (p : Point) (v : T) :
    Decidable (CellIs s p v) :=
  inferInstanceAs (Decidable (cell s.maze p.Row p.Col = .ok v))

instance {T : Type} [DecidableEq T] (s : MazeSolver T) (p : Point) : Decidable (Open s p) :=
  inferInstanceAs (Decidable (InBounds s p ∧ ¬ CellIs s p s.wall))

/-- Both coordinates are representable as a Go `int`. -/
def Fits64 (p : Point) : Prop :=
  -9223372036854775808 ≤ p.Row ∧ p.Row < 9223372036854775808 ∧
  -9223372036854775808 ≤ p.Col ∧ p.Col < 9223372036854775808

/-- 4-neighbours: differ by exactly 1 in exactly one of row and column. -/
def Adjacent4 (a b : Point) : Prop :=
  (a.Row = b.Row ∧ (a.Col + 1 = b.Col ∨ b.Col + 1 = a.Col)) ∨
  (a.Col = b.Col ∧ (a.Row + 1 = b.Row ∨ b.Row + 1 = a.Row))

instance (a b : Point) : Decidable (Adjacent4 a b) :=
  inferInstanceAs (Decidable ((a.Row = b.Row ∧ (a.Col + 1 = b.Col ∨ b.Col + 1 = a.Col)) ∨
    (a.Col = b.Col ∧ (a.Row + 1 = b.Row ∨ b.Row + 1 = a.Row))))

/-- A sequence of open cells, consecutive ones 4-neighbours. -/
def WallFreeWalk {T : Type} (s : MazeSolver T) (q : List Point) : Prop :=
  List.Chain' Adjacent4 q ∧ ∀ p ∈ q, Open s p

/-- Decision procedure for chains of 4-neighbours, by recursion on the list. -/
def decChain : (q : List Point) → Decidable (List.Chain' Adjacent4 q)
  | [] => isTrue List.chain'_nil
  | [a] => isTrue (List.chain'_singleton a)
  | a :: b :: rest =>
    match decChain (b :: rest) with
    | isTrue h =>
      if hab : Adjacent4 a b then isTrue (List.chain'_cons.mpr ⟨hab, h⟩)
      else isFalse (fun hc => hab (List.chain'_cons.mp hc).1)
    | isFalse h => isFalse (fun hc => h (List.chain'_cons.mp hc).2)

instance {T : Type} [DecidableEq T] (s : MazeSolver T) (q : List Point) :
    Decidable (WallFreeWalk s q) :=
  @instDecidableAnd _ _ (decChain q) inferInstance

/-- Reachability as the BFS sees it: a sequence of 4-neighbour steps from `a` to `b` all of
whose cells after the first are open (the first cell is not tested). -/
def Reach {T : Type} (s : MazeSolver T) (a b : Point) : Prop :=
  ∃ q : List Point, q.head? = some a ∧ q.getLast? = some b ∧ List.Chain' Adjacent4 q ∧
    ∀ p ∈ q.tail, Open s p

/-- Row-major order on coordinates. -/
def Precedes (p q : Point) : Prop :=
  p.Row < q.Row ∨ (p.Row = q.Row ∧ p.Col < q.Col)

/-- Point `e` is the first cell in row-major order whose content equals `v`. -/
def FirstMatch {T : Type} (s : MazeSolver T) (v : T) (e : Point) : Prop :=
  InBounds s e ∧ CellIs s e v ∧ ∀ q, InBounds s q → Precedes q e → ¬ CellIs s q v

/-- Index in `directions` (0 up, 1 down, 2 left, 3 right) of the move from `a` to `b`. -/
def moveOf (a b : Point) : Nat :=
  directions.indexOf ⟨b.Row - a.Row, b.Col - a.Col⟩

/-- The moves of a sequence of points. -/
def movesOf : List Point → List Nat
  | a :: b :: rest => moveOf a b :: movesOf (b :: rest)
  | _ => []

/-- Lexicographic comparison of move sequences. -/
def lexLe : List Nat → List Nat → Bool
  | [], _ => true
  | _ :: _, [] => false
  | x :: xs, y :: ys => decide (x < y) || (decide (x = y) && lexLe xs ys)

/-- The glyph table of the display contract, keyed by (row delta, column delta). -/
def tableGlyph (drow dcol : Int) : Option Glyph :=
  if drow = 1 ∧ dcol = 0 then some Glyph.down
  else if drow = -1 ∧ dcol = 0 then some Glyph.up
  else if drow = 0 ∧ dcol = 1 then some Glyph.right
  else if drow = 0 ∧ dcol = -1 then some Glyph.left
  else none

/-- Following the `parents` map upwards from `c` for `n` steps, along keys that are present:
`c, parents[c], parents[parents[c]], ...`. -/
def walkUp (parents : ParentMap) : Nat → Point → Option Point
  | 0, c => some c
  | n + 1, c =>
    match mapFind parents c with
    | none => none
    | some p => walkUp parents n p

/-- Number `n` is the shortest wall-free 4-connected distance from `a` to `b`: some
wall-free walk from `a` to `b` has `n + 1` cells and none has fewer. -/
def IsDist {T : Type} (s : MazeSolver T) (a b : Point) (n : Nat) : Prop :=
  (∃ q : List Point, q.head? = some a ∧ q.getLast? = some b ∧ WallFreeWalk s q ∧
      q.length = n + 1) ∧
    ∀ q : List Point, q.head? = some a → q.getLast? = some b → WallFreeWalk s q →
      n + 1 ≤ q.length

/-! ## Proof vocabulary: move codes -/

/-- Direction number `d` of the slice `directions`. -/
def dirAt (d : Nat) : Point := directions.getD d ⟨0, 0⟩

/-- The coordinate `next` computed for direction number `d`. -/
def stepTo (p : Point) (d : Nat) : Point := nextPoint p (dirAt d)

/-- End point of a sequence of direction numbers followed from `a`. -/
def endOf (a : Point) (ds : List Nat) : Point := ds.foldl stepTo a

/-- The points visited after `a` when following `ds`. -/
def tailPts : Point → List Nat → List Point
  | _, [] => []
  | a, d :: ds => stepTo a d :: tailPts (stepTo a d) ds

/-- A sequence of direction numbers each of whose steps lands on an open cell. -/
def ValidCode {T : Type} (s : MazeSolver T) : Point → List Nat → Prop
  | _, [] => True
  | a, d :: ds => d < 4 ∧ Open s (stepTo a d) ∧ ValidCode s (stepTo a d) ds

/-- Bijective base-4 value of a move sequence: numeric order on ranks is
length-then-lexicographic order on the sequences. -/
def rank (ds : List Nat) : Nat := ds.foldl (fun v d => 4 * v + d + 1) 0

/-- Invariant of the BFS between two direction steps: `done` are the dequeued nodes,
`cur` the node being expanded with its first `k` directions handled, `st.queue` the rest
of the queue, and `code v` the move sequence by which `v` was discovered. -/
structure Inv {T : Type} (s : MazeSolver T) (start e : Point) (done : List Point)
    (cur : Point) (k : Nat) (st : BfsState) (code : Point → List Nat) : Prop where
  nodup : (done ++ cur :: st.queue).Nodup
  vis : ∀ p, p ∈ st.visited ↔ p ∈ done ++ cur :: st.queue
  startIn : start ∈ done ++ [cur]
  startCode : code start = []
  par : ∀ v ∈ done ++ cur :: st.queue, v ≠ start →
    ∃ u d, mapFind st.parents v = some u ∧ d < 4 ∧ code v = code u ++ [d] ∧
      (u ∈ done ∨ (u = cur ∧ d < k))
  sorted : (done ++ cur :: st.queue).Pairwise (fun a b => rank (code a) < rank (code b))
  closed : ∀ u d, (u ∈ done ∧ d < 4) ∨ (u = cur ∧ d < k) → Open s (stepTo u d) →
    stepTo u d ∈ done ++ cur :: st.queue ∧
      rank (code (stepTo u d)) ≤ 4 * rank (code u) + d + 1
  valid : ∀ v ∈ done ++ cur :: st.queue, ValidCode s start (code v) ∧ endOf start (code v) = v
  short : ∀ v ∈ done ++ cur :: st.queue,
    (code v).length < (done ++ cur :: st.queue).length
  notEnd : e ∉ done

/-- Relation between the log and the loop state, with `done`, `cur` as in `Inv` and
`parents0` the `parents` map at the start of the call. -/
structure TInv {T : Type} (s : MazeSolver T) (start : Point) (parents0 : ParentMap)
    (done : List Point) (cur : Point) (st : BfsState) (tr : Trace) : Prop where
  enq : tr.enqueued = done ++ cur :: st.queue
  deq : tr.dequeued = done ++ [cur]
  hd : tr.enqueued.head? = some start
  asg : tr.assigned.map Prod.fst = tr.enqueued.tail
  par : st.parents = tr.assigned.foldl (fun m kv => mapSet m kv.1 kv.2) parents0
  rd : ∀ p ∈ tr.reads, InBounds s p
  lk : tr.lookups = []

/-! ## Example grids (cells are numbers: `0` open, `1` wall, `2` goal) -/

/-- Scenario S3: an open 3x3 grid with the goal marker in the middle. -/
def gridOpen3 : List (List Nat) := [[0, 0, 0], [0, 2, 0], [0, 0, 0]]

/-- A row with two goal cells, the first one walled off from the cell at column 2. -/
def gridTwoGoals : List (List Nat) := [[2, 1, 0, 2]]

/-- A row whose first cell is a wall and whose second cell is the goal. -/
def gridWallStart : List (List Nat) := [[1, 2]]

/-- A row with goal cells on both sides of the cell at column 2, the right one nearer. -/
def gridBothSides : List (List Nat) := [[2, 0, 0, 2]]

/-- A row whose first two cells are walls and whose last cell is the goal. -/
def gridWalled : List (List Nat) := [[1, 1, 2]]

/-- The 1x1 grid holding the goal. -/
def gridOne : List (List Nat) := [[2]]

/-- A 2x2 grid without a goal cell. -/
def gridNoGoal : List (List Nat) := [[0, 1], [0, 0]]

/-- The fresh solver over `gridOpen3` with wall marker `1`. -/
def solverOpen3 : MazeSolver Nat :=
  { maze := gridOpen3, rows := 3, cols := 3, parents := [], wall := 1 }

/-- Solver `solverOpen3` after `SolveBFS` from `(0,0)` for goal value `2`. -/
def solvedOpen3 : MazeSolver Nat :=
  { maze := gridOpen3, rows := 3, cols := 3, wall := 1,
    parents := [(⟨2, 1⟩, ⟨2, 0⟩), (⟨0, 2⟩, ⟨0, 1⟩), (⟨1, 1⟩, ⟨1, 0⟩), (⟨2, 0⟩, ⟨1, 0⟩),
      (⟨0, 1⟩, ⟨0, 0⟩), (⟨1, 0⟩, ⟨0, 0⟩)] }

/-- The fresh solver over `gridTwoGoals` with wall marker `1`. -/
def solverTwoGoals : MazeSolver Nat :=
  { maze := gridTwoGoals, rows := 1, cols := 4, parents := [], wall := 1 }

/-- Solver `solverTwoGoals` after `SolveBFS` from `(0,2)` for goal value `2`. -/
def solvedTwoGoals : MazeSolver Nat :=
  { maze := gridTwoGoals, rows := 1, cols := 4, wall := 1, parents := [(⟨0, 3⟩, ⟨0, 2⟩)] }

/-- The fresh solver over `gridWallStart` with wall marker `1`. -/
def solverWallStart : MazeSolver Nat :=
  { maze := gridWallStart, rows := 1, cols := 2, parents := [], wall := 1 }

/-- Solver `solverWallStart` after `SolveBFS` from `(0,0)` for goal value `2`. -/
def solvedWallStart : MazeSolver Nat :=
  { maze := gridWallStart, rows := 1, cols := 2, wall := 1, parents := [(⟨0, 1⟩, ⟨0, 0⟩)] }

/-- The fresh solver over `gridBothSides` with wall marker `1`. -/
def solverBothSides : MazeSolver Nat :=
  { maze := gridBothSides, rows := 1, cols := 4, parents := [], wall := 1 }

/-- Solver `solverBothSides` after `SolveBFS` from `(0,2)` for goal value `2`. -/
def solvedBothSides : MazeSolver Nat :=
  { maze := gridBothSides, rows := 1, cols := 4, wall := 1,
    parents := [(⟨0, 0⟩, ⟨0, 1⟩), (⟨0, 3⟩, ⟨0, 2⟩), (⟨0, 1⟩, ⟨0, 2⟩)] }

/-- The fresh solver over `gridWalled` with wall marker `1`. -/
def solverWalled : MazeSolver Nat :=
  { maze := gridWalled, rows := 1, cols := 3, parents := [], wall := 1 }

/-- The fresh solver over `gridOne` with wall marker `1`. -/
def solverOne : MazeSolver Nat :=
  { maze := gridOne, rows := 1, cols := 1, parents := [], wall := 1 }

/-- Solver `solverOne` after `SolveBFS` from `(-1,0)` for goal value `2`. -/
def solvedOne : MazeSolver Nat :=
  { maze := gridOne, rows := 1, cols := 1, wall := 1, parents := [(⟨0, 0⟩, ⟨-1, 0⟩)] }

/-- The fresh solver over `gridNoGoal` with wall marker `1`. -/
def solverNoGoal : MazeSolver Nat :=
  { maze := gridNoGoal, rows := 2, cols := 2, parents := [], wall := 1 }

/-- Log of `SolveBFS` on `solverOpen3` from `(0,0)` for goal value `2`: the first five reads
are the scan of `findEndNode`, the others the wall tests of the BFS loop. -/
def traceOpen3 : Trace :=
  { reads := [⟨0, 0⟩, ⟨0, 1⟩, ⟨0, 2⟩, ⟨1, 0⟩, ⟨1, 1⟩,
      ⟨1, 0⟩, ⟨0, 1⟩, ⟨0, 0⟩, ⟨2, 0⟩, ⟨1, 1⟩, ⟨1, 1⟩, ⟨0, 0⟩, ⟨0, 2⟩, ⟨1, 0⟩, ⟨2, 1⟩],
    enqueued := [⟨0, 0⟩, ⟨1, 0⟩, ⟨0, 1⟩, ⟨2, 0⟩, ⟨1, 1⟩, ⟨0, 2⟩, ⟨2, 1⟩],
    dequeued := [⟨0, 0⟩, ⟨1, 0⟩, ⟨0, 1⟩, ⟨2, 0⟩, ⟨1, 1⟩],
    assigned := [(⟨1, 0⟩, ⟨0, 0⟩), (⟨0, 1⟩, ⟨0, 0⟩), (⟨2, 0⟩, ⟨1, 0⟩), (⟨1, 1⟩, ⟨1, 0⟩),
      (⟨0, 2⟩, ⟨0, 1⟩), (⟨2, 1⟩, ⟨2, 0⟩)],
    lookups := [⟨1, 1⟩, ⟨1, 0⟩] }

/-- Solver `solvedOpen3` after a second `SolveBFS`, from `(2,2)` for goal value `2`. -/
def solvedTwice : MazeSolver Nat :=
  { maze := gridOpen3, rows := 3, cols := 3, wall := 1,
    parents := [(⟨0, 1⟩, ⟨0, 2⟩), (⟨2, 0⟩, ⟨2, 1⟩), (⟨1, 1⟩, ⟨1, 2⟩), (⟨0, 2⟩, ⟨1, 2⟩),
      (⟨2, 1⟩, ⟨2, 2⟩), (⟨1, 2⟩, ⟨2, 2⟩), (⟨1, 0⟩, ⟨0, 0⟩)] }

/-- Log of the second `SolveBFS`, on `solvedOpen3` from `(2,2)` for goal value `2`. -/
def traceTwice : Trace :=
  { reads := [⟨0, 0⟩, ⟨0, 1⟩, ⟨0, 2⟩, ⟨1, 0⟩, ⟨1, 1⟩,
      ⟨1, 2⟩, ⟨2, 1⟩, ⟨0, 2⟩, ⟨2, 2⟩, ⟨1, 1⟩, ⟨1, 1⟩, ⟨2, 0⟩, ⟨2, 2⟩, ⟨1, 2⟩, ⟨0, 1⟩],
    enqueued := [⟨2, 2⟩, ⟨1, 2⟩, ⟨2, 1⟩, ⟨0, 2⟩, ⟨1, 1⟩, ⟨2, 0⟩, ⟨0, 1⟩],
    dequeued := [⟨2, 2⟩, ⟨1, 2⟩, ⟨2, 1⟩, ⟨0, 2⟩, ⟨1, 1⟩],
    assigned := [(⟨1, 2⟩, ⟨2, 2⟩), (⟨2, 1⟩, ⟨2, 2⟩), (⟨0, 2⟩, ⟨1, 2⟩), (⟨1, 1⟩, ⟨1, 2⟩),
      (⟨2, 0⟩, ⟨2, 1⟩), (⟨0, 1⟩, ⟨0, 2⟩)],
    lookups := [⟨1, 1⟩, ⟨1, 2⟩] }

/-- The 10x10 rune grid hard-coded in the driver (lines 100-111). -/
def fixture : List (List Char) := [
  ['0', '0', '1', '1', '1', '1', '1', '0', '0', '0'],
  ['1', '0', '1', '0', '0', '0', '1', '0', '1', '0'],
  ['1', '0', '1', '0', '1', '0', '1', '0', '1', '0'],
  ['1', '0', '1', '0', '1', '0', '1', '0', '1', '0'],
  ['1', '0', '1', '2', '1', '2', '1', '0', '1', '0'],
  ['1', '0', '1', '0', '1', '0', '0', '0', '1', '0'],
  ['1', '0', '1', '0', '1', '0', '1', '0', '1', '0'],
  ['1', '0', '1', '0', '1', '0', '1', '0', '1', '0'],
  ['1', '0', '1', '0', '1', '0', '1', '0', '1', '0'],
  ['1', '0', '0', '0', '1', '0', '#', '0', '1', '0']]

/-- The solver of the driver: `NewMazeSolver(maze, '1')` (line 114). -/
def fixtureSolver : MazeSolver Char :=
  { maze := fixture, rows := 10, cols := 10, parents := [], wall := '1' }

/-- The path that `SolveBFS` returns on the driver's grid: 32 cells. -/
def fixturePath : List Point :=
  [⟨0, 0⟩, ⟨0, 1⟩, ⟨1, 1⟩, ⟨2, 1⟩, ⟨3, 1⟩, ⟨4, 1⟩, ⟨5, 1⟩, ⟨6, 1⟩, ⟨7, 1⟩, ⟨8, 1⟩, ⟨9, 1⟩,
   ⟨9, 2⟩, ⟨9, 3⟩, ⟨8, 3⟩, ⟨7, 3⟩, ⟨6, 3⟩, ⟨5, 3⟩, ⟨4, 3⟩, ⟨3, 3⟩, ⟨2, 3⟩, ⟨1, 3⟩,
   ⟨1, 4⟩, ⟨1, 5⟩, ⟨2, 5⟩, ⟨3, 5⟩, ⟨4, 5⟩, ⟨5, 5⟩, ⟨6, 5⟩, ⟨7, 5⟩, ⟨8, 5⟩, ⟨9, 5⟩, ⟨9, 6⟩]

/-! ## Basic facts -/

theorem wrap64_of_range (x : Int) (h1 : -9223372036854775808 ≤ x)
    (h2 : x < 9223372036854775808) : wrap64 x = x := by
  unfold wrap64
  omega

theorem mapFind_filter_ne (m : ParentMap) (k k1 : Point) (h : k1 ≠ k) :
    mapFind (m.filter (fun e => !decide (e.1 = k))) k1 = mapFind m k1 := by
  induction m with
  | nil => rfl
  | cons a m ih =>
    obtain ⟨a1, a2⟩ := a
    by_cases ha : a1 = k
    · subst ha
      have : a1 ≠ k1 := fun h2 => h h2.symm
      simp [List.filter, mapFind, this, ih]
    · by_cases hk : a1 = k1
      · simp [List.filter, mapFind, ha, hk, h]
      · simp [List.filter, mapFind, ha, hk, ih]

theorem mapFind_mapSet_same (m : ParentMap) (k v : Point) :
    mapFind (mapSet m k v) k = some v := by
  simp [mapSet, mapFind]

theorem mapFind_mapSet_ne (m : ParentMap) (k v k1 : Point) (h : k1 ≠ k) :
    mapFind (mapSet m k v) k1 = mapFind m k1 := by
  have h2 : k ≠ k1 := fun h3 => h h3.symm
  simp only [mapSet, mapFind, h2, if_false]
  exact mapFind_filter_ne m k k1 h

theorem index_ok {α : Type} (xs : List α) (i : Int) (h0 : 0 ≤ i) (h1 : i < xs.length) :
    ∃ x, x ∈ xs ∧ index xs i = .ok x := by
  have hlt : i.toNat < xs.length := by omega
  refine ⟨xs.get ⟨i.toNat, hlt⟩, List.get_mem _ _ _, ?_⟩
  unfold index
  have hn : ¬ i < 0 := by omega
  simp only [hn, if_false]
  rw [List.get?_eq_get hlt]

theorem cell_ok {T : Type} (s : MazeSolver T) (hB : Built s) (p : Point) (hp : InBounds s p) :
    ∃ x, cell s.maze p.Row p.Col = .ok x := by
  obtain ⟨_, _, _, _, hlen, hrow⟩ := hB
  obtain ⟨h1, h2, h3, h4⟩ := hp
  obtain ⟨row, hmem, hrow1⟩ := index_ok s.maze p.Row h1 (by omega)
  have hw := hrow row hmem
  obtain ⟨x, _, hx⟩ := index_ok row p.Col h3 (by omega)
  exact ⟨x, by simp [cell, hrow1, hx]⟩

/-! ## Move codes -/

theorem nil_or_snoc {α : Type} (l : List α) : l = [] ∨ ∃ l1 x, l = l1 ++ [x] := by
  rcases List.eq_nil_or_concat l with h | ⟨l1, x, h⟩
  · exact Or.inl h
  · exact Or.inr ⟨l1, x, by rw [h, List.concat_eq_append]⟩

theorem rank_nil : rank [] = 0 := rfl

theorem rank_snoc (ds : List Nat) (d : Nat) : rank (ds ++ [d]) = 4 * rank ds + d + 1 := by
  simp [rank, List.foldl_append]

theorem endOf_nil (a : Point) : endOf a [] = a := rfl

theorem endOf_cons (a : Point) (d : Nat) (ds : List Nat) :
    endOf a (d :: ds) = endOf (stepTo a d) ds := rfl

theorem endOf_snoc (a : Point) (ds : List Nat) (d : Nat) :
    endOf a (ds ++ [d]) = stepTo (endOf a ds) d := by
  simp [endOf, List.foldl_append]

theorem validCode_snoc {T : Type} (s : MazeSolver T) (a : Point) (ds : List Nat) (d : Nat) :
    ValidCode s a (ds ++ [d]) ↔ ValidCode s a ds ∧ d < 4 ∧ Open s (stepTo (endOf a ds) d) := by
  induction ds generalizing a with
  | nil => simp [ValidCode, endOf]
  | cons x xs ih =>
    have h := ih (stepTo a x)
    show (x < 4 ∧ Open s (stepTo a x) ∧ ValidCode s (stepTo a x) (xs ++ [d])) ↔
      (x < 4 ∧ Open s (stepTo a x) ∧ ValidCode s (stepTo a x) xs) ∧ d < 4 ∧
        Open s (stepTo (endOf (stepTo a x) xs) d)
    rw [h]
    tauto

theorem tailPts_snoc (a : Point) (ds : List Nat) (d : Nat) :
    tailPts a (ds ++ [d]) = tailPts a ds ++ [stepTo (endOf a ds) d] := by
  induction ds generalizing a with
  | nil => simp [tailPts, endOf]
  | cons x xs ih => simp [tailPts, ih, endOf_cons]

/-! ## One direction step -/

theorem visit_skip {T : Type} [DecidableEq T] (s : MazeSolver T) (hB : Built s)
    (cur dir : Point) (st : BfsState)
    (h : ¬ Open s (nextPoint cur dir) ∨ nextPoint cur dir ∈ st.visited) :
    visit s cur st dir = .ok st := by
  unfold visit
  simp only []
  by_cases hb : (nextPoint cur dir).Row < 0 ∨ (nextPoint cur dir).Row ≥ s.rows ∨
      (nextPoint cur dir).Col < 0 ∨ (nextPoint cur dir).Col ≥ s.cols
  · simp only [hb, if_true]
  · simp only [hb, if_false]
    have hin : InBounds s (nextPoint cur dir) := by
      unfold InBounds
      omega
    obtain ⟨x, hx⟩ := cell_ok s hB _ hin
    rw [hx]
    simp only []
    by_cases hw : x = s.wall
    · simp only [hw, if_true]
    · simp only [hw, if_false]
      rcases h with h | h
      · exact absurd ⟨hin, fun hc => hw (by
          unfold CellIs at hc
          rw [hx] at hc
          exact Except.ok.inj hc)⟩ h
      · simp only [h, if_true]

theorem visit_add {T : Type} [DecidableEq T] (s : MazeSolver T) (hB : Built s)
    (cur dir : Point) (st : BfsState)
    (h1 : Open s (nextPoint cur dir)) (h2 : nextPoint cur dir ∉ st.visited) :
    visit s cur st dir = .ok ⟨st.queue ++ [nextPoint cur dir], nextPoint cur dir :: st.visited,
      mapSet st.parents (nextPoint cur dir) cur⟩ := by
  unfold visit
  simp only []
  obtain ⟨hin, hw⟩ := h1
  obtain ⟨x, hx⟩ := cell_ok s hB _ hin
  obtain ⟨hb1, hb2, hb3, hb4⟩ := hin
  have hb : ¬ ((nextPoint cur dir).Row < 0 ∨ (nextPoint cur dir).Row ≥ s.rows ∨
      (nextPoint cur dir).Col < 0 ∨ (nextPoint cur dir).Col ≥ s.cols) := by omega
  simp only [hb, if_false]
  unfold CellIs at hw
  rw [hx]
  simp only []
  have hxw : x ≠ s.wall := fun hc => hw (by rw [hx, hc])
  simp only [hxw, h2, if_false]

theorem inv_rank_lt {T : Type} {s : MazeSolver T} {start e : Point} {done : List Point}
    {cur : Point} {k : Nat} {st : BfsState} {code : Point → List Nat}
    (hI : Inv s start e done cur k st code) (z : Point)
    (hz : z ∈ done ++ cur :: st.queue) :
    rank (code z) < 4 * rank (code cur) + k + 1 := by
  by_cases hzs : z = start
  · subst hzs
    rw [hI.startCode, rank_nil]
    omega
  · obtain ⟨u, d, _, hd, hc, hu⟩ := hI.par z hz hzs
    rw [hc, rank_snoc]
    rcases hu with hu | ⟨rfl, hdk⟩
    · have := (List.pairwise_append.mp hI.sorted).2.2 u hu cur (List.mem_cons_self _ _)
      omega
    · omega

theorem inv_visit {T : Type} [DecidableEq T] {s : MazeSolver T} (hB : Built s)
    {start e : Point} {done : List Point} {cur : Point} {k : Nat} {st : BfsState}
    {code : Point → List Nat} (hI : Inv s start e done cur k st code) (hk : k < 4) :
    ∃ st1 code1, visit s cur st (dirAt k) = .ok st1 ∧
      Inv s start e done cur (k + 1) st1 code1 := by
  have hcur : cur ∈ done ++ cur :: st.queue := by simp
  have hdone : ∀ u ∈ done, u ∈ done ++ cur :: st.queue :=
    fun u hu => List.mem_append_left _ hu
  by_cases hadd : Open s (stepTo cur k) ∧ stepTo cur k ∉ st.visited
  · obtain ⟨hopen, hnv⟩ := hadd
    have hnew : stepTo cur k ∉ done ++ cur :: st.queue := fun h => hnv ((hI.vis _).mpr h)
    refine ⟨_, Function.update code (stepTo cur k) (code cur ++ [k]),
      visit_add s hB cur (dirAt k) st hopen hnv, ?_⟩
    have hord : done ++ cur :: (st.queue ++ [stepTo cur k]) =
        (done ++ cur :: st.queue) ++ [stepTo cur k] := by simp
    have hold : ∀ z ∈ done ++ cur :: st.queue,
        Function.update code (stepTo cur k) (code cur ++ [k]) z = code z := by
      intro z hz
      have hne : z ≠ stepTo cur k := fun h => hnew (h ▸ hz)
      exact Function.update_noteq hne _ _
    have hvc : Function.update code (stepTo cur k) (code cur ++ [k]) (stepTo cur k) =
        code cur ++ [k] := Function.update_same _ _ _
    have hstart : start ∈ done ++ cur :: st.queue := by
      have := hI.startIn
      simp only [List.mem_append, List.mem_singleton, List.mem_cons] at this ⊢
      tauto
    constructor
    · show (done ++ cur :: (st.queue ++ [stepTo cur k])).Nodup
      rw [hord]
      refine List.Nodup.append hI.nodup (List.nodup_singleton _) ?_
      intro z hz hz2
      rw [List.mem_singleton] at hz2
      exact hnew (hz2 ▸ hz)
    · intro p
      show p ∈ stepTo cur k :: st.visited ↔ p ∈ done ++ cur :: (st.queue ++ [stepTo cur k])
      rw [hord, List.mem_append, List.mem_cons, hI.vis p, List.mem_singleton]
      tauto
    · exact hI.startIn
    · rw [hold _ hstart]
      exact hI.startCode
    · intro z hz hzs
      change z ∈ done ++ cur :: (st.queue ++ [stepTo cur k]) at hz
      rw [hord, List.mem_append, List.mem_singleton] at hz
      rcases hz with hz | rfl
      · obtain ⟨u, d, h1, h2, h3, h4⟩ := hI.par z hz hzs
        have hu : u ∈ done ++ cur :: st.queue := by
          rcases h4 with h4 | ⟨rfl, _⟩
          · exact hdone u h4
          · exact hcur
        refine ⟨u, d, ?_, h2, ?_, ?_⟩
        · show mapFind (mapSet st.parents (stepTo cur k) cur) z = some u
          have hne : z ≠ stepTo cur k := fun h => hnew (h ▸ hz)
          rw [mapFind_mapSet_ne _ _ _ _ hne]
          exact h1
        · rw [hold z hz, hold u hu]
          exact h3
        · rcases h4 with h4 | ⟨h4, h5⟩
          · exact Or.inl h4
          · exact Or.inr ⟨h4, by omega⟩
      · refine ⟨cur, k, mapFind_mapSet_same _ _ _, hk, ?_, Or.inr ⟨rfl, by omega⟩⟩
        rw [hvc, hold cur hcur]
    · show (done ++ cur :: (st.queue ++ [stepTo cur k])).Pairwise _
      rw [hord, List.pairwise_append]
      refine ⟨?_, List.pairwise_singleton _ _, ?_⟩
      · refine hI.sorted.imp_of_mem ?_
        intro a b ha hb h
        rw [hold _ ha, hold _ hb]
        exact h
      · intro a ha b hb
        rw [List.mem_singleton] at hb
        subst hb
        rw [hold a ha, hvc, rank_snoc]
        exact inv_rank_lt hI a ha
    · intro u d hud hop
      show stepTo u d ∈ done ++ cur :: (st.queue ++ [stepTo cur k]) ∧ _
      rw [hord]
      have hcases : ((u ∈ done ∧ d < 4) ∨ (u = cur ∧ d < k)) ∨ (u = cur ∧ d = k) := by
        rcases hud with h | ⟨h1, h2⟩
        · exact Or.inl (Or.inl h)
        · rcases Nat.lt_succ_iff_lt_or_eq.mp h2 with h3 | h3
          · exact Or.inl (Or.inr ⟨h1, h3⟩)
          · exact Or.inr ⟨h1, h3⟩
      rcases hcases with hc | ⟨rfl, rfl⟩
      · obtain ⟨hm, hr⟩ := hI.closed u d hc hop
        have hu : u ∈ done ++ cur :: st.queue := by
          rcases hc with ⟨h4, _⟩ | ⟨rfl, _⟩
          · exact hdone u h4
          · exact hcur
        refine ⟨List.mem_append_left _ hm, ?_⟩
        rw [hold _ hm, hold _ hu]
        exact hr
      · refine ⟨List.mem_append_right _ (List.mem_singleton_self _), ?_⟩
        rw [hvc, hold _ hcur, rank_snoc]
    · intro z hz
      change z ∈ done ++ cur :: (st.queue ++ [stepTo cur k]) at hz
      rw [hord, List.mem_append, List.mem_singleton] at hz
      rcases hz with hz | rfl
      · rw [hold z hz]
        exact hI.valid z hz
      · rw [hvc]
        obtain ⟨hv1, hv2⟩ := hI.valid cur hcur
        refine ⟨(validCode_snoc s start _ _).mpr ⟨hv1, hk, ?_⟩, ?_⟩
        · rw [hv2]
          exact hopen
        · rw [endOf_snoc, hv2]
    · intro z hz
      change z ∈ done ++ cur :: (st.queue ++ [stepTo cur k]) at hz
      show _ < (done ++ cur :: (st.queue ++ [stepTo cur k])).length
      rw [hord] at hz ⊢
      rw [List.length_append, List.length_singleton]
      rw [List.mem_append, List.mem_singleton] at hz
      rcases hz with hz | rfl
      · rw [hold z hz]
        exact Nat.lt_succ_of_lt (hI.short z hz)
      · rw [hvc, List.length_append, List.length_singleton]
        exact Nat.succ_lt_succ (hI.short cur hcur)
    · exact hI.notEnd
  · refine ⟨st, code, visit_skip s hB cur (dirAt k) st ?_, ?_⟩
    · by_cases ho : Open s (stepTo cur k)
      · right
        by_contra hc
        exact hadd ⟨ho, hc⟩
      · exact Or.inl ho
    · constructor
      · exact hI.nodup
      · exact hI.vis
      · exact hI.startIn
      · exact hI.startCode
      · intro z hz hzs
        obtain ⟨u, d, h1, h2, h3, h4⟩ := hI.par z hz hzs
        refine ⟨u, d, h1, h2, h3, ?_⟩
        rcases h4 with h4 | ⟨h4, h5⟩
        · exact Or.inl h4
        · exact Or.inr ⟨h4, by omega⟩
      · exact hI.sorted
      · intro u d hud hop
        have hcases : ((u ∈ done ∧ d < 4) ∨ (u = cur ∧ d < k)) ∨ (u = cur ∧ d = k) := by
          rcases hud with h | ⟨h1, h2⟩
          · exact Or.inl (Or.inl h)
          · rcases Nat.lt_succ_iff_lt_or_eq.mp h2 with h3 | h3
            · exact Or.inl (Or.inr ⟨h1, h3⟩)
            · exact Or.inr ⟨h1, h3⟩
        rcases hcases with hc | ⟨rfl, rfl⟩
        · exact hI.closed u d hc hop
        · have hv : stepTo u d ∈ st.visited := by
            by_contra hc
            exact hadd ⟨hop, hc⟩
          have hm := (hI.vis _).mp hv
          exact ⟨hm, Nat.le_of_lt (inv_rank_lt hI _ hm)⟩
      · exact hI.valid
      · exact hI.short
      · exact hI.notEnd

/-! ## One node expansion and the whole loop -/

theorem inv_expand {T : Type} [DecidableEq T] {s : MazeSolver T} (hB : Built s)
    {start e : Point} {done : List Point} {cur : Point} {st : BfsState}
    {code : Point → List Nat} (hI : Inv s start e done cur 0 st code) :
    ∃ st4 code4, expandDirs s cur directions st = .ok st4 ∧
      Inv s start e done cur 4 st4 code4 := by
  obtain ⟨st1, code1, hv1, hI1⟩ := inv_visit hB hI (by omega)
  obtain ⟨st2, code2, hv2, hI2⟩ := inv_visit hB hI1 (by omega)
  obtain ⟨st3, code3, hv3, hI3⟩ := inv_visit hB hI2 (by omega)
  obtain ⟨st4, code4, hv4, hI4⟩ := inv_visit hB hI3 (by omega)
  refine ⟨st4, code4, ?_, hI4⟩
  have hd : directions = [dirAt 0, dirAt 1, dirAt 2, dirAt 3] := rfl
  rw [hd]
  simp only [expandDirs, hv1, hv2, hv3, hv4]

theorem inv_next {T : Type} {s : MazeSolver T} {start e : Point} {done : List Point}
    {cur cur1 : Point} {q visited : List Point} {parents : ParentMap}
    {code : Point → List Nat}
    (hI : Inv s start e done cur 4 ⟨cur1 :: q, visited, parents⟩ code) (hne : cur ≠ e) :
    Inv s start e (done ++ [cur]) cur1 0 ⟨q, visited, parents⟩ code := by
  have hord : (done ++ [cur]) ++ cur1 :: q = done ++ cur :: cur1 :: q := by simp
  constructor
  · show ((done ++ [cur]) ++ cur1 :: q).Nodup
    rw [hord]
    exact hI.nodup
  · intro p
    show p ∈ visited ↔ p ∈ (done ++ [cur]) ++ cur1 :: q
    rw [hord]
    exact hI.vis p
  · have := hI.startIn
    exact List.mem_append_left _ this
  · exact hI.startCode
  · intro v hv hvs
    change v ∈ (done ++ [cur]) ++ cur1 :: q at hv
    rw [hord] at hv
    obtain ⟨u, d, h1, h2, h3, h4⟩ := hI.par v hv hvs
    refine ⟨u, d, h1, h2, h3, Or.inl ?_⟩
    rcases h4 with h4 | ⟨rfl, _⟩
    · exact List.mem_append_left _ h4
    · exact List.mem_append_right _ (List.mem_singleton_self _)
  · show ((done ++ [cur]) ++ cur1 :: q).Pairwise _
    rw [hord]
    exact hI.sorted
  · intro u d hud hop
    show stepTo u d ∈ (done ++ [cur]) ++ cur1 :: q ∧ _
    rw [hord]
    refine hI.closed u d ?_ hop
    rcases hud with ⟨h1, h2⟩ | ⟨_, h2⟩
    · rw [List.mem_append, List.mem_singleton] at h1
      rcases h1 with h1 | h1
      · exact Or.inl ⟨h1, h2⟩
      · exact Or.inr ⟨h1, h2⟩
    · omega
  · intro v hv
    change v ∈ (done ++ [cur]) ++ cur1 :: q at hv
    rw [hord] at hv
    exact hI.valid v hv
  · intro v hv
    change v ∈ (done ++ [cur]) ++ cur1 :: q at hv
    show _ < ((done ++ [cur]) ++ cur1 :: q).length
    rw [hord] at hv ⊢
    exact hI.short v hv
  · intro h
    rw [List.mem_append, List.mem_singleton] at h
    rcases h with h | h
    · exact hI.notEnd h
    · exact hne h.symm

theorem inbounds_length_le {T : Type} (s : MazeSolver T) (hB : Built s) (l : List Point)
    (hnd : l.Nodup) (hin : ∀ p ∈ l, InBounds s p) : l.length ≤ (s.rows * s.cols).toNat := by
  obtain ⟨hr0, _, hc0, _, _, _⟩ := hB
  have hnd2 : (l.map (fun p : Point => (p.Row.toNat, p.Col.toNat))).Nodup := by
    refine List.Nodup.map_on ?_ hnd
    intro x hx y hy hxy
    obtain ⟨x1, _, x2, _⟩ := hin x hx
    obtain ⟨y1, _, y2, _⟩ := hin y hy
    simp only [Prod.mk.injEq] at hxy
    obtain ⟨xr, xc⟩ := x
    obtain ⟨yr, yc⟩ := y
    simp only at x1 x2 y1 y2 hxy
    have h1 : xr = yr := by omega
    have h2 : xc = yc := by omega
    rw [h1, h2]
  have hsub : (l.map (fun p : Point => (p.Row.toNat, p.Col.toNat))).toFinset ⊆
      Finset.range s.rows.toNat ×ˢ Finset.range s.cols.toNat := by
    intro x hx
    rw [List.mem_toFinset, List.mem_map] at hx
    obtain ⟨p, hp, rfl⟩ := hx
    obtain ⟨p1, p2, p3, p4⟩ := hin p hp
    rw [Finset.mem_product, Finset.mem_range, Finset.mem_range]
    constructor <;> simp only <;> omega
  have hmul : (s.rows * s.cols).toNat = s.rows.toNat * s.cols.toNat := by
    have e1 : s.rows = (s.rows.toNat : Int) := (Int.toNat_of_nonneg (by omega)).symm
    have e2 : s.cols = (s.cols.toNat : Int) := (Int.toNat_of_nonneg (by omega)).symm
    rw [e1, e2, ← Nat.cast_mul, Int.toNat_natCast, Int.toNat_natCast, Int.toNat_natCast]
  calc l.length = (l.map (fun p : Point => (p.Row.toNat, p.Col.toNat))).length := by simp
    _ = (l.map (fun p : Point => (p.Row.toNat, p.Col.toNat))).toFinset.card :=
        (List.toFinset_card_of_nodup hnd2).symm
    _ ≤ (Finset.range s.rows.toNat ×ˢ Finset.range s.cols.toNat).card :=
        Finset.card_le_card hsub
    _ = s.rows.toNat * s.cols.toNat := by simp
    _ = (s.rows * s.cols).toNat := hmul.symm

theorem inv_open {T : Type} {s : MazeSolver T} {start e : Point} {done : List Point}
    {cur : Point} {k : Nat} {st : BfsState} {code : Point → List Nat}
    (hI : Inv s start e done cur k st code) (v : Point)
    (hv : v ∈ done ++ cur :: st.queue) (hvs : v ≠ start) : Open s v := by
  obtain ⟨u, d, _, _, h3, _⟩ := hI.par v hv hvs
  obtain ⟨hv1, hv2⟩ := hI.valid v hv
  rw [h3] at hv1 hv2
  have := ((validCode_snoc s start _ _).mp hv1).2.2
  rw [endOf_snoc] at hv2
  rw [hv2] at this
  exact this

theorem inv_length_le {T : Type} {s : MazeSolver T} (hB : Built s) {start e : Point}
    {done : List Point} {cur : Point} {k : Nat} {st : BfsState} {code : Point → List Nat}
    (hI : Inv s start e done cur k st code) :
    (done ++ cur :: st.queue).length ≤ solveFuel s := by
  have h1 : ((done ++ cur :: st.queue).erase start).length ≤ (s.rows * s.cols).toNat := by
    refine inbounds_length_le s hB _ (hI.nodup.erase start) ?_
    intro p hp
    have hp2 := (List.Nodup.mem_erase_iff hI.nodup).mp hp
    exact (inv_open hI p hp2.2 hp2.1).1
  have h2 := List.length_erase_le start (done ++ cur :: st.queue)
  have h3 : (done ++ cur :: st.queue).length ≤
      ((done ++ cur :: st.queue).erase start).length + 1 := by
    by_cases hm : start ∈ done ++ cur :: st.queue
    · rw [List.length_erase_of_mem hm]
      omega
    · rw [List.erase_of_not_mem hm]
      omega
  unfold solveFuel
  omega

theorem backWalk_code {T : Type} {s : MazeSolver T} {start e : Point} {done : List Point}
    {cur : Point} {k : Nat} {st : BfsState} {code : Point → List Nat}
    (hI : Inv s start e done cur k st code) (c : List Nat) :
    ∀ (v : Point), v ∈ done ++ cur :: st.queue → code v = c →
      ∀ (fuel : Nat) (acc : List Point), c.length ≤ fuel →
        backWalk st.parents start fuel v acc = .ok (acc ++ (tailPts start c).reverse) := by
  induction c using List.reverseRecOn with
  | nil =>
    intro v hv hc fuel acc _
    have hvs : v = start := by
      by_contra hne
      obtain ⟨u, d, _, _, h3, _⟩ := hI.par v hv hne
      rw [hc] at h3
      exact (List.append_ne_nil_of_right_ne_nil _ (List.cons_ne_nil d [])) h3.symm
    unfold backWalk
    simp [hvs, tailPts]
  | append_singleton c d ih =>
    intro v hv hc fuel acc hfuel
    have hvs : v ≠ start := by
      intro h
      rw [h, hI.startCode] at hc
      exact (List.append_ne_nil_of_right_ne_nil _ (List.cons_ne_nil d [])) hc.symm
    obtain ⟨u, d1, h1, _, h3, h4⟩ := hI.par v hv hvs
    rw [hc] at h3
    have hcu : code u = c := (List.append_inj_left' h3 rfl).symm
    have hu : u ∈ done ++ cur :: st.queue := by
      rcases h4 with h4 | ⟨rfl, _⟩
      · exact List.mem_append_left _ h4
      · simp
    rw [List.length_append, List.length_singleton] at hfuel
    obtain ⟨f, rfl⟩ : ∃ f, fuel = f + 1 := ⟨fuel - 1, by omega⟩
    have hend : stepTo (endOf start c) d = v := by
      have := (hI.valid v hv).2
      rw [hc, endOf_snoc] at this
      exact this
    unfold backWalk
    simp only [hvs, if_false]
    have hget : mapGet st.parents v = u := by
      unfold mapGet
      rw [h1]
    rw [hget, ih u hu hcu f (acc ++ [v]) (by omega), tailPts_snoc, hend]
    simp

theorem reconstructPath_code {T : Type} {s : MazeSolver T} {start e : Point}
    {done : List Point} {cur : Point} {k : Nat} {st : BfsState} {code : Point → List Nat}
    (hI : Inv s start e done cur k st code) (v : Point)
    (hv : v ∈ done ++ cur :: st.queue) (fuel : Nat)
    (hfuel : (done ++ cur :: st.queue).length ≤ fuel) :
    reconstructPath fuel st.parents start v = .ok (start :: tailPts start (code v)) := by
  unfold reconstructPath
  rw [backWalk_code hI (code v) v hv rfl fuel [] (Nat.le_of_lt (Nat.lt_of_lt_of_le
    (hI.short v hv) hfuel))]
  simp

theorem bfsLoop_spec {T : Type} [DecidableEq T] {s : MazeSolver T} (hB : Built s)
    (start e : Point) (pathFuel : Nat) (hpf : solveFuel s ≤ pathFuel) :
    ∀ (fuel : Nat) (done : List Point) (cur : Point) (st : BfsState)
      (code : Point → List Nat),
      Inv s start e done cur 0 st code → solveFuel s ≤ fuel + done.length →
      (∃ done1 st1 code1, Inv s start e done1 e 0 st1 code1 ∧
          bfsLoop s start e pathFuel fuel ⟨cur :: st.queue, st.visited, st.parents⟩ =
            .ok ((start :: tailPts start (code1 e), true), st1.parents)) ∨
      (∃ done1 cur1 st1 code1, Inv s start e done1 cur1 4 st1 code1 ∧ st1.queue = [] ∧
          cur1 ≠ e ∧
          bfsLoop s start e pathFuel fuel ⟨cur :: st.queue, st.visited, st.parents⟩ =
            .ok (([], false), st1.parents)) := by
  intro fuel
  induction fuel with
  | zero =>
    intro done cur st code hI hf
    have hlen := inv_length_le hB hI
    rw [List.length_append, List.length_cons] at hlen
    omega
  | succ f ih =>
    intro done cur st code hI hf
    have hlen := inv_length_le hB hI
    unfold bfsLoop
    simp only []
    by_cases hce : cur = e
    · subst hce
      left
      refine ⟨done, st, code, hI, ?_⟩
      simp only [if_true]
      rw [reconstructPath_code hI cur (by simp) pathFuel (Nat.le_trans hlen hpf)]
    · simp only [hce, if_false]
      obtain ⟨st4, code4, hex, hI4⟩ := inv_expand hB hI
      have heta : (⟨st.queue, st.visited, st.parents⟩ : BfsState) = st := rfl
      rw [heta, hex]
      simp only []
      obtain ⟨q4, v4, p4⟩ := st4
      cases q4 with
      | nil =>
        right
        refine ⟨done, cur, ⟨[], v4, p4⟩, code4, hI4, rfl, hce, ?_⟩
        unfold bfsLoop
        rfl
      | cons cur1 q1 =>
        have hI5 := inv_next hI4 hce
        have := ih (done ++ [cur]) cur1 ⟨q1, v4, p4⟩ code4 hI5 (by
          rw [List.length_append, List.length_singleton]
          omega)
        exact this

/-! ## What the invariant says at the two exits of the loop -/

theorem inv_init {T : Type} (s : MazeSolver T) (start e : Point) (parents : ParentMap) :
    Inv s start e [] start 0 ⟨[], [start], parents⟩ (fun _ => []) := by
  constructor
  · simp
  · intro p
    simp
  · simp
  · rfl
  · intro v hv hvs
    simp only [List.nil_append, List.mem_singleton] at hv
    exact absurd hv hvs
  · simp
  · intro u d hud
    rcases hud with ⟨h, _⟩ | ⟨_, h⟩
    · simp at h
    · omega
  · intro v hv
    simp only [List.nil_append, List.mem_singleton] at hv
    subst hv
    exact ⟨trivial, rfl⟩
  · intro v _
    simp
  · simp

theorem inv_below {T : Type} {s : MazeSolver T} {start e : Point} {done : List Point}
    {cur : Point} {k : Nat} {st : BfsState} {code : Point → List Nat}
    (hI : Inv s start e done cur k st code) (c : List Nat) :
    ValidCode s start c → ∀ x ∈ done, rank c ≤ rank (code x) →
      endOf start c ∈ done ∧ rank (code (endOf start c)) ≤ rank c := by
  have hsort := (List.pairwise_append.mp hI.sorted).2.2
  induction c using List.reverseRecOn with
  | nil =>
    intro _ x hx hr
    rw [endOf_nil, hI.startCode]
    refine ⟨?_, Nat.le_refl _⟩
    have := hI.startIn
    rw [List.mem_append, List.mem_singleton] at this
    rcases this with h | h
    · exact h
    · have h2 := hsort x hx cur (List.mem_cons_self _ _)
      rw [← h, hI.startCode] at h2
      rw [rank_nil] at h2
      omega
  | append_singleton c d ih =>
    intro hval x hx hr
    obtain ⟨hv1, hd, hop⟩ := (validCode_snoc s start c d).mp hval
    rw [rank_snoc] at hr
    obtain ⟨hu, hru⟩ := ih hv1 x hx (by omega)
    obtain ⟨hm, hrw⟩ := hI.closed (endOf start c) d (Or.inl ⟨hu, hd⟩) hop
    rw [endOf_snoc, rank_snoc]
    refine ⟨?_, by omega⟩
    rw [List.mem_append] at hm
    rcases hm with hm | hm
    · exact hm
    · have := hsort x hx _ hm
      omega

theorem inv_min {T : Type} {s : MazeSolver T} {start e : Point} {done : List Point}
    {cur : Point} {st : BfsState} {code : Point → List Nat}
    (hI : Inv s start e done cur 0 st code) (c : List Nat)
    (hval : ValidCode s start c) (hend : endOf start c = cur) :
    rank (code cur) ≤ rank c := by
  by_cases hcs : cur = start
  · rw [hcs, hI.startCode, rank_nil]
    exact Nat.zero_le _
  · rcases nil_or_snoc c with rfl | ⟨c1, d, rfl⟩
    · exact absurd hend.symm hcs
    · obtain ⟨u, dp, _, hdp, hcode, hu⟩ := hI.par cur (by simp) hcs
      have hu1 : u ∈ done := by
        rcases hu with h | ⟨_, h⟩
        · exact h
        · omega
      obtain ⟨hv1, hd, hop⟩ := (validCode_snoc s start c1 d).mp hval
      by_contra hlt
      rw [hcode, rank_snoc, rank_snoc] at hlt
      obtain ⟨hm, hr⟩ := inv_below hI c1 hv1 u hu1 (by omega)
      have hcl := (hI.closed (endOf start c1) d (Or.inl ⟨hm, hd⟩) hop).2
      rw [endOf_snoc] at hend
      rw [hend, hcode, rank_snoc] at hcl
      omega

theorem inv_exhausted {T : Type} {s : MazeSolver T} {start e : Point} {done : List Point}
    {cur : Point} {st : BfsState} {code : Point → List Nat}
    (hI : Inv s start e done cur 4 st code) (hq : st.queue = []) (hne : cur ≠ e)
    (c : List Nat) (hval : ValidCode s start c) : endOf start c ≠ e := by
  have hall : ∀ c, ValidCode s start c → endOf start c ∈ done ++ [cur] := by
    intro c
    induction c using List.reverseRecOn with
    | nil =>
      intro _
      exact hI.startIn
    | append_singleton c d ih =>
      intro hval
      obtain ⟨hv1, hd, hop⟩ := (validCode_snoc s start c d).mp hval
      have hu := ih hv1
      rw [List.mem_append, List.mem_singleton] at hu
      have := (hI.closed (endOf start c) d (by
        rcases hu with h | h
        · exact Or.inl ⟨h, hd⟩
        · exact Or.inr ⟨h, hd⟩) hop).1
      rw [hq] at this
      rw [endOf_snoc]
      exact this
  intro h
  have hm := hall c hval
  rw [h, List.mem_append, List.mem_singleton] at hm
  rcases hm with hm | hm
  · exact hI.notEnd hm
  · exact hne hm.symm

theorem inv_parent_split {T : Type} {s : MazeSolver T} {start e : Point} {done : List Point}
    {cur : Point} {k : Nat} {st : BfsState} {code : Point → List Nat}
    (hI : Inv s start e done cur k st code) (c : List Nat) :
    ∀ v ∈ done ++ cur :: st.queue, code v = c → ∀ c1 d c2, c = c1 ++ d :: c2 →
      mapFind st.parents (stepTo (endOf start c1) d) = some (endOf start c1) := by
  induction c using List.reverseRecOn with
  | nil =>
    intro v _ _ c1 d c2 h
    exact absurd h.symm (List.append_ne_nil_of_right_ne_nil _ (List.cons_ne_nil d c2))
  | append_singleton c x ih =>
    intro v hv hc c1 d c2 hsplit
    have hvs : v ≠ start := by
      intro h
      rw [h, hI.startCode] at hc
      exact (List.append_ne_nil_of_right_ne_nil _ (List.cons_ne_nil x [])) hc.symm
    obtain ⟨u, d1, h1, _, h3, h4⟩ := hI.par v hv hvs
    rw [hc] at h3
    have hcu : code u = c := (List.append_inj_left' h3 rfl).symm
    have hu : u ∈ done ++ cur :: st.queue := by
      rcases h4 with h4 | ⟨rfl, _⟩
      · exact List.mem_append_left _ h4
      · simp
    have hvend : endOf start (c ++ [x]) = v := by
      have := (hI.valid v hv).2
      rw [hc] at this
      exact this
    have huend : endOf start c = u := by
      have := (hI.valid u hu).2
      rw [hcu] at this
      exact this
    rcases nil_or_snoc c2 with rfl | ⟨c3, y, rfl⟩
    · have h5 : c = c1 ∧ x = d := by
        have := List.append_inj' hsplit rfl
        exact ⟨this.1, List.head_eq_of_cons_eq this.2⟩
      obtain ⟨rfl, rfl⟩ := h5
      rw [endOf_snoc] at hvend
      rw [hvend, huend]
      exact h1
    · have h5 : c = c1 ++ d :: c3 := by
        have h6 : c ++ [x] = (c1 ++ d :: c3) ++ [y] := by
          rw [hsplit]
          simp
        exact (List.append_inj' h6 rfl).1
      exact ih u hu hcu c1 d c3 h5

/-! ## Goal location -/

theorem scanCols_spec {T : Type} [DecidableEq T] (s : MazeSolver T) (hB : Built s) (v : T)
    (r : Nat) (hr : (r : Int) < s.rows) :
    ∀ (n c : Nat), c + n = s.cols.toNat →
      (∃ c0 : Nat, scanCols s v r c n = .ok (some ⟨r, c0⟩) ∧ c ≤ c0 ∧ (c0 : Int) < s.cols ∧
          CellIs s ⟨r, c0⟩ v ∧ ∀ c1 : Nat, c ≤ c1 → c1 < c0 → ¬ CellIs s ⟨r, c1⟩ v) ∨
      (scanCols s v r c n = .ok none ∧
          ∀ c1 : Nat, c ≤ c1 → (c1 : Int) < s.cols → ¬ CellIs s ⟨r, c1⟩ v) := by
  intro n
  induction n with
  | zero =>
    intro c hc
    right
    refine ⟨rfl, ?_⟩
    intro c1 h1 h2
    omega
  | succ n ih =>
    intro c hc
    have hin : InBounds s ⟨r, c⟩ := by
      unfold InBounds
      simp only
      omega
    obtain ⟨x, hx⟩ := cell_ok s hB _ hin
    simp only at hx
    unfold scanCols
    rw [hx]
    simp only []
    by_cases hxv : x = v
    · left
      refine ⟨c, by simp only [hxv, if_true], Nat.le_refl _, hin.2.2.2, ?_, ?_⟩
      · show cell s.maze r c = .ok v
        rw [hx, hxv]
      · intro c1 h1 h2
        omega
    · simp only [hxv, if_false]
      have hnot : ¬ CellIs s ⟨r, c⟩ v := by
        intro h
        have h2 : cell s.maze r c = .ok v := h
        rw [hx] at h2
        exact hxv (Except.ok.inj h2)
      rcases ih (c + 1) (by omega) with ⟨c0, h1, h2, h3, h4, h5⟩ | ⟨h1, h2⟩
      · left
        refine ⟨c0, h1, by omega, h3, h4, ?_⟩
        intro c1 hc1 hc2
        by_cases hcc : c1 = c
        · rw [hcc]
          exact hnot
        · exact h5 c1 (by omega) hc2
      · right
        refine ⟨h1, ?_⟩
        intro c1 hc1 hc2
        by_cases hcc : c1 = c
        · rw [hcc]
          exact hnot
        · exact h2 c1 (by omega) hc2

theorem scanRows_spec {T : Type} [DecidableEq T] (s : MazeSolver T) (hB : Built s) (v : T) :
    ∀ (n r : Nat), r + n = s.rows.toNat →
      (∃ p, scanRows s v r n = .ok (some p) ∧ InBounds s p ∧ CellIs s p v ∧
          ∀ q, InBounds s q → (r : Int) ≤ q.Row → Precedes q p → ¬ CellIs s q v) ∨
      (scanRows s v r n = .ok none ∧
          ∀ q, InBounds s q → (r : Int) ≤ q.Row → ¬ CellIs s q v) := by
  intro n
  induction n with
  | zero =>
    intro r hr
    right
    refine ⟨rfl, ?_⟩
    intro q hq h1
    obtain ⟨_, hq2, _, _⟩ := hq
    omega
  | succ n ih =>
    intro r hr
    have hrow : (r : Int) < s.rows := by omega
    have hpt : ∀ q : Point, InBounds s q → q.Row = r → q = ⟨r, (q.Col.toNat : Nat)⟩ := by
      intro q hq h
      obtain ⟨qr, qc⟩ := q
      obtain ⟨_, _, h3, _⟩ := hq
      simp only at h h3
      simp only [Point.mk.injEq]
      omega
    unfold scanRows
    rcases scanCols_spec s hB v r hrow s.cols.toNat 0 (by omega) with
      ⟨c0, h1, _, h3, h4, h5⟩ | ⟨h1, h2⟩
    · left
      rw [h1]
      refine ⟨⟨r, c0⟩, rfl, ?_, h4, ?_⟩
      · unfold InBounds
        simp only
        omega
      · intro q hq hqr hprec
        have hqrow : q.Row = r := by
          rcases hprec with h | ⟨h, _⟩
          · simp only at h
            omega
          · exact h
        rw [hpt q hq hqrow]
        refine h5 _ (Nat.zero_le _) ?_
        have hq0 := hq.2.2.1
        rcases hprec with h | ⟨_, h⟩
        · simp only at h
          omega
        · simp only at h
          omega
    · rw [h1]
      simp only []
      have hnone : ∀ q, InBounds s q → q.Row = r → ¬ CellIs s q v := by
        intro q hq hqr
        rw [hpt q hq hqr]
        refine h2 _ (Nat.zero_le _) ?_
        have hq0 := hq.2.2.1
        have := hq.2.2.2
        omega
      rcases ih (r + 1) (by omega) with ⟨p, g1, g2, g3, g4⟩ | ⟨g1, g2⟩
      · left
        refine ⟨p, g1, g2, g3, ?_⟩
        intro q hq hqr hprec
        by_cases hrr : q.Row = r
        · exact hnone q hq hrr
        · exact g4 q hq (by push_cast; omega) hprec
      · right
        refine ⟨g1, ?_⟩
        intro q hq hqr
        by_cases hrr : q.Row = r
        · exact hnone q hq hrr
        · exact g2 q hq (by push_cast; omega)

theorem findEndNode_cases {T : Type} [DecidableEq T] (s : MazeSolver T) (hB : Built s)
    (v : T) :
    (∃ e, findEndNode s v = .ok (e, true) ∧ FirstMatch s v e) ∨
    (findEndNode s v = .ok (⟨0, 0⟩, false) ∧ ∀ q, InBounds s q → ¬ CellIs s q v) := by
  unfold findEndNode
  rcases scanRows_spec s hB v s.rows.toNat 0 (by omega) with ⟨p, g1, g2, g3, g4⟩ | ⟨g1, g2⟩
  · left
    rw [g1]
    exact ⟨p, rfl, g2, g3, fun q hq hprec => g4 q hq (by simpa using hq.1) hprec⟩
  · right
    rw [g1]
    exact ⟨rfl, fun q hq => g2 q hq (by simpa using hq.1)⟩

theorem SolveBFS_inv {T : Type} [DecidableEq T] (s : MazeSolver T) (hB : Built s)
    (start : Point) (v : T) :
    (SolveBFS s start v = .ok (([], false), s) ∧ ∀ q, InBounds s q → ¬ CellIs s q v) ∨
    (∃ e, FirstMatch s v e ∧
      ((∃ done st code, Inv s start e done e 0 st code ∧
          SolveBFS s start v = .ok ((start :: tailPts start (code e), true),
            { s with parents := st.parents })) ∨
       (∃ done cur st code, Inv s start e done cur 4 st code ∧ st.queue = [] ∧ cur ≠ e ∧
          SolveBFS s start v = .ok (([], false), { s with parents := st.parents })))) := by
  unfold SolveBFS
  rcases findEndNode_cases s hB v with ⟨e, h1, h2⟩ | ⟨h1, h2⟩
  · right
    rw [h1]
    refine ⟨e, h2, ?_⟩
    simp only []
    rcases bfsLoop_spec hB start e (solveFuel s) (Nat.le_refl _) (solveFuel s) [] start
        ⟨[], [start], s.parents⟩ (fun _ => []) (inv_init s start e s.parents)
        (by simp) with ⟨done1, st1, code1, hI, hrun⟩ | ⟨done1, cur1, st1, code1, hI, hq, hne, hrun⟩
    · left
      refine ⟨done1, st1, code1, hI, ?_⟩
      rw [hrun]
    · right
      refine ⟨done1, cur1, st1, code1, hI, hq, hne, ?_⟩
      rw [hrun]
  · left
    rw [h1]
    exact ⟨rfl, h2⟩

/-! ## Move codes and sequences of cells -/

theorem fits_of_inBounds {T : Type} {s : MazeSolver T} (hB : Built s) {p : Point}
    (hp : InBounds s p) : Fits64 p := by
  obtain ⟨_, h2, _, h4, _, _⟩ := hB
  obtain ⟨p1, p2, p3, p4⟩ := hp
  unfold Fits64
  omega

theorem stepTo_zero (a : Point) :
    stepTo a 0 = ⟨wrap64 (a.Row + -1), wrap64 (a.Col + 0)⟩ := rfl

theorem stepTo_one (a : Point) :
    stepTo a 1 = ⟨wrap64 (a.Row + 1), wrap64 (a.Col + 0)⟩ := rfl

theorem stepTo_two (a : Point) :
    stepTo a 2 = ⟨wrap64 (a.Row + 0), wrap64 (a.Col + -1)⟩ := rfl

theorem stepTo_three (a : Point) :
    stepTo a 3 = ⟨wrap64 (a.Row + 0), wrap64 (a.Col + 1)⟩ := rfl

theorem stepTo_delta {T : Type} {s : MazeSolver T} (hB : Built s) (a : Point)
    (ha : Fits64 a) (d : Nat) (hd : d < 4) (hin : InBounds s (stepTo a d)) :
    (d = 0 ∧ stepTo a d = ⟨a.Row - 1, a.Col⟩) ∨ (d = 1 ∧ stepTo a d = ⟨a.Row + 1, a.Col⟩) ∨
    (d = 2 ∧ stepTo a d = ⟨a.Row, a.Col - 1⟩) ∨ (d = 3 ∧ stepTo a d = ⟨a.Row, a.Col + 1⟩) := by
  obtain ⟨_, h2, _, h4, _, _⟩ := hB
  obtain ⟨a1, a2, a3, a4⟩ := ha
  unfold InBounds at hin
  interval_cases d
  · left
    rw [stepTo_zero] at hin ⊢
    simp only [wrap64, Point.mk.injEq] at hin ⊢
    refine ⟨trivial, ?_, ?_⟩ <;> omega
  · right; left
    rw [stepTo_one] at hin ⊢
    simp only [wrap64, Point.mk.injEq] at hin ⊢
    refine ⟨trivial, ?_, ?_⟩ <;> omega
  · right; right; left
    rw [stepTo_two] at hin ⊢
    simp only [wrap64, Point.mk.injEq] at hin ⊢
    refine ⟨trivial, ?_, ?_⟩ <;> omega
  · right; right; right
    rw [stepTo_three] at hin ⊢
    simp only [wrap64, Point.mk.injEq] at hin ⊢
    refine ⟨trivial, ?_, ?_⟩ <;> omega

theorem stepTo_adjacent {T : Type} {s : MazeSolver T} (hB : Built s) (a : Point)
    (ha : Fits64 a) (d : Nat) (hd : d < 4) (hin : InBounds s (stepTo a d)) :
    Adjacent4 a (stepTo a d) ∧ moveOf a (stepTo a d) = d := by
  rcases stepTo_delta hB a ha d hd hin with ⟨h1, h2⟩ | ⟨h1, h2⟩ | ⟨h1, h2⟩ | ⟨h1, h2⟩
  · rw [h2, h1]
    refine ⟨?_, ?_⟩
    · exact Or.inr ⟨rfl, Or.inr (by show a.Row - 1 + 1 = a.Row; omega)⟩
    · have : (⟨a.Row - 1 - a.Row, a.Col - a.Col⟩ : Point) = ⟨-1, 0⟩ := by
        simp only [Point.mk.injEq]
        omega
      unfold moveOf
      simp only [this]
      decide
  · rw [h2, h1]
    refine ⟨?_, ?_⟩
    · exact Or.inr ⟨rfl, Or.inl rfl⟩
    · have : (⟨a.Row + 1 - a.Row, a.Col - a.Col⟩ : Point) = ⟨1, 0⟩ := by
        simp only [Point.mk.injEq]
        omega
      unfold moveOf
      simp only [this]
      decide
  · rw [h2, h1]
    refine ⟨?_, ?_⟩
    · exact Or.inl ⟨rfl, Or.inr (by show a.Col - 1 + 1 = a.Col; omega)⟩
    · have : (⟨a.Row - a.Row, a.Col - 1 - a.Col⟩ : Point) = ⟨0, -1⟩ := by
        simp only [Point.mk.injEq]
        omega
      unfold moveOf
      simp only [this]
      decide
  · rw [h2, h1]
    refine ⟨?_, ?_⟩
    · exact Or.inl ⟨rfl, Or.inl rfl⟩
    · have : (⟨a.Row - a.Row, a.Col + 1 - a.Col⟩ : Point) = ⟨0, 1⟩ := by
        simp only [Point.mk.injEq]
        omega
      unfold moveOf
      simp only [this]
      decide

theorem adjacent_stepTo {T : Type} {s : MazeSolver T} (hB : Built s) (a b : Point)
    (hab : Adjacent4 a b) (hb : InBounds s b) : ∃ d, d < 4 ∧ stepTo a d = b := by
  obtain ⟨_, h2, _, h4, _, _⟩ := hB
  obtain ⟨b1, b2, b3, b4⟩ := hb
  obtain ⟨br, bc⟩ := b
  simp only at b1 b2 b3 b4
  unfold Adjacent4 at hab
  simp only at hab
  rcases hab with ⟨h1, h3 | h3⟩ | ⟨h1, h3 | h3⟩
  · refine ⟨3, by omega, ?_⟩
    rw [stepTo_three]
    simp only [wrap64, Point.mk.injEq]
    constructor <;> omega
  · refine ⟨2, by omega, ?_⟩
    rw [stepTo_two]
    simp only [wrap64, Point.mk.injEq]
    constructor <;> omega
  · refine ⟨1, by omega, ?_⟩
    rw [stepTo_one]
    simp only [wrap64, Point.mk.injEq]
    constructor <;> omega
  · refine ⟨0, by omega, ?_⟩
    rw [stepTo_zero]
    simp only [wrap64, Point.mk.injEq]
    constructor <;> omega

theorem getLast_tailPts (a : Point) (c : List Nat) :
    (a :: tailPts a c).getLast? = some (endOf a c) := by
  induction c generalizing a with
  | nil => rfl
  | cons d c ih =>
    show (a :: stepTo a d :: tailPts (stepTo a d) c).getLast? = _
    rw [List.getLast?_cons_cons, ih, endOf_cons]

theorem length_tailPts (a : Point) (c : List Nat) : (tailPts a c).length = c.length := by
  induction c generalizing a with
  | nil => rfl
  | cons d c ih => simp [tailPts, ih]

theorem validCode_lt {T : Type} {s : MazeSolver T} {a : Point} {c : List Nat}
    (h : ValidCode s a c) : ∀ d ∈ c, d < 4 := by
  induction c generalizing a with
  | nil => simp
  | cons x c ih =>
    obtain ⟨h1, _, h3⟩ := h
    intro d hd
    rw [List.mem_cons] at hd
    rcases hd with rfl | hd
    · exact h1
    · exact ih h3 d hd

theorem validCode_open {T : Type} {s : MazeSolver T} {a : Point} {c : List Nat}
    (h : ValidCode s a c) : ∀ p ∈ tailPts a c, Open s p := by
  induction c generalizing a with
  | nil => simp [tailPts]
  | cons x c ih =>
    obtain ⟨_, h2, h3⟩ := h
    intro p hp
    simp only [tailPts, List.mem_cons] at hp
    rcases hp with rfl | hp
    · exact h2
    · exact ih h3 p hp

theorem validCode_chain {T : Type} {s : MazeSolver T} (hB : Built s) {a : Point}
    {c : List Nat} (ha : Fits64 a) (h : ValidCode s a c) :
    List.Chain' Adjacent4 (a :: tailPts a c) ∧ movesOf (a :: tailPts a c) = c := by
  induction c generalizing a with
  | nil => exact ⟨List.chain'_singleton a, rfl⟩
  | cons x c ih =>
    obtain ⟨h1, h2, h3⟩ := h
    obtain ⟨g1, g2⟩ := stepTo_adjacent hB a ha x h1 h2.1
    obtain ⟨i1, i2⟩ := ih (fits_of_inBounds hB h2.1) h3
    refine ⟨?_, ?_⟩
    · show List.Chain' Adjacent4 (a :: stepTo a x :: tailPts (stepTo a x) c)
      exact List.chain'_cons.mpr ⟨g1, i1⟩
    · show moveOf a (stepTo a x) :: movesOf (stepTo a x :: tailPts (stepTo a x) c) = x :: c
      rw [g2, i2]

theorem code_of_walk {T : Type} {s : MazeSolver T} (hB : Built s) (q : List Point) :
    ∀ a, List.Chain' Adjacent4 (a :: q) → (∀ p ∈ q, Open s p) →
      ∃ c, ValidCode s a c ∧ tailPts a c = q := by
  induction q with
  | nil =>
    intro a _ _
    exact ⟨[], trivial, rfl⟩
  | cons b q ih =>
    intro a hch hop
    obtain ⟨hab, hch2⟩ := List.chain'_cons.mp hch
    have hb := hop b (List.mem_cons_self _ _)
    obtain ⟨d, hd, hstep⟩ := adjacent_stepTo hB a b hab hb.1
    obtain ⟨c, hc1, hc2⟩ := ih b hch2 (fun p hp => hop p (List.mem_cons_of_mem _ hp))
    refine ⟨d :: c, ⟨hd, ?_, ?_⟩, ?_⟩
    · rw [hstep]
      exact hb
    · rw [hstep]
      exact hc1
    · show stepTo a d :: tailPts (stepTo a d) c = b :: q
      rw [hstep, hc2]

/-! ## Ranks order move codes by length, then lexicographically -/

theorem rank_bounds (c : List Nat) (h : ∀ d ∈ c, d < 4) :
    4 ^ c.length ≤ 3 * rank c + 1 ∧ 3 * rank c + 4 ≤ 4 ^ (c.length + 1) := by
  induction c using List.reverseRecOn with
  | nil => simp [rank]
  | append_singleton c d ih =>
    have hd : d < 4 := h d (by simp)
    obtain ⟨h1, h2⟩ := ih (fun x hx => h x (by simp [hx]))
    rw [rank_snoc, List.length_append, List.length_singleton]
    have e1 : 4 ^ (c.length + 1) = 4 * 4 ^ c.length := by ring
    have e2 : 4 ^ (c.length + 1 + 1) = 4 * 4 ^ (c.length + 1) := by ring
    omega

theorem rank_length (a b : List Nat) (ha : ∀ d ∈ a, d < 4) (hb : ∀ d ∈ b, d < 4)
    (h : rank a ≤ rank b) : a.length ≤ b.length := by
  by_contra hlt
  have h1 := (rank_bounds a ha).1
  have h2 := (rank_bounds b hb).2
  have h3 : 4 ^ (b.length + 1) ≤ 4 ^ a.length :=
    Nat.pow_le_pow_right (by omega) (by omega)
  omega

theorem foldl_rank (a : List Nat) (init : Nat) :
    a.foldl (fun v d => 4 * v + d + 1) init = init * 4 ^ a.length + rank a := by
  induction a generalizing init with
  | nil => simp [rank]
  | cons x a ih =>
    have h1 := ih (4 * init + x + 1)
    have h2 := ih (4 * 0 + x + 1)
    simp only [rank, List.foldl_cons, List.length_cons] at h1 h2 ⊢
    rw [h1, h2]
    ring

theorem rank_cons (x : Nat) (a : List Nat) :
    rank (x :: a) = (x + 1) * 4 ^ a.length + rank a := by
  have h := foldl_rank a (4 * 0 + x + 1)
  simp only [rank, List.foldl_cons] at h ⊢
  rw [h]
  ring

theorem rank_lex (a : List Nat) :
    ∀ b : List Nat, a.length = b.length → (∀ d ∈ a, d < 4) → (∀ d ∈ b, d < 4) →
      rank a ≤ rank b → lexLe a b = true := by
  induction a with
  | nil =>
    intro b _ _ _ _
    rfl
  | cons x a ih =>
    intro b hlen ha hb hr
    cases b with
    | nil => simp at hlen
    | cons y b =>
      simp only [List.length_cons, Nat.succ.injEq, add_left_inj] at hlen
      have ha1 : ∀ d ∈ a, d < 4 := fun d hd => ha d (List.mem_cons_of_mem _ hd)
      have hb1 : ∀ d ∈ b, d < 4 := fun d hd => hb d (List.mem_cons_of_mem _ hd)
      have A := rank_bounds a ha1
      have B := rank_bounds b hb1
      rw [rank_cons, rank_cons, hlen] at hr
      rw [hlen] at A
      have hxy : x ≤ y := by
        by_contra hgt
        have h1 : (y + 1 + 1) * 4 ^ b.length ≤ (x + 1) * 4 ^ b.length :=
          Nat.mul_le_mul_right _ (by omega)
        have h2 : (y + 1 + 1) * 4 ^ b.length = (y + 1) * 4 ^ b.length + 4 ^ b.length := by
          ring
        have e1 : 4 ^ (b.length + 1) = 4 * 4 ^ b.length := by ring
        omega
      show (decide (x < y) || (decide (x = y) && lexLe a b)) = true
      rcases Nat.lt_or_eq_of_le hxy with h | h
      · simp [h]
      · subst h
        have hr2 : rank a ≤ rank b := by omega
        simp [ih b hlen ha1 hb1 hr2]

/-! ## Fresh solvers and the first match -/

theorem built_of_new {T : Type} {maze : List (List T)} {wall : T} {s : MazeSolver T}
    (hR : Rect maze) (hs : NewMazeSolver maze wall = .ok s) :
    Built s ∧ s.parents = [] ∧ s.maze = maze ∧ s.wall = wall := by
  obtain ⟨h1, h2, w, h3, h4, h5⟩ := hR
  cases maze with
  | nil => simp at h1
  | cons row0 rest =>
    simp only [NewMazeSolver, Except.ok.injEq] at hs
    subst hs
    have hw : row0.length = w := h5 row0 (List.mem_cons_self _ _)
    refine ⟨⟨?_, h2, ?_, ?_, rfl, ?_⟩, rfl, rfl, rfl⟩
    · show (0 : Int) < ((row0 :: rest).length : Int)
      exact_mod_cast h1
    · show (0 : Int) < (row0.length : Int)
      rw [hw]
      exact_mod_cast h3
    · show (row0.length : Int) < 9223372036854775808
      rw [hw]
      exact h4
    · intro row hrow
      show (row.length : Int) = (row0.length : Int)
      rw [h5 row hrow, hw]

theorem firstMatch_unique {T : Type} {s : MazeSolver T} {v : T} {e e1 : Point}
    (h : FirstMatch s v e) (h1 : FirstMatch s v e1) : e = e1 := by
  obtain ⟨a1, a2, a3⟩ := h
  obtain ⟨b1, b2, b3⟩ := h1
  by_contra hne
  have hcases : Precedes e e1 ∨ Precedes e1 e := by
    obtain ⟨er, ec⟩ := e
    obtain ⟨fr, fc⟩ := e1
    unfold Precedes
    simp only [Point.mk.injEq] at hne ⊢
    omega
  rcases hcases with hp | hp
  · exact b3 e a1 hp a2
  · exact a3 e1 b1 hp b2

/-! ## Runs of `SolveBFS` -/

theorem SolveBFS_found {T : Type} [DecidableEq T] {s : MazeSolver T} (hB : Built s)
    {start : Point} {v : T} {path : List Point} {s1 : MazeSolver T}
    (hrun : SolveBFS s start v = .ok ((path, true), s1)) :
    ∃ e done st code, FirstMatch s v e ∧ Inv s start e done e 0 st code ∧
      path = start :: tailPts start (code e) ∧ s1 = { s with parents := st.parents } := by
  rcases SolveBFS_inv s hB start v with ⟨h1, _⟩ | ⟨e, he, h⟩
  · rw [h1] at hrun
    simp at hrun
  · rcases h with ⟨done, st, code, hI, h1⟩ | ⟨done, cur, st, code, _, _, _, h1⟩
    · rw [h1] at hrun
      simp only [Except.ok.injEq, Prod.mk.injEq, and_true] at hrun
      exact ⟨e, done, st, code, he, hI, hrun.1.symm, hrun.2.symm⟩
    · rw [h1] at hrun
      simp at hrun

theorem SolveBFS_notFound {T : Type} [DecidableEq T] {s : MazeSolver T} (hB : Built s)
    {start : Point} {v : T} {path : List Point} {s1 : MazeSolver T}
    (hrun : SolveBFS s start v = .ok ((path, false), s1)) :
    path = [] ∧ ((∀ q, InBounds s q → ¬ CellIs s q v) ∨
      ∃ e, FirstMatch s v e ∧ ∀ c, ValidCode s start c → endOf start c ≠ e) := by
  rcases SolveBFS_inv s hB start v with ⟨h1, h2⟩ | ⟨e, he, h⟩
  · rw [h1] at hrun
    simp only [Except.ok.injEq, Prod.mk.injEq, and_true] at hrun
    exact ⟨hrun.1.symm, Or.inl h2⟩
  · rcases h with ⟨done, st, code, _, h1⟩ | ⟨done, cur, st, code, hI, hq, hne, h1⟩
    · rw [h1] at hrun
      simp at hrun
    · rw [h1] at hrun
      simp only [Except.ok.injEq, Prod.mk.injEq, and_true] at hrun
      exact ⟨hrun.1.symm, Or.inr ⟨e, he, inv_exhausted hI hq hne⟩⟩

theorem SolveBFS_returns {T : Type} [DecidableEq T] (s : MazeSolver T) (hB : Built s)
    (start : Point) (v : T) :
    ∃ path found s1, SolveBFS s start v = .ok ((path, found), s1) := by
  rcases SolveBFS_inv s hB start v with ⟨h1, _⟩ | ⟨e, _, h⟩
  · exact ⟨_, _, _, h1⟩
  · rcases h with ⟨_, _, _, _, h1⟩ | ⟨_, _, _, _, _, _, _, h1⟩
    · exact ⟨_, _, _, h1⟩
    · exact ⟨_, _, _, h1⟩

theorem reach_iff_code {T : Type} {s : MazeSolver T} (hB : Built s) (start e : Point)
    (hstart : Fits64 start) :
    Reach s start e ↔ ∃ c, ValidCode s start c ∧ endOf start c = e := by
  constructor
  · rintro ⟨q, h1, h2, h3, h4⟩
    cases q with
    | nil => simp at h1
    | cons a q =>
      simp only [List.head?_cons, Option.some.injEq] at h1
      subst h1
      obtain ⟨c, hc1, hc2⟩ := code_of_walk hB q a h3 h4
      refine ⟨c, hc1, ?_⟩
      have := getLast_tailPts a c
      rw [hc2, h2] at this
      exact (Option.some.inj this).symm
  · rintro ⟨c, hc1, hc2⟩
    refine ⟨start :: tailPts start c, rfl, ?_, (validCode_chain hB hstart hc1).1,
      validCode_open hc1⟩
    rw [getLast_tailPts, hc2]

theorem found_iff_code {T : Type} [DecidableEq T] (s : MazeSolver T) (hB : Built s)
    (start : Point) (v : T) :
    (∃ path s1, SolveBFS s start v = .ok ((path, true), s1)) ↔
      ∃ e c, FirstMatch s v e ∧ ValidCode s start c ∧ endOf start c = e := by
  constructor
  · rintro ⟨path, s1, hrun⟩
    obtain ⟨e, done, st, code, he, hI, _, _⟩ := SolveBFS_found hB hrun
    have := hI.valid e (by simp)
    exact ⟨e, code e, he, this.1, this.2⟩
  · rintro ⟨e, c, he, hc1, hc2⟩
    obtain ⟨path, found, s1, hrun⟩ := SolveBFS_returns s hB start v
    cases found with
    | true => exact ⟨path, s1, hrun⟩
    | false =>
      rcases (SolveBFS_notFound hB hrun).2 with h | ⟨e1, he1, h⟩
      · exact absurd he.2.1 (h e he.1)
      · have := firstMatch_unique he he1
        subst this
        exact absurd hc2 (h c hc1)

theorem cell_mem {T : Type} (maze : List (List T)) (r c : Int) (v : T)
    (h : cell maze r c = .ok v) : ∃ row ∈ maze, v ∈ row := by
  have hidx : ∀ {α : Type} (xs : List α) (i : Int) (x : α), index xs i = .ok x → x ∈ xs := by
    intro α xs i x hx
    unfold index at hx
    by_cases hi : i < 0
    · simp [hi] at hx
    · simp only [hi, if_false] at hx
      cases hget : xs.get? i.toNat with
      | none =>
        rw [hget] at hx
        simp at hx
      | some y =>
        rw [hget] at hx
        simp only [Except.ok.injEq] at hx
        subst hx
        exact List.get?_mem hget
  unfold cell at h
  cases hrow : index maze r with
  | error err =>
    rw [hrow] at h
    simp at h
  | ok row =>
    rw [hrow] at h
    exact ⟨row, hidx maze r row hrow, hidx row c v h⟩

theorem validCode_append {T : Type} (s : MazeSolver T) (a : Point) (c1 c2 : List Nat) :
    ValidCode s a (c1 ++ c2) ↔ ValidCode s a c1 ∧ ValidCode s (endOf a c1) c2 := by
  induction c1 generalizing a with
  | nil => simp [ValidCode, endOf]
  | cons x c1 ih =>
    have h := ih (stepTo a x)
    show (x < 4 ∧ Open s (stepTo a x) ∧ ValidCode s (stepTo a x) (c1 ++ c2)) ↔
      (x < 4 ∧ Open s (stepTo a x) ∧ ValidCode s (stepTo a x) c1) ∧
        ValidCode s (endOf (stepTo a x) c1) c2
    rw [h]
    tauto

theorem endOf_inBounds {T : Type} {s : MazeSolver T} {a : Point} {c : List Nat}
    (ha : InBounds s a) (h : ValidCode s a c) : InBounds s (endOf a c) := by
  induction c generalizing a with
  | nil => exact ha
  | cons x c ih =>
    obtain ⟨_, h2, h3⟩ := h
    exact ih h2.1 h3

theorem consec_tailPts (c : List Nat) :
    ∀ (a : Point) (i : Nat) (p0 p : Point), (a :: tailPts a c).get? i = some p0 →
      (a :: tailPts a c).get? (i + 1) = some p →
      ∃ c1 d c2, c = c1 ++ d :: c2 ∧ p0 = endOf a c1 ∧ p = stepTo p0 d := by
  induction c with
  | nil =>
    intro a i p0 p _ h1
    simp [tailPts] at h1
  | cons x c ih =>
    intro a i p0 p h0 h1
    cases i with
    | zero =>
      simp only [List.get?_cons_zero, Option.some.injEq] at h0
      simp only [tailPts, List.get?_cons_succ, List.get?_cons_zero, Option.some.injEq] at h1
      subst h0
      exact ⟨[], x, c, rfl, rfl, h1.symm⟩
    | succ j =>
      have h0a : (stepTo a x :: tailPts (stepTo a x) c).get? j = some p0 := h0
      have h1a : (stepTo a x :: tailPts (stepTo a x) c).get? (j + 1) = some p := h1
      obtain ⟨c1, d, c2, g1, g2, g3⟩ := ih (stepTo a x) j p0 p h0a h1a
      exact ⟨x :: c1, d, c2, by rw [g1]; rfl, g2, g3⟩

theorem glyphs_of_step (p0 p : Point) (h1 : 0 ≤ p0.Row) (h2 : p0.Row + 1 < 9223372036854775808)
    (h3 : 0 ≤ p0.Col) (h4 : p0.Col + 1 < 9223372036854775808) :
    (p = ⟨p0.Row - 1, p0.Col⟩ → glyphs p0 p = [Glyph.up]) ∧
    (p = ⟨p0.Row + 1, p0.Col⟩ → glyphs p0 p = [Glyph.down]) ∧
    (p = ⟨p0.Row, p0.Col - 1⟩ → glyphs p0 p = [Glyph.left]) ∧
    (p = ⟨p0.Row, p0.Col + 1⟩ → glyphs p0 p = [Glyph.right]) := by
  have w1 : wrap64 (p0.Row + 1) = p0.Row + 1 := wrap64_of_range _ (by omega) (by omega)
  have w2 : wrap64 (p0.Row - 1) = p0.Row - 1 := wrap64_of_range _ (by omega) (by omega)
  have w3 : wrap64 (p0.Col + 1) = p0.Col + 1 := wrap64_of_range _ (by omega) (by omega)
  have w4 : wrap64 (p0.Col - 1) = p0.Col - 1 := wrap64_of_range _ (by omega) (by omega)
  unfold glyphs
  rw [w1, w2, w3, w4]
  refine ⟨?_, ?_, ?_, ?_⟩
  · intro hp
    subst hp
    rw [if_neg (by simp only; omega), if_neg (by simp only; omega),
      if_neg (by simp only; omega), if_pos ⟨rfl, rfl⟩]
    rfl
  · intro hp
    subst hp
    rw [if_pos ⟨rfl, rfl⟩, if_neg (by simp only; omega), if_neg (by simp only; omega),
      if_neg (by simp only; omega)]
    rfl
  · intro hp
    subst hp
    rw [if_neg (by simp only; omega), if_neg (by simp only; omega), if_pos ⟨rfl, rfl⟩,
      if_neg (by simp only; omega)]
    rfl
  · intro hp
    subst hp
    rw [if_neg (by simp only; omega), if_pos ⟨rfl, rfl⟩, if_neg (by simp only; omega),
      if_neg (by simp only; omega)]
    rfl

theorem found_iff_reach {T : Type} [DecidableEq T] (s : MazeSolver T) (hB : Built s)
    (start : Point) (hfit : Fits64 start) (v : T) :
    (∃ path s1, SolveBFS s start v = .ok ((path, true), s1)) ↔
      ∃ e, FirstMatch s v e ∧ Reach s start e := by
  rw [found_iff_code s hB start v]
  constructor
  · rintro ⟨e, c, he, hc⟩
    exact ⟨e, he, (reach_iff_code hB start e hfit).mpr ⟨c, hc⟩⟩
  · rintro ⟨e, he, hr⟩
    obtain ⟨c, hc⟩ := (reach_iff_code hB start e hfit).mp hr
    exact ⟨e, c, he, hc⟩

theorem notFound_iff_unreachable {T : Type} [DecidableEq T] (s : MazeSolver T) (hB : Built s)
    (start : Point) (hfit : Fits64 start) (v : T) :
    (∃ s1, SolveBFS s start v = .ok (([], false), s1)) ↔
      ¬ ∃ e, FirstMatch s v e ∧ Reach s start e := by
  rw [← found_iff_reach s hB start hfit v]
  constructor
  · rintro ⟨s1, h1⟩ ⟨path, s2, h2⟩
    rw [h1] at h2
    simp at h2
  · intro hno
    obtain ⟨path, found, s1, hrun⟩ := SolveBFS_returns s hB start v
    cases found with
    | true => exact absurd ⟨path, s1, hrun⟩ hno
    | false =>
      have := (SolveBFS_notFound hB hrun).1
      subst this
      exact ⟨s1, hrun⟩

/-! ## Example grids are well formed -/

theorem rect_gridOpen3 : Rect gridOpen3 :=
  ⟨by decide, by decide, 3, by decide, by decide, by decide⟩

theorem rect_gridTwoGoals : Rect gridTwoGoals :=
  ⟨by decide, by decide, 4, by decide, by decide, by decide⟩

theorem rect_gridWallStart : Rect gridWallStart :=
  ⟨by decide, by decide, 2, by decide, by decide, by decide⟩

theorem rect_gridBothSides : Rect gridBothSides :=
  ⟨by decide, by decide, 4, by decide, by decide, by decide⟩

theorem rect_gridWalled : Rect gridWalled :=
  ⟨by decide, by decide, 3, by decide, by decide, by decide⟩

theorem rect_gridOne : Rect gridOne :=
  ⟨by decide, by decide, 1, by decide, by decide, by decide⟩

theorem rect_gridNoGoal : Rect gridNoGoal :=
  ⟨by decide, by decide, 2, by decide, by decide, by decide⟩

/-! ## The claims -/

/-- C1 (shortness, P1): on a freshly constructed solver over a non-empty rectangular grid,
if `SolveBFS` returns `(path, true)` then every sequence of open (in-bounds, non-wall) cells
that begins at `start`, ends at the last entry of `path` and moves only between 4-neighbours
has at least `len(path)` entries. (That `start` is in bounds follows from the sequence.) -/
theorem SolveBFS_shortest {T : Type} [DecidableEq T] (maze : List (List T)) (wall : T)
    (s : MazeSolver T) (start : Point) (goalValue : T) (path : List Point)
    (s1 : MazeSolver T) (hR : Rect maze) (hs : NewMazeSolver maze wall = .ok s)
    (hrun : SolveBFS s start goalValue = .ok ((path, true), s1))
    (q : List Point) (hq1 : q.head? = some start) (hq2 : q.getLast? = path.getLast?)
    (hq3 : WallFreeWalk s q) : path.length ≤ q.length := by
  obtain ⟨hB, _, _, _⟩ := built_of_new hR hs
  obtain ⟨e, done, st, code, he, hI, hpath, _⟩ := SolveBFS_found hB hrun
  cases q with
  | nil => simp at hq1
  | cons a q =>
    simp only [List.head?_cons, Option.some.injEq] at hq1
    subst hq1
    obtain ⟨c, hc1, hc2⟩ := code_of_walk hB q a hq3.1
      (fun p hp => hq3.2 p (List.mem_cons_of_mem _ hp))
    have hlast : endOf a c = e := by
      have h1 := getLast_tailPts a c
      have h2 := getLast_tailPts a (code e)
      rw [hc2, hq2, hpath, h2, (hI.valid e (by simp)).2] at h1
      exact (Option.some.inj h1).symm
    have hmin := inv_min hI c hc1 hlast
    have hlen := rank_length _ _ (validCode_lt (hI.valid e (by simp)).1) (validCode_lt hc1) hmin
    rw [hpath, List.length_cons, List.length_cons, length_tailPts, ← hc2, length_tailPts]
    omega

/-- Witness of C1 on the open 3x3 grid: the returned path has 3 entries, a detour has 5. -/
theorem SolveBFS_shortest_witness :
    NewMazeSolver gridOpen3 1 = .ok solverOpen3 ∧
      SolveBFS solverOpen3 ⟨0, 0⟩ 2 = .ok (([⟨0, 0⟩, ⟨1, 0⟩, ⟨1, 1⟩], true), solvedOpen3) ∧
      WallFreeWalk solverOpen3 [⟨0, 0⟩, ⟨0, 1⟩, ⟨0, 2⟩, ⟨1, 2⟩, ⟨1, 1⟩] ∧
      ([⟨0, 0⟩, ⟨1, 0⟩, ⟨1, 1⟩] : List Point).length ≤
        ([⟨0, 0⟩, ⟨0, 1⟩, ⟨0, 2⟩, ⟨1, 2⟩, ⟨1, 1⟩] : List Point).length :=
  ⟨by decide, by decide, by decide,
    SolveBFS_shortest gridOpen3 1 solverOpen3 ⟨0, 0⟩ 2 [⟨0, 0⟩, ⟨1, 0⟩, ⟨1, 1⟩] solvedOpen3
      rect_gridOpen3 (by decide) (by decide)
      [⟨0, 0⟩, ⟨0, 1⟩, ⟨0, 2⟩, ⟨1, 2⟩, ⟨1, 1⟩] (by decide) (by decide) (by decide)⟩

/-- C2 (validity, P2): on a freshly constructed solver over a non-empty rectangular grid,
with an in-bounds start whose cell is not the wall marker, if `SolveBFS` returns
`(path, true)` then `path` is non-empty, its first entry is `start`, the cell at its last
entry holds `goalValue`, consecutive entries are 4-neighbours, every entry is in bounds and
no entry's cell holds the wall marker. -/
theorem SolveBFS_valid {T : Type} [DecidableEq T] (maze : List (List T)) (wall : T)
    (s : MazeSolver T) (start : Point) (goalValue : T) (path : List Point)
    (s1 : MazeSolver T) (hR : Rect maze) (hs : NewMazeSolver maze wall = .ok s)
    (hin : InBounds s start) (hnw : ¬ CellIs s start wall)
    (hrun : SolveBFS s start goalValue = .ok ((path, true), s1)) :
    path ≠ [] ∧ path.head? = some start ∧
      (∃ e, path.getLast? = some e ∧ CellIs s e goalValue) ∧
      List.Chain' Adjacent4 path ∧ (∀ p ∈ path, InBounds s p) ∧
      (∀ p ∈ path, ¬ CellIs s p wall) := by
  obtain ⟨hB, _, _, hwall⟩ := built_of_new hR hs
  obtain ⟨e, done, st, code, he, hI, hpath, _⟩ := SolveBFS_found hB hrun
  obtain ⟨hv1, hv2⟩ := hI.valid e (by simp)
  have hopen := validCode_open hv1
  subst hpath
  refine ⟨List.cons_ne_nil _ _, rfl, ⟨e, ?_, he.2.1⟩,
    (validCode_chain hB (fits_of_inBounds hB hin) hv1).1, ?_, ?_⟩
  · rw [getLast_tailPts, hv2]
  · intro p hp
    rw [List.mem_cons] at hp
    rcases hp with rfl | hp
    · exact hin
    · exact (hopen p hp).1
  · intro p hp
    rw [List.mem_cons] at hp
    rcases hp with rfl | hp
    · exact hnw
    · rw [← hwall]
      exact (hopen p hp).2

/-- Witness of C2 on the open 3x3 grid. -/
theorem SolveBFS_valid_witness :
    NewMazeSolver gridOpen3 1 = .ok solverOpen3 ∧
      SolveBFS solverOpen3 ⟨0, 0⟩ 2 = .ok (([⟨0, 0⟩, ⟨1, 0⟩, ⟨1, 1⟩], true), solvedOpen3) ∧
      List.Chain' Adjacent4 [⟨0, 0⟩, ⟨1, 0⟩, ⟨1, 1⟩] ∧
      (∀ p ∈ [(⟨0, 0⟩ : Point), ⟨1, 0⟩, ⟨1, 1⟩], ¬ CellIs solverOpen3 p 1) :=
  ⟨by decide, by decide,
    (SolveBFS_valid gridOpen3 1 solverOpen3 ⟨0, 0⟩ 2 [⟨0, 0⟩, ⟨1, 0⟩, ⟨1, 1⟩] solvedOpen3
      rect_gridOpen3 (by decide) (by decide) (by decide) (by decide)).2.2.2.1,
    (SolveBFS_valid gridOpen3 1 solverOpen3 ⟨0, 0⟩ 2 [⟨0, 0⟩, ⟨1, 0⟩, ⟨1, 1⟩] solvedOpen3
      rect_gridOpen3 (by decide) (by decide) (by decide) (by decide)).2.2.2.2.2⟩

/-- C3 (target selection and exact success condition): on a freshly constructed solver
over a non-empty rectangular grid, with an in-bounds start, `SolveBFS` returns
`found = true` if and only if some cell equals `goalValue` and the first such cell in
row-major order is reachable from `start` by 4-neighbour steps into open cells (the start
cell itself is not tested); when `found = true` the last entry of the path is that first
matching cell; and `SolveBFS` always returns. -/
theorem SolveBFS_found_iff {T : Type} [DecidableEq T] (maze : List (List T)) (wall : T)
    (s : MazeSolver T) (start : Point) (goalValue : T) (hR : Rect maze)
    (hs : NewMazeSolver maze wall = .ok s) (hin : InBounds s start) :
    ((∃ path s1, SolveBFS s start goalValue = .ok ((path, true), s1)) ↔
        ∃ e, FirstMatch s goalValue e ∧ Reach s start e) ∧
    (∀ path s1, SolveBFS s start goalValue = .ok ((path, true), s1) →
        ∃ e, FirstMatch s goalValue e ∧ path.getLast? = some e) ∧
    (∃ path found s1, SolveBFS s start goalValue = .ok ((path, found), s1)) := by
  obtain ⟨hB, _, _, _⟩ := built_of_new hR hs
  have hfit := fits_of_inBounds hB hin
  refine ⟨?_, ?_, SolveBFS_returns s hB start goalValue⟩
  · exact found_iff_reach s hB start hfit goalValue
  · intro path s1 hrun
    obtain ⟨e, done, st, code, he, hI, hpath, _⟩ := SolveBFS_found hB hrun
    refine ⟨e, he, ?_⟩
    rw [hpath, getLast_tailPts, (hI.valid e (by simp)).2]

/-- Witness of C3 on the row `2 0 0 2` with the start at column 2: the path ends at
column 0, the first match in row-major order, although the goal cell at column 3 is nearer. -/
theorem SolveBFS_found_iff_witness :
    NewMazeSolver gridBothSides 1 = .ok solverBothSides ∧
      SolveBFS solverBothSides ⟨0, 2⟩ 2 =
        .ok (([⟨0, 2⟩, ⟨0, 1⟩, ⟨0, 0⟩], true), solvedBothSides) ∧
      CellIs solverBothSides ⟨0, 3⟩ 2 ∧
      ∃ e, FirstMatch solverBothSides 2 e ∧
        ([⟨0, 2⟩, ⟨0, 1⟩, ⟨0, 0⟩] : List Point).getLast? = some e :=
  ⟨by decide, by decide, by decide,
    (SolveBFS_found_iff gridBothSides 1 solverBothSides ⟨0, 2⟩ 2 rect_gridBothSides
      (by decide) (by decide)).2.1 [⟨0, 2⟩, ⟨0, 1⟩, ⟨0, 0⟩] solvedBothSides (by decide)⟩

/-- Counterexample to C4 as stated: in the row `2 1 0 2` with wall `1`, from the open cell
at column 2 a wall-free walk leads to the goal cell at column 3, yet `SolveBFS` returns
`found = false`, because it searches only for the first goal cell, at column 0. -/
theorem SolveBFS_complete_counterexample :
    NewMazeSolver gridTwoGoals 1 = .ok solverTwoGoals ∧
      Open solverTwoGoals ⟨0, 2⟩ ∧
      WallFreeWalk solverTwoGoals [⟨0, 2⟩, ⟨0, 3⟩] ∧
      CellIs solverTwoGoals ⟨0, 3⟩ 2 ∧
      SolveBFS solverTwoGoals ⟨0, 2⟩ 2 = .ok (([], false), solvedTwoGoals) :=
  ⟨by decide, by decide, by decide, by decide, by decide⟩

/-- C4 amended (completeness for the first goal cell): on a freshly constructed solver over
a non-empty rectangular grid, if a wall-free 4-connected walk exists from `start` to the
FIRST cell in row-major order whose content equals `goalValue`, then `SolveBFS` returns
`found = true`; equivalently, if it returns `found = false` then either no cell matches
`goalValue` or that first matching cell is unreachable from `start` through open cells.
(A wall-free walk from `start` makes `start` in bounds and non-wall.) -/
theorem SolveBFS_complete_first {T : Type} [DecidableEq T] (maze : List (List T)) (wall : T)
    (s : MazeSolver T) (start : Point) (goalValue : T) (hR : Rect maze)
    (hs : NewMazeSolver maze wall = .ok s) :
    (∀ e q, FirstMatch s goalValue e → q.head? = some start → q.getLast? = some e →
        WallFreeWalk s q → ∃ path s1, SolveBFS s start goalValue = .ok ((path, true), s1)) ∧
    (∀ path s1, SolveBFS s start goalValue = .ok ((path, false), s1) →
        (∀ p, InBounds s p → ¬ CellIs s p goalValue) ∨
        ∃ e, FirstMatch s goalValue e ∧
          ∀ q, q.head? = some start → q.getLast? = some e → ¬ WallFreeWalk s q) := by
  obtain ⟨hB, _, _, _⟩ := built_of_new hR hs
  have hcode : ∀ e q, q.head? = some start → q.getLast? = some e → WallFreeWalk s q →
      ∃ c, ValidCode s start c ∧ endOf start c = e := by
    intro e q h1 h2 h3
    cases q with
    | nil => simp at h1
    | cons a q =>
      simp only [List.head?_cons, Option.some.injEq] at h1
      subst h1
      obtain ⟨c, hc1, hc2⟩ := code_of_walk hB q a h3.1
        (fun p hp => h3.2 p (List.mem_cons_of_mem _ hp))
      refine ⟨c, hc1, ?_⟩
      have := getLast_tailPts a c
      rw [hc2, h2] at this
      exact (Option.some.inj this).symm
  constructor
  · intro e q he h1 h2 h3
    obtain ⟨c, hc⟩ := hcode e q h1 h2 h3
    exact (found_iff_code s hB start goalValue).mpr ⟨e, c, he, hc⟩
  · intro path s1 hrun
    rcases (SolveBFS_notFound hB hrun).2 with h | ⟨e, he, h⟩
    · exact Or.inl h
    · refine Or.inr ⟨e, he, ?_⟩
      intro q h1 h2 h3
      obtain ⟨c, hc1, hc2⟩ := hcode e q h1 h2 h3
      exact h c hc1 hc2

/-- Witness of the amended C4 on the row `2 1 0 2`: the run from column 2 returns
`found = false`, and indeed the first goal cell is cut off. -/
theorem SolveBFS_complete_first_witness :
    NewMazeSolver gridTwoGoals 1 = .ok solverTwoGoals ∧
      SolveBFS solverTwoGoals ⟨0, 2⟩ 2 = .ok (([], false), solvedTwoGoals) ∧
      ((∀ p, InBounds solverTwoGoals p → ¬ CellIs solverTwoGoals p 2) ∨
        ∃ e, FirstMatch solverTwoGoals 2 e ∧
          ∀ q, q.head? = some ⟨0, 2⟩ → q.getLast? = some e →
            ¬ WallFreeWalk solverTwoGoals q) :=
  ⟨by decide, by decide,
    (SolveBFS_complete_first gridTwoGoals 1 solverTwoGoals ⟨0, 2⟩ 2 rect_gridTwoGoals
      (by decide)).2 [] solvedTwoGoals (by decide)⟩

/-- C5 (goal location): on a solver constructed over a non-empty rectangular grid,
`findEndNode v` returns; if it returns `(p, true)` then `p` is in bounds, the cell at `p`
equals `v` and no cell preceding `p` in row-major order equals `v`; and it returns
`(_, false)` if and only if no cell of the grid equals `v`. -/
theorem findEndNode_first {T : Type} [DecidableEq T] (maze : List (List T)) (wall : T)
    (s : MazeSolver T) (v : T) (hR : Rect maze) (hs : NewMazeSolver maze wall = .ok s) :
    (∃ p found, findEndNode s v = .ok (p, found)) ∧
    (∀ p, findEndNode s v = .ok (p, true) → FirstMatch s v p) ∧
    ((∃ p, findEndNode s v = .ok (p, false)) ↔ ∀ q, InBounds s q → ¬ CellIs s q v) := by
  obtain ⟨hB, _, _, _⟩ := built_of_new hR hs
  rcases findEndNode_cases s hB v with ⟨e, h1, h2⟩ | ⟨h1, h2⟩
  · refine ⟨⟨e, true, h1⟩, ?_, ?_⟩
    · intro p hp
      rw [h1] at hp
      simp only [Except.ok.injEq, Prod.mk.injEq, and_true] at hp
      rw [← hp]
      exact h2
    · constructor
      · rintro ⟨p, hp⟩
        rw [h1] at hp
        simp at hp
      · intro hno
        exact absurd h2.2.1 (hno e h2.1)
  · refine ⟨⟨_, false, h1⟩, ?_, ?_⟩
    · intro p hp
      rw [h1] at hp
      simp at hp
    · exact ⟨fun _ => h2, fun _ => ⟨_, h1⟩⟩

/-- Witness of C5 on the row `2 1 0 2`: the first of the two goal cells is returned. -/
theorem findEndNode_first_witness :
    NewMazeSolver gridTwoGoals 1 = .ok solverTwoGoals ∧
      findEndNode solverTwoGoals 2 = .ok (⟨0, 0⟩, true) ∧
      FirstMatch solverTwoGoals 2 ⟨0, 0⟩ :=
  ⟨by decide, by decide,
    (findEndNode_first gridTwoGoals 1 solverTwoGoals 2 rect_gridTwoGoals (by decide)).2.1
      ⟨0, 0⟩ (by decide)⟩

/-- C7 (missing goal value): on a freshly constructed solver over a non-empty rectangular
grid, for any start coordinate, if no cell's content equals `goalValue` then `SolveBFS`
returns the empty (nil) path with `found = false`, and leaves the solver unchanged. -/
theorem SolveBFS_missing_goal {T : Type} [DecidableEq T] (maze : List (List T)) (wall : T)
    (s : MazeSolver T) (start : Point) (goalValue : T) (hR : Rect maze)
    (hs : NewMazeSolver maze wall = .ok s) (hno : ∀ row ∈ maze, goalValue ∉ row) :
    SolveBFS s start goalValue = .ok (([], false), s) := by
  obtain ⟨hB, _, hmaze, _⟩ := built_of_new hR hs
  rcases SolveBFS_inv s hB start goalValue with ⟨h1, _⟩ | ⟨e, he, _⟩
  · exact h1
  · obtain ⟨row, hrow, hmem⟩ := cell_mem s.maze e.Row e.Col goalValue he.2.1
    rw [hmaze] at hrow
    exact absurd hmem (hno row hrow)

/-- Witness of C7 on a 2x2 grid without a goal cell, from a start outside the grid. -/
theorem SolveBFS_missing_goal_witness :
    NewMazeSolver gridNoGoal 1 = .ok solverNoGoal ∧
      (∀ row ∈ gridNoGoal, 2 ∉ row) ∧
      SolveBFS solverNoGoal ⟨5, -3⟩ 2 = .ok (([], false), solverNoGoal) :=
  ⟨by decide, by decide,
    SolveBFS_missing_goal gridNoGoal 1 solverNoGoal ⟨5, -3⟩ 2 rect_gridNoGoal (by decide)
      (by decide)⟩

/-- C6 (determinism / tie-break, P4): on a freshly constructed solver over a non-empty
rectangular grid, with an in-bounds non-wall start, if `SolveBFS` returns `(path, true)`
then `path` is a wall-free walk from `start`, no wall-free walk from `start` to the same
cell is shorter, and among those of the same length the move sequence of `path` is
lexicographically least under up < down < left < right. Scenario S3: on the open 3x3 grid
with the goal at `(1,1)` and start `(0,0)` the result is `(0,0) (1,0) (1,1)`, not
`(0,0) (0,1) (1,1)`. -/
theorem SolveBFS_tiebreak :
    (∀ (T : Type) [DecidableEq T] (maze : List (List T)) (wall : T) (s : MazeSolver T)
        (start : Point) (goalValue : T) (path : List Point) (s1 : MazeSolver T),
        Rect maze → NewMazeSolver maze wall = .ok s → InBounds s start →
        ¬ CellIs s start wall → SolveBFS s start goalValue = .ok ((path, true), s1) →
        path.head? = some start ∧ WallFreeWalk s path ∧
        ∀ q : List Point, q.head? = some start → q.getLast? = path.getLast? →
          WallFreeWalk s q →
          path.length ≤ q.length ∧
            (q.length = path.length → lexLe (movesOf path) (movesOf q) = true)) ∧
    (NewMazeSolver gridOpen3 1 = .ok solverOpen3 ∧
      SolveBFS solverOpen3 ⟨0, 0⟩ 2 = .ok (([⟨0, 0⟩, ⟨1, 0⟩, ⟨1, 1⟩], true), solvedOpen3) ∧
      ([⟨0, 0⟩, ⟨1, 0⟩, ⟨1, 1⟩] : List Point) ≠ [⟨0, 0⟩, ⟨0, 1⟩, ⟨1, 1⟩]) := by
  refine ⟨?_, by decide, by decide, by decide⟩
  intro T _ maze wall s start goalValue path s1 hR hs hin hnw hrun
  obtain ⟨hB, _, _, hwall⟩ := built_of_new hR hs
  obtain ⟨e, done, st, code, he, hI, hpath, _⟩ := SolveBFS_found hB hrun
  obtain ⟨hv1, hv2⟩ := hI.valid e (by simp)
  have hfit := fits_of_inBounds hB hin
  obtain ⟨hch, hmoves⟩ := validCode_chain hB hfit hv1
  subst hpath
  refine ⟨rfl, ⟨hch, ?_⟩, ?_⟩
  · intro p hp
    rw [List.mem_cons] at hp
    rcases hp with rfl | hp
    · exact ⟨hin, by rw [hwall]; exact hnw⟩
    · exact validCode_open hv1 p hp
  · intro q hq1 hq2 hq3
    cases q with
    | nil => simp at hq1
    | cons a q =>
      simp only [List.head?_cons, Option.some.injEq] at hq1
      subst hq1
      obtain ⟨c, hc1, hc2⟩ := code_of_walk hB q a hq3.1
        (fun p hp => hq3.2 p (List.mem_cons_of_mem _ hp))
      have hlast : endOf a c = e := by
        have h1 := getLast_tailPts a c
        rw [hc2, hq2, getLast_tailPts, hv2] at h1
        exact (Option.some.inj h1).symm
      have hmin := inv_min hI c hc1 hlast
      have hlen := rank_length _ _ (validCode_lt hv1) (validCode_lt hc1) hmin
      have hqm : movesOf (a :: q) = c := by
        rw [← hc2]
        exact (validCode_chain hB hfit hc1).2
      have hql : q.length = c.length := by rw [← hc2, length_tailPts]
      refine ⟨?_, ?_⟩
      · rw [List.length_cons, List.length_cons, length_tailPts, hql]
        omega
      · intro heq
        rw [List.length_cons, List.length_cons, length_tailPts, hql] at heq
        rw [hmoves, hqm]
        exact rank_lex _ _ (by omega) (validCode_lt hv1) (validCode_lt hc1) hmin

/-- Witness of C6 on the open 3x3 grid: the returned moves are down, right; the
other shortest walk starts with right, which is larger. -/
theorem SolveBFS_tiebreak_witness :
    movesOf [⟨0, 0⟩, ⟨1, 0⟩, ⟨1, 1⟩] = [1, 3] ∧ movesOf [⟨0, 0⟩, ⟨0, 1⟩, ⟨1, 1⟩] = [3, 1] ∧
      WallFreeWalk solverOpen3 [⟨0, 0⟩, ⟨0, 1⟩, ⟨1, 1⟩] ∧
      lexLe (movesOf [⟨0, 0⟩, ⟨1, 0⟩, ⟨1, 1⟩]) (movesOf [⟨0, 0⟩, ⟨0, 1⟩, ⟨1, 1⟩]) = true :=
  ⟨by decide, by decide, by decide,
    ((SolveBFS_tiebreak.1 Nat gridOpen3 1 solverOpen3 ⟨0, 0⟩ 2 [⟨0, 0⟩, ⟨1, 0⟩, ⟨1, 1⟩]
      solvedOpen3 rect_gridOpen3 (by decide) (by decide) (by decide) (by decide)).2.2
      [⟨0, 0⟩, ⟨0, 1⟩, ⟨1, 1⟩] (by decide) (by decide) (by decide)).2 (by decide)⟩

/-- Counterexample to C8 as stated: in the row `1 2` with wall `1`, the start `(0,0)` is
in bounds and holds the wall marker, yet `SolveBFS` returns the path `(0,0) (0,1)` with
`found = true`. -/
theorem SolveBFS_wall_start_counterexample :
    NewMazeSolver gridWallStart 1 = .ok solverWallStart ∧
      InBounds solverWallStart ⟨0, 0⟩ ∧ CellIs solverWallStart ⟨0, 0⟩ 1 ∧
      SolveBFS solverWallStart ⟨0, 0⟩ 2 =
        .ok (([⟨0, 0⟩, ⟨0, 1⟩], true), solvedWallStart) :=
  ⟨by decide, by decide, by decide, by decide⟩

/-- C8 amended (wall-valued start): on a freshly constructed solver over a non-empty
rectangular grid, with an in-bounds start whose cell holds the wall marker, `SolveBFS`
does not test the start cell: it returns the empty path with `found = false` exactly when
no cell equals `goalValue` or the first such cell in row-major order cannot be reached from
`start` by 4-neighbour steps into open cells, and it returns `found = true` exactly when
that first cell exists and can be so reached. -/
theorem SolveBFS_wall_start {T : Type} [DecidableEq T] (maze : List (List T)) (wall : T)
    (s : MazeSolver T) (start : Point) (goalValue : T) (hR : Rect maze)
    (hs : NewMazeSolver maze wall = .ok s) (hin : InBounds s start)
    (_hwall : CellIs s start wall) :
    ((∃ s1, SolveBFS s start goalValue = .ok (([], false), s1)) ↔
        ¬ ∃ e, FirstMatch s goalValue e ∧ Reach s start e) ∧
    ((∃ path s1, SolveBFS s start goalValue = .ok ((path, true), s1)) ↔
        ∃ e, FirstMatch s goalValue e ∧ Reach s start e) := by
  obtain ⟨hB, _, _, _⟩ := built_of_new hR hs
  exact ⟨notFound_iff_unreachable s hB start (fits_of_inBounds hB hin) goalValue,
    found_iff_reach s hB start (fits_of_inBounds hB hin) goalValue⟩

/-- Witness of the amended C8 on the row `1 1 2`: from the wall cell at column 0 the search
fails, and the goal cell is indeed unreachable. -/
theorem SolveBFS_wall_start_witness :
    NewMazeSolver gridWalled 1 = .ok solverWalled ∧
      CellIs solverWalled ⟨0, 0⟩ 1 ∧
      SolveBFS solverWalled ⟨0, 0⟩ 2 = .ok (([], false), solverWalled) ∧
      ¬ ∃ e, FirstMatch solverWalled 2 e ∧ Reach solverWalled ⟨0, 0⟩ e :=
  ⟨by decide, by decide, by decide,
    (SolveBFS_wall_start gridWalled 1 solverWalled ⟨0, 0⟩ 2 rect_gridWalled (by decide)
      (by decide) (by decide)).1.mp ⟨solverWalled, by decide⟩⟩

/-- Counterexample to C9 as stated: on the 1x1 grid holding the goal, the start `(-1,0)` is
outside the grid, yet `SolveBFS` returns the path `(-1,0) (0,0)` with `found = true`. -/
theorem SolveBFS_outside_start_counterexample :
    NewMazeSolver gridOne 1 = .ok solverOne ∧ ¬ InBounds solverOne ⟨-1, 0⟩ ∧
      SolveBFS solverOne ⟨-1, 0⟩ 2 = .ok (([⟨-1, 0⟩, ⟨0, 0⟩], true), solvedOne) :=
  ⟨by decide, by decide, by decide⟩

/-- C9 amended (out-of-bounds start): on a freshly constructed solver over a non-empty
rectangular grid, with a start coordinate (any pair of Go `int`s) outside the grid,
`SolveBFS` does not test the start: it returns the empty path with `found = false` exactly
when no cell equals `goalValue` or the first such cell in row-major order cannot be reached
from `start` by 4-neighbour steps into open cells, and it returns `found = true` exactly
when that first cell exists and can be so reached. -/
theorem SolveBFS_outside_start {T : Type} [DecidableEq T] (maze : List (List T)) (wall : T)
    (s : MazeSolver T) (start : Point) (goalValue : T) (hR : Rect maze)
    (hs : NewMazeSolver maze wall = .ok s) (hfit : Fits64 start)
    (_hout : ¬ InBounds s start) :
    ((∃ s1, SolveBFS s start goalValue = .ok (([], false), s1)) ↔
        ¬ ∃ e, FirstMatch s goalValue e ∧ Reach s start e) ∧
    ((∃ path s1, SolveBFS s start goalValue = .ok ((path, true), s1)) ↔
        ∃ e, FirstMatch s goalValue e ∧ Reach s start e) := by
  obtain ⟨hB, _, _, _⟩ := built_of_new hR hs
  exact ⟨notFound_iff_unreachable s hB start hfit goalValue,
    found_iff_reach s hB start hfit goalValue⟩

/-- Witness of the amended C9 on the 1x1 grid: from `(5,5)` the search fails, and the goal
cell is indeed unreachable. -/
theorem SolveBFS_outside_start_witness :
    NewMazeSolver gridOne 1 = .ok solverOne ∧ ¬ InBounds solverOne ⟨5, 5⟩ ∧
      SolveBFS solverOne ⟨5, 5⟩ 2 = .ok (([], false), solverOne) ∧
      ¬ ∃ e, FirstMatch solverOne 2 e ∧ Reach solverOne ⟨5, 5⟩ e :=
  ⟨by decide, by decide, by decide,
    (SolveBFS_outside_start gridOne 1 solverOne ⟨5, 5⟩ 2 rect_gridOne (by decide)
      (by unfold Fits64; decide) (by decide)).1.mp ⟨solverOne, by decide⟩⟩

/-- C10 (display-direction derivation): after a successful `SolveBFS` on a freshly
constructed solver over a non-empty rectangular grid with an in-bounds non-wall start, for
every index `i + 1 >= 1` of the returned path, the `parents` entry of `path[i+1]` read from
the solver after the call is `path[i]`, the move from `path[i]` to `path[i+1]` has a glyph
in the table, and the four tests of the driver emit exactly that one glyph. -/
theorem driver_glyph {T : Type} [DecidableEq T] (maze : List (List T)) (wall : T)
    (s : MazeSolver T) (start : Point) (goalValue : T) (path : List Point)
    (s1 : MazeSolver T) (hR : Rect maze) (hs : NewMazeSolver maze wall = .ok s)
    (hin : InBounds s start) (_hnw : ¬ CellIs s start wall)
    (hrun : SolveBFS s start goalValue = .ok ((path, true), s1))
    (i : Nat) (p0 p : Point) (h0 : path.get? i = some p0) (h1 : path.get? (i + 1) = some p) :
    mapGet s1.parents p = p0 ∧
      ∃ g, tableGlyph (p.Row - p0.Row) (p.Col - p0.Col) = some g ∧
        glyphs (mapGet s1.parents p) p = [g] := by
  obtain ⟨hB, _, _, _⟩ := built_of_new hR hs
  obtain ⟨e, done, st, code, he, hI, hpath, hs1⟩ := SolveBFS_found hB hrun
  obtain ⟨hv1, hv2⟩ := hI.valid e (by simp)
  subst hpath
  obtain ⟨c1, d, c2, hsplit, hp0, hp⟩ := consec_tailPts (code e) start i p0 p h0 h1
  have hfind := inv_parent_split hI (code e) e (by simp) rfl c1 d c2 hsplit
  rw [← hp0, ← hp] at hfind
  have hget : mapGet s1.parents p = p0 := by
    rw [hs1]
    show mapGet st.parents p = p0
    unfold mapGet
    rw [hfind]
  rw [hsplit, validCode_append] at hv1
  obtain ⟨hc1, hd, hop, _⟩ := hv1
  rw [← hp0, ← hp] at hop
  have hp0in : InBounds s p0 := by
    rw [hp0]
    exact endOf_inBounds hin hc1
  rw [hp] at hop
  have hdelta := stepTo_delta hB p0 (fits_of_inBounds hB hp0in) d hd hop.1
  rw [← hp] at hdelta
  obtain ⟨_, b2, _, b4, _, _⟩ := hB
  obtain ⟨q1, q2, q3, q4⟩ := hp0in
  obtain ⟨g1, g2, g3, g4⟩ := glyphs_of_step p0 p q1 (by omega) q3 (by omega)
  refine ⟨hget, ?_⟩
  rw [hget]
  rcases hdelta with ⟨_, h⟩ | ⟨_, h⟩ | ⟨_, h⟩ | ⟨_, h⟩
  · refine ⟨Glyph.up, ?_, g1 h⟩
    rw [h]
    have e1 : p0.Row - 1 - p0.Row = -1 := by omega
    have e2 : p0.Col - p0.Col = 0 := by omega
    simp only [e1, e2]
    decide
  · refine ⟨Glyph.down, ?_, g2 h⟩
    rw [h]
    have e1 : p0.Row + 1 - p0.Row = 1 := by omega
    have e2 : p0.Col - p0.Col = 0 := by omega
    simp only [e1, e2]
    decide
  · refine ⟨Glyph.left, ?_, g3 h⟩
    rw [h]
    have e1 : p0.Row - p0.Row = 0 := by omega
    have e2 : p0.Col - 1 - p0.Col = -1 := by omega
    simp only [e1, e2]
    decide
  · refine ⟨Glyph.right, ?_, g4 h⟩
    rw [h]
    have e1 : p0.Row - p0.Row = 0 := by omega
    have e2 : p0.Col + 1 - p0.Col = 1 := by omega
    simp only [e1, e2]
    decide

/-- Witness of C10 on the open 3x3 grid: for the second step of the path `(0,0) (1,0) (1,1)`
the parent of `(1,1)` is `(1,0)` and the driver prints the right arrow. -/
theorem driver_glyph_witness :
    SolveBFS solverOpen3 ⟨0, 0⟩ 2 = .ok (([⟨0, 0⟩, ⟨1, 0⟩, ⟨1, 1⟩], true), solvedOpen3) ∧
      glyphs (mapGet solvedOpen3.parents ⟨1, 1⟩) ⟨1, 1⟩ = [Glyph.right] ∧
      (mapGet solvedOpen3.parents ⟨1, 1⟩ = ⟨1, 0⟩ ∧
        ∃ g, tableGlyph ((⟨1, 1⟩ : Point).Row - (⟨1, 0⟩ : Point).Row)
            ((⟨1, 1⟩ : Point).Col - (⟨1, 0⟩ : Point).Col) = some g ∧
          glyphs (mapGet solvedOpen3.parents ⟨1, 1⟩) ⟨1, 1⟩ = [g]) :=
  ⟨by decide, by decide,
    driver_glyph gridOpen3 1 solverOpen3 ⟨0, 0⟩ 2 [⟨0, 0⟩, ⟨1, 0⟩, ⟨1, 1⟩] solvedOpen3
      rect_gridOpen3 (by decide) (by decide) (by decide) (by decide) 1 ⟨1, 0⟩ ⟨1, 1⟩
      (by decide) (by decide)⟩

/-! ## Dropping the log gives the program back -/

theorem map_eq_ok {ε α β : Type} {f : α → β} {x : Except ε α} {b : β}
    (h : x.map f = .ok b) : ∃ a, x = .ok a ∧ f a = b := by
  cases x with
  | error e => simp [Except.map] at h
  | ok a =>
    simp only [Except.map, Except.ok.injEq] at h
    exact ⟨a, rfl, h⟩

theorem backWalkTraced_eq (parents : ParentMap) (start : Point) :
    ∀ (fuel : Nat) (current : Point) (acc : List Point),
      backWalkTraced parents start fuel current acc acc =
        (backWalk parents start fuel current acc).map (fun p => (p, p)) := by
  intro fuel
  induction fuel with
  | zero =>
    intro current acc
    unfold backWalkTraced backWalk
    by_cases h : current = start
    · simp only [h, if_true]
      rfl
    · simp only [h, if_false]
      rfl
  | succ f ih =>
    intro current acc
    unfold backWalkTraced backWalk
    by_cases h : current = start
    · simp only [h, if_true]
      rfl
    · simp only [h, if_false]
      exact ih _ _

theorem reconstructPathTraced_erase (fuel : Nat) (parents : ParentMap) (start e : Point) :
    (reconstructPathTraced fuel parents start e).map Prod.fst =
      reconstructPath fuel parents start e := by
  unfold reconstructPathTraced reconstructPath
  rw [backWalkTraced_eq]
  cases backWalk parents start fuel e [] with
  | error err => rfl
  | ok p => rfl

theorem scanColsTraced_erase {T : Type} [DecidableEq T] (s : MazeSolver T) (v : T) (r : Nat) :
    ∀ (n c : Nat) (reads : List Point),
      (scanColsTraced s v r c n reads).map Prod.fst = scanCols s v r c n := by
  intro n
  induction n with
  | zero =>
    intro c reads
    rfl
  | succ n ih =>
    intro c reads
    unfold scanColsTraced scanCols
    cases cell s.maze r c with
    | error e => rfl
    | ok x =>
      simp only []
      by_cases hx : x = v
      · simp only [hx, if_true]
        rfl
      · simp only [hx, if_false]
        exact ih _ _

theorem scanRowsTraced_erase {T : Type} [DecidableEq T] (s : MazeSolver T) (v : T) :
    ∀ (n r : Nat) (reads : List Point),
      (scanRowsTraced s v r n reads).map Prod.fst = scanRows s v r n := by
  intro n
  induction n with
  | zero =>
    intro r reads
    rfl
  | succ n ih =>
    intro r reads
    unfold scanRowsTraced scanRows
    have h := scanColsTraced_erase s v r s.cols.toNat 0 reads
    cases hc : scanColsTraced s v r 0 s.cols.toNat reads with
    | error e =>
      rw [hc] at h
      rw [← h]
      rfl
    | ok x =>
      obtain ⟨o, reads1⟩ := x
      rw [hc] at h
      rw [← h]
      cases o with
      | none => exact ih _ _
      | some p => rfl

theorem findEndNodeTraced_erase {T : Type} [DecidableEq T] (s : MazeSolver T) (v : T) :
    (findEndNodeTraced s v).map Prod.fst = findEndNode s v := by
  unfold findEndNodeTraced findEndNode
  have h := scanRowsTraced_erase s v s.rows.toNat 0 []
  cases hc : scanRowsTraced s v 0 s.rows.toNat [] with
  | error e =>
    rw [hc] at h
    rw [← h]
    rfl
  | ok x =>
    obtain ⟨o, reads1⟩ := x
    rw [hc] at h
    rw [← h]
    cases o with
    | none => rfl
    | some p => rfl

theorem visitTraced_erase {T : Type} [DecidableEq T] (s : MazeSolver T) (cur : Point)
    (st : BfsState) (tr : Trace) (dir : Point) :
    (visitTraced s cur st tr dir).map Prod.fst = visit s cur st dir := by
  unfold visitTraced visit
  simp only []
  by_cases hb : (nextPoint cur dir).Row < 0 ∨ (nextPoint cur dir).Row ≥ s.rows ∨
      (nextPoint cur dir).Col < 0 ∨ (nextPoint cur dir).Col ≥ s.cols
  · simp only [hb, if_true]
    rfl
  · simp only [hb, if_false]
    cases cell s.maze (nextPoint cur dir).Row (nextPoint cur dir).Col with
    | error e => rfl
    | ok x =>
      simp only []
      by_cases hw : x = s.wall
      · simp only [hw, if_true]
        rfl
      · simp only [hw, if_false]
        by_cases hv : nextPoint cur dir ∈ st.visited
        · simp only [hv, if_true]
          rfl
        · simp only [hv, if_false]
          rfl

theorem expandDirsTraced_erase {T : Type} [DecidableEq T] (s : MazeSolver T) (cur : Point) :
    ∀ (dirs : List Point) (st : BfsState) (tr : Trace),
      (expandDirsTraced s cur dirs st tr).map Prod.fst = expandDirs s cur dirs st := by
  intro dirs
  induction dirs with
  | nil =>
    intro st tr
    rfl
  | cons dir rest ih =>
    intro st tr
    unfold expandDirsTraced expandDirs
    have h := visitTraced_erase s cur st tr dir
    cases hc : visitTraced s cur st tr dir with
    | error e =>
      rw [hc] at h
      rw [← h]
      rfl
    | ok x =>
      obtain ⟨st1, tr1⟩ := x
      rw [hc] at h
      rw [← h]
      exact ih st1 tr1

theorem bfsLoopTraced_erase {T : Type} [DecidableEq T] (s : MazeSolver T) (start e : Point)
    (pathFuel : Nat) :
    ∀ (fuel : Nat) (st : BfsState) (tr : Trace),
      (bfsLoopTraced s start e pathFuel fuel st tr).map Prod.fst =
        bfsLoop s start e pathFuel fuel st := by
  intro fuel
  induction fuel with
  | zero =>
    intro st tr
    unfold bfsLoopTraced bfsLoop
    cases st.queue with
    | nil => rfl
    | cons c q => rfl
  | succ f ih =>
    intro st tr
    unfold bfsLoopTraced bfsLoop
    cases st.queue with
    | nil => rfl
    | cons c q =>
      simp only []
      by_cases hce : c = e
      · simp only [hce, if_true]
        have h := reconstructPathTraced_erase pathFuel st.parents start e
        cases hc : reconstructPathTraced pathFuel st.parents start e with
        | error err =>
          rw [hc] at h
          rw [← h]
          rfl
        | ok x =>
          obtain ⟨path, lk⟩ := x
          rw [hc] at h
          rw [← h]
          rfl
      · simp only [hce, if_false]
        have h := expandDirsTraced_erase s c directions ⟨q, st.visited, st.parents⟩
          { tr with dequeued := tr.dequeued ++ [c] }
        cases hc : expandDirsTraced s c directions ⟨q, st.visited, st.parents⟩
            { tr with dequeued := tr.dequeued ++ [c] } with
        | error err =>
          rw [hc] at h
          rw [← h]
          rfl
        | ok x =>
          obtain ⟨st1, tr1⟩ := x
          rw [hc] at h
          rw [← h]
          exact ih st1 tr1

theorem SolveBFSTraced_erase {T : Type} [DecidableEq T] (s : MazeSolver T) (start : Point)
    (v : T) : (SolveBFSTraced s start v).map Prod.fst = SolveBFS s start v := by
  unfold SolveBFSTraced SolveBFS
  have h := findEndNodeTraced_erase s v
  cases hc : findEndNodeTraced s v with
  | error err =>
    rw [hc] at h
    rw [← h]
    rfl
  | ok x =>
    obtain ⟨⟨e, b⟩, reads⟩ := x
    rw [hc] at h
    rw [← h]
    cases b with
    | false => rfl
    | true =>
      show Except.map Prod.fst (match bfsLoopTraced s start e (solveFuel s) (solveFuel s)
          ⟨[start], [start], s.parents⟩ ⟨reads, [start], [], [], []⟩ with
        | .error err => .error err
        | .ok ((r, parents), tr) => .ok ((r, { s with parents := parents }), tr)) =
        (match bfsLoop s start e (solveFuel s) (solveFuel s)
          ⟨[start], [start], s.parents⟩ with
        | .error err => .error err
        | .ok (r, parents) => .ok (r, { s with parents := parents }))
      have h2 := bfsLoopTraced_erase s start e (solveFuel s) (solveFuel s)
        ⟨[start], [start], s.parents⟩ ⟨reads, [start], [], [], []⟩
      cases hl : bfsLoopTraced s start e (solveFuel s) (solveFuel s)
          ⟨[start], [start], s.parents⟩ ⟨reads, [start], [], [], []⟩ with
      | error err =>
        rw [hl] at h2
        rw [← h2]
        rfl
      | ok y =>
        obtain ⟨⟨r, parents⟩, tr⟩ := y
        rw [hl] at h2
        rw [← h2]
        rfl

/-! ## The log along the loop -/

theorem tinv_visit {T : Type} [DecidableEq T] {s : MazeSolver T} {start : Point}
    {parents0 : ParentMap} {done : List Point} {cur : Point} {st st1 : BfsState}
    {tr tr1 : Trace} (dir : Point) (hT : TInv s start parents0 done cur st tr)
    (h : visitTraced s cur st tr dir = .ok (st1, tr1)) :
    TInv s start parents0 done cur st1 tr1 := by
  unfold visitTraced at h
  simp only [] at h
  by_cases hb : (nextPoint cur dir).Row < 0 ∨ (nextPoint cur dir).Row ≥ s.rows ∨
      (nextPoint cur dir).Col < 0 ∨ (nextPoint cur dir).Col ≥ s.cols
  · simp only [hb, if_true, Except.ok.injEq, Prod.mk.injEq] at h
    obtain ⟨h1, h2⟩ := h
    subst h1
    subst h2
    exact hT
  · simp only [hb, if_false] at h
    have hin : InBounds s (nextPoint cur dir) := by
      unfold InBounds
      omega
    have hrd : ∀ p ∈ tr.reads ++ [nextPoint cur dir], InBounds s p := by
      intro p hp
      rw [List.mem_append, List.mem_singleton] at hp
      rcases hp with hp | hp
      · exact hT.rd p hp
      · rw [hp]
        exact hin
    cases hx : cell s.maze (nextPoint cur dir).Row (nextPoint cur dir).Col with
    | error e =>
      rw [hx] at h
      simp at h
    | ok x =>
      rw [hx] at h
      simp only [] at h
      by_cases hw : x = s.wall
      · simp only [hw, if_true, Except.ok.injEq, Prod.mk.injEq] at h
        obtain ⟨h1, h2⟩ := h
        subst h1
        subst h2
        exact ⟨hT.enq, hT.deq, hT.hd, hT.asg, hT.par, hrd, hT.lk⟩
      · simp only [hw, if_false] at h
        by_cases hv : nextPoint cur dir ∈ st.visited
        · simp only [hv, if_true, Except.ok.injEq, Prod.mk.injEq] at h
          obtain ⟨h1, h2⟩ := h
          subst h1
          subst h2
          exact ⟨hT.enq, hT.deq, hT.hd, hT.asg, hT.par, hrd, hT.lk⟩
        · simp only [hv, if_false, Except.ok.injEq, Prod.mk.injEq] at h
          obtain ⟨h1, h2⟩ := h
          subst h1
          subst h2
          have hne : tr.enqueued ≠ [] := by
            intro h0
            have := hT.hd
            rw [h0] at this
            simp at this
          refine ⟨?_, hT.deq, ?_, ?_, ?_, hrd, hT.lk⟩
          · show tr.enqueued ++ [nextPoint cur dir] =
              done ++ cur :: (st.queue ++ [nextPoint cur dir])
            rw [hT.enq]
            simp
          · show (tr.enqueued ++ [nextPoint cur dir]).head? = some start
            rw [List.head?_append_of_ne_nil _ hne]
            exact hT.hd
          · show (tr.assigned ++ [(nextPoint cur dir, cur)]).map Prod.fst =
              (tr.enqueued ++ [nextPoint cur dir]).tail
            rw [List.map_append, hT.asg, List.tail_append_of_ne_nil hne]
            rfl
          · show mapSet st.parents (nextPoint cur dir) cur =
              (tr.assigned ++ [(nextPoint cur dir, cur)]).foldl
                (fun m kv => mapSet m kv.1 kv.2) parents0
            rw [List.foldl_append, ← hT.par]
            rfl

theorem tinv_expand {T : Type} [DecidableEq T] {s : MazeSolver T} {start : Point}
    {parents0 : ParentMap} {done : List Point} {cur : Point} :
    ∀ (dirs : List Point) (st st1 : BfsState) (tr tr1 : Trace),
      TInv s start parents0 done cur st tr →
      expandDirsTraced s cur dirs st tr = .ok (st1, tr1) →
      TInv s start parents0 done cur st1 tr1 := by
  intro dirs
  induction dirs with
  | nil =>
    intro st st1 tr tr1 hT h
    simp only [expandDirsTraced, Except.ok.injEq, Prod.mk.injEq] at h
    obtain ⟨h1, h2⟩ := h
    subst h1
    subst h2
    exact hT
  | cons dir rest ih =>
    intro st st1 tr tr1 hT h
    unfold expandDirsTraced at h
    cases hv : visitTraced s cur st tr dir with
    | error e =>
      rw [hv] at h
      simp at h
    | ok x =>
      obtain ⟨st2, tr2⟩ := x
      rw [hv] at h
      exact ih st2 st1 tr2 tr1 (tinv_visit dir hT hv) h

theorem tinv_next {T : Type} {s : MazeSolver T} {start : Point} {parents0 : ParentMap}
    {done : List Point} {cur cur1 : Point} {q visited : List Point} {parents : ParentMap}
    {tr : Trace} (hT : TInv s start parents0 done cur ⟨cur1 :: q, visited, parents⟩ tr) :
    TInv s start parents0 (done ++ [cur]) cur1 ⟨q, visited, parents⟩
      { tr with dequeued := tr.dequeued ++ [cur1] } := by
  refine ⟨?_, ?_, hT.hd, hT.asg, hT.par, hT.rd, hT.lk⟩
  · show tr.enqueued = (done ++ [cur]) ++ cur1 :: q
    rw [hT.enq]
    simp
  · show tr.dequeued ++ [cur1] = (done ++ [cur]) ++ [cur1]
    rw [hT.deq]

theorem reconstructPathTraced_code {T : Type} {s : MazeSolver T} {start e : Point}
    {done : List Point} {cur : Point} {k : Nat} {st : BfsState} {code : Point → List Nat}
    (hI : Inv s start e done cur k st code) (v : Point)
    (hv : v ∈ done ++ cur :: st.queue) (fuel : Nat)
    (hfuel : (done ++ cur :: st.queue).length ≤ fuel) :
    reconstructPathTraced fuel st.parents start v =
      .ok (start :: tailPts start (code v), (tailPts start (code v)).reverse) := by
  unfold reconstructPathTraced
  rw [backWalkTraced_eq, backWalk_code hI (code v) v hv rfl fuel []
    (Nat.le_of_lt (Nat.lt_of_lt_of_le (hI.short v hv) hfuel))]
  simp [Except.map]

theorem bfsLoopTraced_spec {T : Type} [DecidableEq T] {s : MazeSolver T} (hB : Built s)
    (start e : Point) (parents0 : ParentMap) (pathFuel : Nat)
    (hpf : solveFuel s ≤ pathFuel) :
    ∀ (fuel : Nat) (done : List Point) (cur : Point) (st : BfsState)
      (code : Point → List Nat) (tr : Trace),
      Inv s start e done cur 0 st code →
      TInv s start parents0 done cur st { tr with dequeued := tr.dequeued ++ [cur] } →
      solveFuel s ≤ fuel + done.length →
      (∃ done1 st1 code1 tr1, Inv s start e done1 e 0 st1 code1 ∧
          TInv s start parents0 done1 e st1 tr1 ∧
          bfsLoopTraced s start e pathFuel fuel ⟨cur :: st.queue, st.visited, st.parents⟩ tr =
            .ok (((start :: tailPts start (code1 e), true), st1.parents),
              { tr1 with lookups := (tailPts start (code1 e)).reverse })) ∨
      (∃ done1 cur1 st1 code1 tr1, Inv s start e done1 cur1 4 st1 code1 ∧
          st1.queue = [] ∧ cur1 ≠ e ∧ TInv s start parents0 done1 cur1 st1 tr1 ∧
          bfsLoopTraced s start e pathFuel fuel ⟨cur :: st.queue, st.visited, st.parents⟩ tr =
            .ok ((([], false), st1.parents), tr1)) := by
  intro fuel
  induction fuel with
  | zero =>
    intro done cur st code tr hI _ hf
    have hlen := inv_length_le hB hI
    rw [List.length_append, List.length_cons] at hlen
    omega
  | succ f ih =>
    intro done cur st code tr hI hT hf
    have hlen := inv_length_le hB hI
    unfold bfsLoopTraced
    simp only []
    by_cases hce : cur = e
    · subst hce
      left
      refine ⟨done, st, code, { tr with dequeued := tr.dequeued ++ [cur] }, hI, hT, ?_⟩
      simp only [if_true]
      rw [reconstructPathTraced_code hI cur (by simp) pathFuel (Nat.le_trans hlen hpf)]
      have hlk : tr.lookups = [] := hT.lk
      simp only [hlk, List.nil_append]
    · simp only [hce, if_false]
      obtain ⟨st4, code4, hex, hI4⟩ := inv_expand hB hI
      have heta : (⟨st.queue, st.visited, st.parents⟩ : BfsState) = st := rfl
      rw [heta]
      have her := expandDirsTraced_erase s cur directions st
        { tr with dequeued := tr.dequeued ++ [cur] }
      rw [hex] at her
      obtain ⟨⟨st5, tr5⟩, hrun, hst⟩ := map_eq_ok her
      simp only at hst
      subst hst
      have hT5 := tinv_expand directions st st5 _ tr5 hT hrun
      rw [hrun]
      simp only []
      obtain ⟨q4, v4, p4⟩ := st5
      cases q4 with
      | nil =>
        right
        refine ⟨done, cur, ⟨[], v4, p4⟩, code4, tr5, hI4, rfl, hce, hT5, ?_⟩
        unfold bfsLoopTraced
        rfl
      | cons cur1 q1 =>
        have hI5 := inv_next hI4 hce
        have hT6 := tinv_next hT5
        exact ih (done ++ [cur]) cur1 ⟨q1, v4, p4⟩ code4 tr5 hI5 hT6 (by
          rw [List.length_append, List.length_singleton]
          omega)

theorem scanColsTraced_reads {T : Type} [DecidableEq T] (s : MazeSolver T) (v : T) (r : Nat)
    (hr : (r : Int) < s.rows) :
    ∀ (n c : Nat) (reads : List Point) (x : Option Point) (reads1 : List Point),
      c + n = s.cols.toNat → scanColsTraced s v r c n reads = .ok (x, reads1) →
      (∀ p ∈ reads, InBounds s p) → ∀ p ∈ reads1, InBounds s p := by
  intro n
  induction n with
  | zero =>
    intro c reads x reads1 _ h hrd
    simp only [scanColsTraced, Except.ok.injEq, Prod.mk.injEq] at h
    rw [← h.2]
    exact hrd
  | succ n ih =>
    intro c reads x reads1 hc h hrd
    have hin : InBounds s ⟨r, c⟩ := by
      unfold InBounds
      simp only
      omega
    have hrd1 : ∀ p ∈ reads ++ [(⟨r, c⟩ : Point)], InBounds s p := by
      intro p hp
      rw [List.mem_append, List.mem_singleton] at hp
      rcases hp with hp | hp
      · exact hrd p hp
      · rw [hp]
        exact hin
    unfold scanColsTraced at h
    cases hx : cell s.maze r c with
    | error e =>
      rw [hx] at h
      simp at h
    | ok y =>
      rw [hx] at h
      simp only [] at h
      by_cases hy : y = v
      · simp only [hy, if_true, Except.ok.injEq, Prod.mk.injEq] at h
        rw [← h.2]
        exact hrd1
      · simp only [hy, if_false] at h
        exact ih (c + 1) _ x reads1 (by omega) h hrd1

theorem scanRowsTraced_reads {T : Type} [DecidableEq T] (s : MazeSolver T) (v : T) :
    ∀ (n r : Nat) (reads : List Point) (x : Option Point) (reads1 : List Point),
      r + n = s.rows.toNat → scanRowsTraced s v r n reads = .ok (x, reads1) →
      (∀ p ∈ reads, InBounds s p) → ∀ p ∈ reads1, InBounds s p := by
  intro n
  induction n with
  | zero =>
    intro r reads x reads1 _ h hrd
    simp only [scanRowsTraced, Except.ok.injEq, Prod.mk.injEq] at h
    rw [← h.2]
    exact hrd
  | succ n ih =>
    intro r reads x reads1 hr h hrd
    unfold scanRowsTraced at h
    cases hc : scanColsTraced s v r 0 s.cols.toNat reads with
    | error e =>
      rw [hc] at h
      simp at h
    | ok y =>
      obtain ⟨o, reads2⟩ := y
      have hrd2 := scanColsTraced_reads s v r (by omega) s.cols.toNat 0 reads o reads2
        (by omega) hc hrd
      rw [hc] at h
      cases o with
      | some p =>
        simp only [Except.ok.injEq, Prod.mk.injEq] at h
        rw [← h.2]
        exact hrd2
      | none =>
        simp only [] at h
        exact ih (r + 1) reads2 x reads1 (by omega) h hrd2

theorem findEndNodeTraced_reads {T : Type} [DecidableEq T] (s : MazeSolver T) (v : T)
    (x : Point × Bool) (reads : List Point) (h : findEndNodeTraced s v = .ok (x, reads)) :
    ∀ p ∈ reads, InBounds s p := by
  unfold findEndNodeTraced at h
  cases hc : scanRowsTraced s v 0 s.rows.toNat [] with
  | error e =>
    rw [hc] at h
    simp at h
  | ok y =>
    obtain ⟨o, reads2⟩ := y
    have hrd := scanRowsTraced_reads s v s.rows.toNat 0 [] o reads2 (by omega) hc (by simp)
    rw [hc] at h
    cases o with
    | some p =>
      simp only [Except.ok.injEq, Prod.mk.injEq] at h
      rw [← h.2]
      exact hrd
    | none =>
      simp only [Except.ok.injEq, Prod.mk.injEq] at h
      rw [← h.2]
      exact hrd

theorem SolveBFSTraced_inv {T : Type} [DecidableEq T] (s : MazeSolver T) (hB : Built s)
    (start : Point) (v : T) :
    (∃ reads, SolveBFSTraced s start v = .ok ((([], false), s), ⟨reads, [], [], [], []⟩) ∧
        (∀ p ∈ reads, InBounds s p) ∧ ∀ q, InBounds s q → ¬ CellIs s q v) ∨
    (∃ e, FirstMatch s v e ∧
      ((∃ done st code tr, Inv s start e done e 0 st code ∧
          TInv s start s.parents done e st tr ∧
          SolveBFSTraced s start v =
            .ok (((start :: tailPts start (code e), true), { s with parents := st.parents }),
              { tr with lookups := (tailPts start (code e)).reverse })) ∨
       (∃ done cur st code tr, Inv s start e done cur 4 st code ∧ st.queue = [] ∧ cur ≠ e ∧
          TInv s start s.parents done cur st tr ∧
          SolveBFSTraced s start v =
            .ok ((([], false), { s with parents := st.parents }), tr)))) := by
  unfold SolveBFSTraced
  have her := findEndNodeTraced_erase s v
  rcases findEndNode_cases s hB v with ⟨e, h1, h2⟩ | ⟨h1, h2⟩
  · right
    rw [h1] at her
    obtain ⟨⟨x, reads⟩, hrun, hx⟩ := map_eq_ok her
    simp only at hx
    subst hx
    have hrd := findEndNodeTraced_reads s v _ reads hrun
    rw [hrun]
    refine ⟨e, h2, ?_⟩
    simp only []
    have hT : TInv s start s.parents [] start ⟨[], [start], s.parents⟩
        { (⟨reads, [start], [], [], []⟩ : Trace) with
          dequeued := (⟨reads, [start], [], [], []⟩ : Trace).dequeued ++ [start] } :=
      ⟨rfl, rfl, rfl, rfl, rfl, hrd, rfl⟩
    rcases bfsLoopTraced_spec hB start e s.parents (solveFuel s) (Nat.le_refl _) (solveFuel s)
        [] start ⟨[], [start], s.parents⟩ (fun _ => []) ⟨reads, [start], [], [], []⟩
        (inv_init s start e s.parents) hT (by simp) with
      ⟨done1, st1, code1, tr1, hI, hT1, hl⟩ | ⟨done1, cur1, st1, code1, tr1, hI, hq, hne, hT1, hl⟩
    · left
      refine ⟨done1, st1, code1, tr1, hI, hT1, ?_⟩
      rw [hl]
    · right
      refine ⟨done1, cur1, st1, code1, tr1, hI, hq, hne, hT1, ?_⟩
      rw [hl]
  · left
    rw [h1] at her
    obtain ⟨⟨x, reads⟩, hrun, hx⟩ := map_eq_ok her
    simp only at hx
    subst hx
    have hrd := findEndNodeTraced_reads s v _ reads hrun
    rw [hrun]
    exact ⟨reads, rfl, hrd, h2⟩

/-! ## Minimality for every discovered cell, and the `parents` map as a tree -/

theorem inv_below_cur {T : Type} {s : MazeSolver T} {start e : Point} {done : List Point}
    {cur : Point} {k : Nat} {st : BfsState} {code : Point → List Nat}
    (hI : Inv s start e done cur k st code) (c : List Nat) :
    ValidCode s start c → rank c ≤ rank (code cur) →
      endOf start c ∈ done ++ [cur] ∧ rank (code (endOf start c)) ≤ rank c := by
  have hsort := List.pairwise_append.mp hI.sorted
  induction c using List.reverseRecOn with
  | nil =>
    intro _ _
    rw [endOf_nil, hI.startCode]
    exact ⟨hI.startIn, Nat.le_refl _⟩
  | append_singleton c d ih =>
    intro hval hr
    obtain ⟨hv1, hd, hop⟩ := (validCode_snoc s start c d).mp hval
    rw [rank_snoc] at hr
    obtain ⟨hu, hru⟩ := ih hv1 (by omega)
    have hu1 : endOf start c ∈ done := by
      rw [List.mem_append, List.mem_singleton] at hu
      rcases hu with h | h
      · exact h
      · rw [h] at hru
        omega
    obtain ⟨hm, hrw⟩ := hI.closed (endOf start c) d (Or.inl ⟨hu1, hd⟩) hop
    rw [endOf_snoc, rank_snoc]
    refine ⟨?_, by omega⟩
    rw [List.mem_append, List.mem_cons] at hm
    rcases hm with hm | hm | hm
    · exact List.mem_append_left _ hm
    · rw [hm]
      simp
    · have := List.rel_of_pairwise_cons hsort.2.1 hm
      omega

theorem inv_min_all {T : Type} {s : MazeSolver T} {start e : Point} {done : List Point}
    {cur : Point} {k : Nat} {st : BfsState} {code : Point → List Nat}
    (hI : Inv s start e done cur k st code) (v : Point)
    (hv : v ∈ done ++ cur :: st.queue) (c : List Nat)
    (hval : ValidCode s start c) (hend : endOf start c = v) :
    rank (code v) ≤ rank c := by
  by_cases hvs : v = start
  · rw [hvs, hI.startCode, rank_nil]
    exact Nat.zero_le _
  · rcases nil_or_snoc c with rfl | ⟨c1, d, rfl⟩
    · exact absurd hend.symm hvs
    · obtain ⟨u, dp, _, hdp, hcode, hu⟩ := hI.par v hv hvs
      obtain ⟨hv1, hd, hop⟩ := (validCode_snoc s start c1 d).mp hval
      by_contra hlt
      rw [hcode, rank_snoc, rank_snoc] at hlt
      rw [endOf_snoc] at hend
      rcases hu with hu | ⟨hu, hdk⟩
      · obtain ⟨hm, hr⟩ := inv_below hI c1 hv1 u hu (by omega)
        have hcl := (hI.closed (endOf start c1) d (Or.inl ⟨hm, hd⟩) hop).2
        rw [hend, hcode, rank_snoc] at hcl
        omega
      · subst hu
        obtain ⟨hm, hr⟩ := inv_below_cur hI c1 hv1 (by omega)
        rw [List.mem_append, List.mem_singleton] at hm
        rcases hm with hm | hm
        · have hcl := (hI.closed (endOf start c1) d (Or.inl ⟨hm, hd⟩) hop).2
          rw [hend, hcode, rank_snoc] at hcl
          omega
        · rw [hm] at hr
          have hcl := (hI.closed (endOf start c1) d (Or.inr ⟨hm, by omega⟩) hop).2
          rw [hend, hcode, rank_snoc, hm] at hcl
          omega

theorem rank_inj (a : List Nat) :
    ∀ b : List Nat, (∀ d ∈ a, d < 4) → (∀ d ∈ b, d < 4) → rank a = rank b → a = b := by
  induction a using List.reverseRecOn with
  | nil =>
    intro b _ _ h
    rcases nil_or_snoc b with rfl | ⟨b1, y, rfl⟩
    · rfl
    · rw [rank_nil, rank_snoc] at h
      omega
  | append_singleton a x ih =>
    intro b ha hb h
    rcases nil_or_snoc b with rfl | ⟨b1, y, rfl⟩
    · rw [rank_nil, rank_snoc] at h
      omega
    · rw [rank_snoc, rank_snoc] at h
      have hx : x < 4 := ha x (by simp)
      have hy : y < 4 := hb y (by simp)
      have h1 : rank a = rank b1 := by omega
      have h2 : x = y := by omega
      rw [ih b1 (fun d hd => ha d (by simp [hd])) (fun d hd => hb d (by simp [hd])) h1, h2]

theorem walkUp_code {T : Type} {s : MazeSolver T} {start e : Point} {done : List Point}
    {cur : Point} {k : Nat} {st : BfsState} {code : Point → List Nat}
    (hI : Inv s start e done cur k st code) (c : List Nat) :
    ∀ (v : Point), v ∈ done ++ cur :: st.queue → code v = c →
      walkUp st.parents c.length v = some start := by
  induction c using List.reverseRecOn with
  | nil =>
    intro v hv hc
    have hvs : v = start := by
      by_contra hne
      obtain ⟨u, d, _, _, h3, _⟩ := hI.par v hv hne
      rw [hc] at h3
      exact (List.append_ne_nil_of_right_ne_nil _ (List.cons_ne_nil d [])) h3.symm
    rw [hvs]
    rfl
  | append_singleton c d ih =>
    intro v hv hc
    have hvs : v ≠ start := by
      intro h
      rw [h, hI.startCode] at hc
      exact (List.append_ne_nil_of_right_ne_nil _ (List.cons_ne_nil d [])) hc.symm
    obtain ⟨u, d1, h1, _, h3, h4⟩ := hI.par v hv hvs
    rw [hc] at h3
    have hcu : code u = c := (List.append_inj_left' h3 rfl).symm
    have hu : u ∈ done ++ cur :: st.queue := by
      rcases h4 with h4 | ⟨rfl, _⟩
      · exact List.mem_append_left _ h4
      · simp
    rw [List.length_append, List.length_singleton]
    show (match mapFind st.parents v with
      | none => none
      | some p => walkUp st.parents c.length p) = some start
    rw [h1]
    exact ih u hu hcu

theorem walkUp_order {T : Type} {s : MazeSolver T} {start e : Point} {done : List Point}
    {cur : Point} {k : Nat} {st : BfsState} {code : Point → List Nat}
    (hI : Inv s start e done cur k st code)
    (hkeys : ∀ c p, mapFind st.parents c = some p →
      c ∈ done ++ cur :: st.queue ∧ c ≠ start) :
    ∀ (n : Nat) (c c1 : Point), walkUp st.parents (n + 1) c = some c1 →
      c ∈ done ++ cur :: st.queue ∧ c1 ∈ done ++ cur :: st.queue ∧
        (code c1).length + (n + 1) = (code c).length := by
  intro n
  induction n with
  | zero =>
    intro c c1 h
    have h0 : (match mapFind st.parents c with
      | none => none
      | some p => walkUp st.parents 0 p) = some c1 := h
    cases hm : mapFind st.parents c with
    | none =>
      rw [hm] at h0
      simp at h0
    | some p =>
      rw [hm] at h0
      have hpc : p = c1 := Option.some.inj h0
      obtain ⟨hc, hcs⟩ := hkeys c p hm
      obtain ⟨u, d, h1, _, h3, h4⟩ := hI.par c hc hcs
      rw [hm] at h1
      have hup : p = u := Option.some.inj h1
      have hu : u ∈ done ++ cur :: st.queue := by
        rcases h4 with h4 | ⟨rfl, _⟩
        · exact List.mem_append_left _ h4
        · simp
      rw [← hpc, hup]
      refine ⟨hc, hu, ?_⟩
      rw [h3, List.length_append, List.length_singleton]
  | succ n ih =>
    intro c c1 h
    have h0 : (match mapFind st.parents c with
      | none => none
      | some p => walkUp st.parents (n + 1) p) = some c1 := h
    cases hm : mapFind st.parents c with
    | none =>
      rw [hm] at h0
      simp at h0
    | some p =>
      rw [hm] at h0
      obtain ⟨hc, hcs⟩ := hkeys c p hm
      obtain ⟨u, d, h1, _, h3, _⟩ := hI.par c hc hcs
      rw [hm] at h1
      have hup : p = u := Option.some.inj h1
      obtain ⟨_, g2, g3⟩ := ih p c1 h0
      refine ⟨hc, g2, ?_⟩
      rw [h3, List.length_append, List.length_singleton, ← hup]
      omega

/-! ## The `parents` map as the fold of the logged assignments -/

theorem mapFind_foldl {m0 : ParentMap} (asg : List (Point × Point)) :
    ∀ (k u : Point),
      mapFind (asg.foldl (fun m kv => mapSet m kv.1 kv.2) m0) k = some u →
      (k, u) ∈ asg ∨ mapFind m0 k = some u := by
  induction asg using List.reverseRecOn with
  | nil =>
    intro k u h
    exact Or.inr h
  | append_singleton asg a ih =>
    intro k u h
    rw [List.foldl_append] at h
    simp only [List.foldl_cons, List.foldl_nil] at h
    by_cases hk : k = a.1
    · rw [hk, mapFind_mapSet_same] at h
      left
      rw [List.mem_append, List.mem_singleton]
      right
      rw [hk, ← Option.some.inj h]
    · rw [mapFind_mapSet_ne _ _ _ _ hk] at h
      rcases ih k u h with h1 | h1
      · exact Or.inl (List.mem_append_left _ h1)
      · exact Or.inr h1

theorem mapFind_foldl_not_mem {m0 : ParentMap} (asg : List (Point × Point)) (k : Point)
    (hk : k ∉ asg.map Prod.fst) :
    mapFind (asg.foldl (fun m kv => mapSet m kv.1 kv.2) m0) k = mapFind m0 k := by
  induction asg using List.reverseRecOn with
  | nil => rfl
  | append_singleton asg a ih =>
    rw [List.map_append, List.mem_append, List.map_singleton, List.mem_singleton] at hk
    rw [List.foldl_append]
    simp only [List.foldl_cons, List.foldl_nil]
    have h1 : k ≠ a.1 := fun h => hk (Or.inr h)
    rw [mapFind_mapSet_ne _ _ _ _ h1]
    exact ih (fun h => hk (Or.inl h))

theorem mapFind_foldl_mem {m0 : ParentMap} (asg : List (Point × Point)) (k v : Point)
    (hnd : (asg.map Prod.fst).Nodup) (hmem : (k, v) ∈ asg) :
    mapFind (asg.foldl (fun m kv => mapSet m kv.1 kv.2) m0) k = some v := by
  induction asg using List.reverseRecOn with
  | nil => simp at hmem
  | append_singleton asg a ih =>
    rw [List.map_append, List.map_singleton] at hnd
    have hnd1 := (List.nodup_append.mp hnd).1
    have hdis := (List.nodup_append.mp hnd).2.2
    rw [List.foldl_append]
    simp only [List.foldl_cons, List.foldl_nil]
    rw [List.mem_append, List.mem_singleton] at hmem
    rcases hmem with hmem | hmem
    · have hk : k ≠ a.1 := by
        intro h
        have h1 : k ∈ asg.map Prod.fst := List.mem_map.mpr ⟨(k, v), hmem, rfl⟩
        exact hdis h1 (by rw [h]; simp)
      rw [mapFind_mapSet_ne _ _ _ _ hk]
      exact ih hnd1 hmem
    · rw [← hmem]
      exact mapFind_mapSet_same _ _ _

theorem tinv_tail {T : Type} {s : MazeSolver T} {start e : Point} {parents0 : ParentMap}
    {done : List Point} {cur : Point} {k : Nat} {st : BfsState} {code : Point → List Nat}
    {tr : Trace} (hI : Inv s start e done cur k st code)
    (hT : TInv s start parents0 done cur st tr) :
    tr.enqueued.Nodup ∧ (tr.assigned.map Prod.fst).Nodup ∧
      ∀ c ∈ tr.enqueued.tail, c ∈ done ++ cur :: st.queue ∧ c ≠ start := by
  have hnd : tr.enqueued.Nodup := by
    rw [hT.enq]
    exact hI.nodup
  have hhd := hT.hd
  have henq := hT.enq
  refine ⟨hnd, ?_, ?_⟩
  · rw [hT.asg]
    exact hnd.tail
  · intro c hc
    cases hl : tr.enqueued with
    | nil =>
      rw [hl] at hc
      simp at hc
    | cons a l =>
      rw [hl] at hc hhd hnd
      simp only [List.head?_cons, Option.some.injEq] at hhd
      simp only [List.tail_cons] at hc
      refine ⟨?_, ?_⟩
      · rw [← henq, hl]
        exact List.mem_cons_of_mem _ hc
      · intro h
        rw [h, ← hhd] at hc
        exact (List.nodup_cons.mp hnd).1 hc

/-! ## More fuel changes nothing -/

theorem backWalk_mono (parents : ParentMap) (start : Point) :
    ∀ (f : Nat) (cur : Point) (acc p : List Point),
      backWalk parents start f cur acc = .ok p →
      ∀ f1, f ≤ f1 → backWalk parents start f1 cur acc = .ok p := by
  intro f
  induction f with
  | zero =>
    intro cur acc p h f1 _
    unfold backWalk at h ⊢
    by_cases hc : cur = start
    · simp only [hc, if_true] at h ⊢
      exact h
    · simp [hc] at h
  | succ f ih =>
    intro cur acc p h f1 hf
    obtain ⟨f2, rfl⟩ : ∃ f2, f1 = f2 + 1 := ⟨f1 - 1, by omega⟩
    unfold backWalk at h ⊢
    by_cases hc : cur = start
    · simp only [hc, if_true] at h ⊢
      exact h
    · simp only [hc, if_false] at h ⊢
      exact ih _ _ _ h f2 (by omega)

theorem reconstructPath_mono (parents : ParentMap) (start e : Point) (f f1 : Nat)
    (p : List Point) (h : reconstructPath f parents start e = .ok p) (hf : f ≤ f1) :
    reconstructPath f1 parents start e = .ok p := by
  unfold reconstructPath at h ⊢
  cases hb : backWalk parents start f e [] with
  | error err =>
    rw [hb] at h
    simp at h
  | ok q =>
    rw [hb] at h
    rw [backWalk_mono parents start f e [] q hb f1 hf]
    exact h

theorem bfsLoop_mono {T : Type} [DecidableEq T] (s : MazeSolver T) (start e : Point)
    (pf pf1 : Nat) (hpf : pf ≤ pf1) :
    ∀ (f : Nat) (st : BfsState) (r : (List Point × Bool) × ParentMap),
      bfsLoop s start e pf f st = .ok r →
      ∀ f1, f ≤ f1 → bfsLoop s start e pf1 f1 st = .ok r := by
  intro f
  induction f with
  | zero =>
    intro st r h f1 _
    unfold bfsLoop at h ⊢
    cases hq : st.queue with
    | nil =>
      rw [hq] at h
      exact h
    | cons c q =>
      rw [hq] at h
      simp at h
  | succ f ih =>
    intro st r h f1 hf
    obtain ⟨f2, rfl⟩ : ∃ f2, f1 = f2 + 1 := ⟨f1 - 1, by omega⟩
    unfold bfsLoop at h ⊢
    cases hq : st.queue with
    | nil =>
      rw [hq] at h
      exact h
    | cons c q =>
      rw [hq] at h
      simp only [] at h ⊢
      by_cases hce : c = e
      · simp only [hce, if_true] at h ⊢
        cases hr : reconstructPath pf st.parents start e with
        | error err =>
          rw [hr] at h
          simp at h
        | ok path =>
          rw [hr] at h
          rw [reconstructPath_mono st.parents start e pf pf1 path hr hpf]
          exact h
      · simp only [hce, if_false] at h ⊢
        cases hx : expandDirs s c directions ⟨q, st.visited, st.parents⟩ with
        | error err =>
          rw [hx] at h
          simp at h
        | ok st1 =>
          rw [hx] at h
          simp only [] at h ⊢
          exact ih st1 r h f2 (by omega)

/-! ## Runs with their log -/

theorem traced_of_run {T : Type} [DecidableEq T] {s : MazeSolver T} {start : Point} {v : T}
    {r : List Point × Bool} {s1 : MazeSolver T} (h : SolveBFS s start v = .ok (r, s1)) :
    ∃ tr, SolveBFSTraced s start v = .ok ((r, s1), tr) := by
  have her := SolveBFSTraced_erase s start v
  rw [h] at her
  obtain ⟨⟨x, tr⟩, hrun, hx⟩ := map_eq_ok her
  simp only at hx
  subst hx
  exact ⟨tr, hrun⟩

theorem run_of_traced {T : Type} [DecidableEq T] {s : MazeSolver T} {start : Point} {v : T}
    {x : (List Point × Bool) × MazeSolver T} {tr : Trace}
    (h : SolveBFSTraced s start v = .ok (x, tr)) : SolveBFS s start v = .ok x := by
  have her := SolveBFSTraced_erase s start v
  rw [h] at her
  exact her.symm

theorem traced_facts {T : Type} [DecidableEq T] {s : MazeSolver T} (hB : Built s)
    {start : Point} {v : T} {r : List Point × Bool} {s1 : MazeSolver T} {tr : Trace}
    (h : SolveBFSTraced s start v = .ok ((r, s1), tr)) :
    (tr.enqueued = [] ∧ tr.assigned = [] ∧ tr.dequeued = [] ∧ tr.lookups = [] ∧ s1 = s ∧
        r = ([], false) ∧ (∀ p ∈ tr.reads, InBounds s p) ∧
        ∀ q, InBounds s q → ¬ CellIs s q v) ∨
    (∃ e done cur k st code tr0, FirstMatch s v e ∧ Inv s start e done cur k st code ∧
        TInv s start s.parents done cur st tr0 ∧ s1 = { s with parents := st.parents } ∧
        tr.reads = tr0.reads ∧ tr.enqueued = tr0.enqueued ∧ tr.dequeued = tr0.dequeued ∧
        tr.assigned = tr0.assigned ∧
        ((cur = e ∧ r = (start :: tailPts start (code e), true) ∧
            tr.lookups = (tailPts start (code e)).reverse) ∨
         (k = 4 ∧ st.queue = [] ∧ cur ≠ e ∧ r = ([], false) ∧ tr.lookups = []))) := by
  rcases SolveBFSTraced_inv s hB start v with ⟨reads, h1, h2, h3⟩ | ⟨e, he, hcase⟩
  · left
    rw [h1] at h
    simp only [Except.ok.injEq, Prod.mk.injEq] at h
    obtain ⟨⟨hr, hs1⟩, htr⟩ := h
    subst htr
    exact ⟨rfl, rfl, rfl, rfl, hs1.symm, hr.symm, h2, h3⟩
  · right
    rcases hcase with ⟨done, st, code, tr0, hI, hT, h1⟩ | ⟨done, cur, st, code, tr0, hI, hq, hne, hT, h1⟩
    · rw [h1] at h
      simp only [Except.ok.injEq, Prod.mk.injEq] at h
      obtain ⟨⟨hr, hs1⟩, htr⟩ := h
      subst htr
      exact ⟨e, done, e, 0, st, code, tr0, he, hI, hT, hs1.symm, rfl, rfl, rfl, rfl,
        Or.inl ⟨rfl, hr.symm, rfl⟩⟩
    · rw [h1] at h
      simp only [Except.ok.injEq, Prod.mk.injEq] at h
      obtain ⟨⟨hr, hs1⟩, htr⟩ := h
      subst htr
      exact ⟨e, done, cur, 4, st, code, tr0, he, hI, hT, hs1.symm, rfl, rfl, rfl, rfl,
        Or.inr ⟨rfl, hq, hne, hr.symm, hT.lk⟩⟩

theorem built_with_parents {T : Type} {s : MazeSolver T} (hB : Built s) (parents : ParentMap) :
    Built { s with parents := parents } := hB

theorem validCode_with_parents {T : Type} (s : MazeSolver T) (parents : ParentMap)
    (a : Point) (c : List Nat) :
    ValidCode { s with parents := parents } a c ↔ ValidCode s a c := by
  induction c generalizing a with
  | nil => exact Iff.rfl
  | cons d c ih =>
    show (d < 4 ∧ Open { s with parents := parents } (stepTo a d) ∧
        ValidCode { s with parents := parents } (stepTo a d) c) ↔
      (d < 4 ∧ Open s (stepTo a d) ∧ ValidCode s (stepTo a d) c)
    rw [ih (stepTo a d)]
    exact Iff.rfl

theorem firstMatch_with_parents {T : Type} (s : MazeSolver T) (parents : ParentMap)
    (v : T) (e : Point) :
    FirstMatch { s with parents := parents } v e ↔ FirstMatch s v e := Iff.rfl

theorem result_char {T : Type} [DecidableEq T] {s0 : MazeSolver T} (hB : Built s0)
    (parents : ParentMap) {start : Point} {v : T} {r : List Point × Bool}
    {s1 : MazeSolver T}
    (h : SolveBFS { s0 with parents := parents } start v = .ok (r, s1)) :
    (r = ([], false) ∧ ¬ ∃ e c, FirstMatch s0 v e ∧ ValidCode s0 start c ∧ endOf start c = e) ∨
    (∃ e c, FirstMatch s0 v e ∧ ValidCode s0 start c ∧ endOf start c = e ∧
        (∀ c1, ValidCode s0 start c1 → endOf start c1 = e → rank c ≤ rank c1) ∧
        r = (start :: tailPts start c, true)) := by
  have hB1 := built_with_parents hB parents
  obtain ⟨path, found⟩ := r
  cases found with
  | false =>
    left
    obtain ⟨hp, hno⟩ := SolveBFS_notFound hB1 h
    refine ⟨by rw [hp], ?_⟩
    rintro ⟨e, c, he, hc1, hc2⟩
    rcases hno with hno | ⟨e1, he1, hno⟩
    · exact hno e he.1 he.2.1
    · have := firstMatch_unique he ((firstMatch_with_parents s0 parents v e1).mp he1)
      subst this
      exact hno c ((validCode_with_parents s0 parents start c).mpr hc1) hc2
  | true =>
    right
    obtain ⟨e, done, st, code, he, hI, hpath, _⟩ := SolveBFS_found hB1 h
    obtain ⟨hv1, hv2⟩ := hI.valid e (by simp)
    refine ⟨e, code e, (firstMatch_with_parents s0 parents v e).mp he,
      (validCode_with_parents s0 parents start _).mp hv1, hv2, ?_, by rw [hpath]⟩
    intro c1 hc1 hc2
    exact inv_min hI c1 ((validCode_with_parents s0 parents start c1).mpr hc1) hc2

theorem result_unique {T : Type} [DecidableEq T] {s0 : MazeSolver T} (hB : Built s0)
    (pa pb : ParentMap) {start : Point} {v : T} {ra rb : List Point × Bool}
    {sa sb : MazeSolver T}
    (ha : SolveBFS { s0 with parents := pa } start v = .ok (ra, sa))
    (hb : SolveBFS { s0 with parents := pb } start v = .ok (rb, sb)) : ra = rb := by
  rcases result_char hB pa ha with ⟨h1, h2⟩ | ⟨e, c, he, hc1, hc2, hmin, hr⟩
  · rcases result_char hB pb hb with ⟨g1, _⟩ | ⟨e1, c1, ge, gc1, gc2, _, _⟩
    · rw [h1, g1]
    · exact absurd ⟨e1, c1, ge, gc1, gc2⟩ h2
  · rcases result_char hB pb hb with ⟨_, g2⟩ | ⟨e1, c1, ge, gc1, gc2, gmin, gr⟩
    · exact absurd ⟨e, c, he, hc1, hc2⟩ g2
    · have hee := firstMatch_unique he ge
      subst hee
      have h1 := hmin c1 gc1 gc2
      have h2 := gmin c hc1 hc2
      have hcc := rank_inj c c1 (validCode_lt hc1) (validCode_lt gc1) (by omega)
      rw [hr, gr, hcc]

theorem run_shortest {T : Type} [DecidableEq T] {s : MazeSolver T} (hB : Built s)
    {start : Point} {v : T} {path : List Point} {s1 : MazeSolver T}
    (hrun : SolveBFS s start v = .ok ((path, true), s1))
    (q : List Point) (hq1 : q.head? = some start) (hq2 : q.getLast? = path.getLast?)
    (hq3 : WallFreeWalk s q) : path.length ≤ q.length := by
  obtain ⟨e, done, st, code, he, hI, hpath, _⟩ := SolveBFS_found hB hrun
  cases q with
  | nil => simp at hq1
  | cons a q =>
    simp only [List.head?_cons, Option.some.injEq] at hq1
    subst hq1
    obtain ⟨c, hc1, hc2⟩ := code_of_walk hB q a hq3.1
      (fun p hp => hq3.2 p (List.mem_cons_of_mem _ hp))
    have hlast : endOf a c = e := by
      have h1 := getLast_tailPts a c
      have h2 := getLast_tailPts a (code e)
      rw [hc2, hq2, hpath, h2, (hI.valid e (by simp)).2] at h1
      exact (Option.some.inj h1).symm
    have hmin := inv_min hI c hc1 hlast
    have hlen := rank_length _ _ (validCode_lt (hI.valid e (by simp)).1) (validCode_lt hc1) hmin
    rw [hpath, List.length_cons, List.length_cons, length_tailPts, ← hc2, length_tailPts]
    omega

theorem rect_fixture : Rect fixture :=
  ⟨by decide, by decide, 10, by decide, by decide, by decide⟩

theorem new_ok {T : Type} {maze : List (List T)} (wall : T) (hR : Rect maze) :
    ∃ s, NewMazeSolver maze wall = .ok s := by
  cases maze with
  | nil =>
    obtain ⟨h1, _⟩ := hR
    simp at h1
  | cons row0 rest => exact ⟨_, rfl⟩

theorem inv_parent_facts {T : Type} {s : MazeSolver T} {start e : Point} {done : List Point}
    {cur : Point} {k : Nat} {st : BfsState} {code : Point → List Nat}
    (hI : Inv s start e done cur k st code) (v : Point)
    (hv : v ∈ done ++ cur :: st.queue) (hvs : v ≠ start) :
    ∃ u d, mapFind st.parents v = some u ∧ d < 4 ∧ u ∈ done ++ cur :: st.queue ∧
      code v = code u ++ [d] ∧ v = stepTo u d ∧ Open s v := by
  obtain ⟨u, d, h1, h2, h3, h4⟩ := hI.par v hv hvs
  have hu : u ∈ done ++ cur :: st.queue := by
    rcases h4 with h4 | ⟨rfl, _⟩
    · exact List.mem_append_left _ h4
    · simp
  refine ⟨u, d, h1, h2, hu, h3, ?_, inv_open hI v hv hvs⟩
  have hv2 := (hI.valid v hv).2
  rw [h3, endOf_snoc, (hI.valid u hu).2] at hv2
  exact hv2.symm

theorem inv_keys {T : Type} {s : MazeSolver T} {start e : Point} {done : List Point}
    {cur : Point} {k : Nat} {st : BfsState} {code : Point → List Nat} {tr : Trace}
    (hI : Inv s start e done cur k st code) (hT : TInv s start [] done cur st tr)
    (c p : Point) (h : mapFind st.parents c = some p) :
    c ∈ done ++ cur :: st.queue ∧ c ≠ start := by
  rw [hT.par] at h
  rcases mapFind_foldl tr.assigned c p h with h1 | h1
  · have hc : c ∈ tr.enqueued.tail := by
      rw [← hT.asg]
      exact List.mem_map.mpr ⟨(c, p), h1, rfl⟩
    exact (tinv_tail hI hT).2.2 c hc
  · simp [mapFind] at h1

theorem isDist_of_inv {T : Type} {s : MazeSolver T} (hB : Built s) {start e : Point}
    {done : List Point} {cur : Point} {k : Nat} {st : BfsState} {code : Point → List Nat}
    (hI : Inv s start e done cur k st code) (hstart : Open s start) (v : Point)
    (hv : v ∈ done ++ cur :: st.queue) : IsDist s start v (code v).length := by
  obtain ⟨hv1, hv2⟩ := hI.valid v hv
  have hfit := fits_of_inBounds hB hstart.1
  constructor
  · refine ⟨start :: tailPts start (code v), rfl, ?_, ⟨(validCode_chain hB hfit hv1).1, ?_⟩, ?_⟩
    · rw [getLast_tailPts, hv2]
    · intro p hp
      rw [List.mem_cons] at hp
      rcases hp with rfl | hp
      · exact hstart
      · exact validCode_open hv1 p hp
    · rw [List.length_cons, length_tailPts]
  · intro q hq1 hq2 hq3
    cases q with
    | nil => simp at hq1
    | cons a q =>
      simp only [List.head?_cons, Option.some.injEq] at hq1
      subst hq1
      obtain ⟨c, hc1, hc2⟩ := code_of_walk hB q a hq3.1
        (fun p hp => hq3.2 p (List.mem_cons_of_mem _ hp))
      have hlast : endOf a c = v := by
        have h1 := getLast_tailPts a c
        rw [hc2, hq2] at h1
        exact (Option.some.inj h1).symm
      have hmin := inv_min_all hI v hv c hc1 hlast
      have hlen := rank_length _ _ (validCode_lt hv1) (validCode_lt hc1) hmin
      rw [List.length_cons, ← hc2, length_tailPts]
      omega

theorem tailPts_in_order {T : Type} {s : MazeSolver T} {start e : Point} {done : List Point}
    {cur : Point} {k : Nat} {st : BfsState} {code : Point → List Nat}
    (hI : Inv s start e done cur k st code) (c : List Nat) :
    ∀ (v : Point), v ∈ done ++ cur :: st.queue → code v = c →
      ∀ p ∈ tailPts start c, p ∈ done ++ cur :: st.queue ∧ p ≠ start := by
  induction c using List.reverseRecOn with
  | nil =>
    intro v _ _ p hp
    simp [tailPts] at hp
  | append_singleton c d ih =>
    intro v hv hc p hp
    have hvs : v ≠ start := by
      intro h
      rw [h, hI.startCode] at hc
      exact (List.append_ne_nil_of_right_ne_nil _ (List.cons_ne_nil d [])) hc.symm
    obtain ⟨u, d1, _, _, hu, h3, _, _⟩ := inv_parent_facts hI v hv hvs
    rw [hc] at h3
    have hcu : code u = c := (List.append_inj_left' h3 rfl).symm
    have hend := (hI.valid v hv).2
    rw [hc, endOf_snoc] at hend
    rw [tailPts_snoc, List.mem_append, List.mem_singleton, hend] at hp
    rcases hp with hp | hp
    · exact ih u hu hcu p hp
    · rw [hp]
      exact ⟨hv, hvs⟩

/-! ## The claims on state, termination and safety -/

/-- Counterexample to C11 as stated: on the open 3x3 grid, after a first `SolveBFS` from
`(0,0)` a second `SolveBFS` on the same solver from `(2,2)` never enqueues `(1,0)`, yet the
entry `parents[(1,0)] = (0,0)` of the first call is still in the map when it returns. -/
theorem parents_reset_counterexample :
    SolveBFS solverOpen3 ⟨0, 0⟩ 2 = .ok (([⟨0, 0⟩, ⟨1, 0⟩, ⟨1, 1⟩], true), solvedOpen3) ∧
      SolveBFSTraced solvedOpen3 ⟨2, 2⟩ 2 =
        .ok ((([⟨2, 2⟩, ⟨1, 2⟩, ⟨1, 1⟩], true), solvedTwice), traceTwice) ∧
      (⟨1, 0⟩ : Point) ∉ traceTwice.enqueued ∧
      mapFind solvedOpen3.parents ⟨1, 0⟩ = some ⟨0, 0⟩ ∧
      mapFind solvedTwice.parents ⟨1, 0⟩ = some ⟨0, 0⟩ :=
  ⟨by decide, by decide, by decide, by decide, by decide⟩

/-- C11 amended (the parent map is kept, not reset): on a solver over a non-empty
rectangular grid with any `parents` map left by earlier calls, after `SolveBFS` returns
the map is the map from before the call updated by the assignments of this call, one for
each cell discovered (enqueued after `start`); an entry whose key is not discovered in this
call is unchanged; and when the map was empty before the call (a freshly constructed
solver) every entry was recorded during this call, for a cell discovered in it. -/
theorem parents_after_call {T : Type} [DecidableEq T] (maze : List (List T)) (wall : T)
    (s0 : MazeSolver T) (parents0 : ParentMap) (start : Point) (goalValue : T)
    (r : List Point × Bool) (s1 : MazeSolver T) (tr : Trace) (hR : Rect maze)
    (hs : NewMazeSolver maze wall = .ok s0)
    (hrun : SolveBFSTraced { s0 with parents := parents0 } start goalValue =
      .ok ((r, s1), tr)) :
    s1.parents = tr.assigned.foldl (fun m kv => mapSet m kv.1 kv.2) parents0 ∧
      tr.assigned.map Prod.fst = tr.enqueued.tail ∧
      (∀ k, k ∉ tr.enqueued.tail → mapFind s1.parents k = mapFind parents0 k) ∧
      (parents0 = [] → ∀ k u, mapFind s1.parents k = some u →
        (k, u) ∈ tr.assigned ∧ k ∈ tr.enqueued.tail) := by
  obtain ⟨hB0, _, _, _⟩ := built_of_new hR hs
  have hB := built_with_parents hB0 parents0
  have hmain : s1.parents = tr.assigned.foldl (fun m kv => mapSet m kv.1 kv.2) parents0 ∧
      tr.assigned.map Prod.fst = tr.enqueued.tail := by
    rcases traced_facts hB hrun with ⟨h1, h2, _, _, h5, _⟩ |
      ⟨e, done, cur, k, st, code, tr0, _, _, hT, h5, _, h7, _, h9, _⟩
    · rw [h1, h2, h5]
      exact ⟨rfl, rfl⟩
    · rw [h7, h9, h5]
      exact ⟨hT.par, hT.asg⟩
  obtain ⟨hpar, hkeys⟩ := hmain
  refine ⟨hpar, hkeys, ?_, ?_⟩
  · intro k hk
    rw [hpar]
    exact mapFind_foldl_not_mem tr.assigned k (by rw [hkeys]; exact hk)
  · intro h0 k u hku
    rw [hpar, h0] at hku
    rcases mapFind_foldl tr.assigned k u hku with h | h
    · refine ⟨h, ?_⟩
      rw [← hkeys]
      exact List.mem_map.mpr ⟨(k, u), h, rfl⟩
    · simp [mapFind] at h

/-- Witness of the amended C11 on the second call of the counterexample: `(1,0)` is not
discovered, so its entry is the one from before the call. -/
theorem parents_after_call_witness :
    SolveBFSTraced { solverOpen3 with parents := solvedOpen3.parents } ⟨2, 2⟩ 2 =
        .ok ((([⟨2, 2⟩, ⟨1, 2⟩, ⟨1, 1⟩], true), solvedTwice), traceTwice) ∧
      mapFind solvedTwice.parents ⟨1, 0⟩ = mapFind solvedOpen3.parents ⟨1, 0⟩ :=
  ⟨by decide,
    (parents_after_call gridOpen3 1 solverOpen3 solvedOpen3.parents ⟨2, 2⟩ 2
      ([⟨2, 2⟩, ⟨1, 2⟩, ⟨1, 1⟩], true) solvedTwice traceTwice rect_gridOpen3 (by decide)
      (by decide)).2.2.1 ⟨1, 0⟩ (by decide)⟩

/-- C12 (termination): on a solver over a non-empty rectangular grid, with any `parents`
map, any start coordinate and any goal value, `SolveBFS` returns (no fault, the fuel
`rows * cols + 1` of each loop is not exhausted); no coordinate is enqueued twice and every
enqueued coordinate other than `start` is in bounds, so at most `rows * cols + 1`
coordinates are enqueued and at most that many dequeued; the back-walk of `reconstructPath`
reads at most that many keys; and giving the loops more fuel does not change the result. -/
theorem SolveBFS_terminates {T : Type} [DecidableEq T] (maze : List (List T)) (wall : T)
    (s0 : MazeSolver T) (parents0 : ParentMap) (start : Point) (goalValue : T)
    (hR : Rect maze) (hs : NewMazeSolver maze wall = .ok s0) :
    (∃ r s1 tr,
        SolveBFSTraced { s0 with parents := parents0 } start goalValue = .ok ((r, s1), tr) ∧
        SolveBFS { s0 with parents := parents0 } start goalValue = .ok (r, s1) ∧
        tr.enqueued.Nodup ∧ (∀ p ∈ tr.enqueued, p = start ∨ InBounds s0 p) ∧
        tr.enqueued.length ≤ (s0.rows * s0.cols).toNat + 1 ∧
        tr.dequeued.length ≤ tr.enqueued.length ∧
        tr.lookups.length ≤ tr.enqueued.length) ∧
    (∀ e fuel pathFuel, (s0.rows * s0.cols).toNat + 1 ≤ fuel →
        (s0.rows * s0.cols).toNat + 1 ≤ pathFuel →
        bfsLoop { s0 with parents := parents0 } start e pathFuel fuel
            ⟨[start], [start], parents0⟩ =
          bfsLoop { s0 with parents := parents0 } start e
            ((s0.rows * s0.cols).toNat + 1) ((s0.rows * s0.cols).toNat + 1)
            ⟨[start], [start], parents0⟩) := by
  obtain ⟨hB0, _, _, _⟩ := built_of_new hR hs
  have hB := built_with_parents hB0 parents0
  constructor
  · obtain ⟨path, found, s1, hrun⟩ :=
      SolveBFS_returns { s0 with parents := parents0 } hB start goalValue
    obtain ⟨tr, htr⟩ := traced_of_run hrun
    refine ⟨(path, found), s1, tr, htr, hrun, ?_⟩
    rcases traced_facts hB htr with ⟨h1, _, h3, h4, _⟩ |
      ⟨e, done, cur, k, st, code, tr0, _, hI, hT, _, _, h7, h8, _, hlast⟩
    · rw [h1, h3, h4]
      simp
    · have hlen := inv_length_le hB hI
      rw [h7, h8, hT.enq, hT.deq]
      refine ⟨hI.nodup, ?_, hlen, ?_, ?_⟩
      · intro p hp
        by_cases hps : p = start
        · exact Or.inl hps
        · exact Or.inr (inv_open hI p hp hps).1
      · simp
      · rcases hlast with ⟨hce, _, hlk⟩ | ⟨_, _, _, _, hlk⟩
        · rw [hlk, List.length_reverse, length_tailPts]
          exact Nat.le_of_lt (hI.short e (by rw [hce]; simp))
        · rw [hlk]
          simp
  · intro e fuel pathFuel hf hpf
    rcases bfsLoop_spec hB start e ((s0.rows * s0.cols).toNat + 1) (Nat.le_refl _)
        ((s0.rows * s0.cols).toNat + 1) [] start ⟨[], [start], parents0⟩ (fun _ => [])
        (inv_init _ start e parents0) (by simp [solveFuel]) with
      ⟨_, _, _, _, hl⟩ | ⟨_, _, _, _, _, _, _, hl⟩
    · rw [hl]
      exact bfsLoop_mono _ start e _ pathFuel hpf _ _ _ hl fuel hf
    · rw [hl]
      exact bfsLoop_mono _ start e _ pathFuel hpf _ _ _ hl fuel hf

/-- Witness of C12 on the reused solver of the open 3x3 grid. -/
theorem SolveBFS_terminates_witness :
    ∃ r s1 tr,
      SolveBFSTraced { solverOpen3 with parents := solvedOpen3.parents } ⟨2, 2⟩ 2 =
        .ok ((r, s1), tr) ∧
      SolveBFS { solverOpen3 with parents := solvedOpen3.parents } ⟨2, 2⟩ 2 = .ok (r, s1) ∧
      tr.enqueued.Nodup ∧ (∀ p ∈ tr.enqueued, p = ⟨2, 2⟩ ∨ InBounds solverOpen3 p) ∧
      tr.enqueued.length ≤ (solverOpen3.rows * solverOpen3.cols).toNat + 1 ∧
      tr.dequeued.length ≤ tr.enqueued.length ∧
      tr.lookups.length ≤ tr.enqueued.length :=
  (SolveBFS_terminates gridOpen3 1 solverOpen3 solvedOpen3.parents ⟨2, 2⟩ 2 rect_gridOpen3
    (by decide)).1

/-- C13 (repository fixture, S6): on the 10x10 rune grid of the driver, with wall `'1'`,
start `(0,0)` and goal value `'#'`, `SolveBFS` on the fresh solver returns `found = true`
with a path (of 32 cells) that starts at `(0,0)`, ends at `(9,6)`, is a wall-free
4-connected walk, is no longer than any wall-free walk between those cells, and has no
entry whose cell content is `'1'`. -/
theorem fixture_run :
    NewMazeSolver fixture '1' = .ok fixtureSolver ∧
      ∃ s1, SolveBFS fixtureSolver ⟨0, 0⟩ '#' = .ok ((fixturePath, true), s1) ∧
        fixturePath.head? = some ⟨0, 0⟩ ∧ fixturePath.getLast? = some ⟨9, 6⟩ ∧
        WallFreeWalk fixtureSolver fixturePath ∧
        (∀ q : List Point, q.head? = some ⟨0, 0⟩ → q.getLast? = some ⟨9, 6⟩ →
          WallFreeWalk fixtureSolver q → fixturePath.length ≤ q.length) ∧
        ∀ p ∈ fixturePath, ¬ CellIs fixtureSolver p '1' := by
  have hnew : NewMazeSolver fixture '1' = .ok fixtureSolver := by decide
  obtain ⟨hB, _, _, _⟩ := built_of_new rect_fixture hnew
  have hres : (SolveBFS fixtureSolver ⟨0, 0⟩ '#').map Prod.fst = .ok (fixturePath, true) := by
    decide!
  obtain ⟨⟨r, s1⟩, hrun, hr⟩ := map_eq_ok hres
  simp only at hr
  subst hr
  have hlast : fixturePath.getLast? = some ⟨9, 6⟩ := by decide
  refine ⟨hnew, s1, hrun, by decide, hlast, by decide, ?_, by decide⟩
  intro q hq1 hq2 hq3
  exact run_shortest hB hrun q hq1 (by rw [hq2, hlast]) hq3

/-- C16 (uniqueness of enqueue, P3): on a solver over a non-empty rectangular grid, with
any `parents` map, any start and any goal value, `SolveBFS` returns, the sequence of all
coordinates enqueued during the call (the initial `start` included) has no duplicates, and
the keys of the assignments `parents[c] = ...` made during the call have no duplicates. -/
theorem enqueue_unique {T : Type} [DecidableEq T] (maze : List (List T)) (wall : T)
    (s0 : MazeSolver T) (parents0 : ParentMap) (start : Point) (goalValue : T)
    (hR : Rect maze) (hs : NewMazeSolver maze wall = .ok s0) :
    ∃ r s1 tr,
      SolveBFSTraced { s0 with parents := parents0 } start goalValue = .ok ((r, s1), tr) ∧
      tr.enqueued.Nodup ∧ (tr.assigned.map Prod.fst).Nodup := by
  obtain ⟨hB0, _, _, _⟩ := built_of_new hR hs
  have hB := built_with_parents hB0 parents0
  obtain ⟨path, found, s1, hrun⟩ :=
    SolveBFS_returns { s0 with parents := parents0 } hB start goalValue
  obtain ⟨tr, htr⟩ := traced_of_run hrun
  refine ⟨(path, found), s1, tr, htr, ?_⟩
  rcases traced_facts hB htr with ⟨h1, h2, _⟩ |
    ⟨e, done, cur, k, st, code, tr0, _, hI, hT, _, _, h7, _, h9, _⟩
  · rw [h1, h2]
    simp
  · rw [h7, h9]
    exact ⟨(tinv_tail hI hT).1, (tinv_tail hI hT).2.1⟩

/-- Witness of C16 on the open 3x3 grid: seven coordinates are enqueued, all different. -/
theorem enqueue_unique_witness :
    SolveBFSTraced solverOpen3 ⟨0, 0⟩ 2 =
        .ok ((([⟨0, 0⟩, ⟨1, 0⟩, ⟨1, 1⟩], true), solvedOpen3), traceOpen3) ∧
      traceOpen3.enqueued.length = 7 ∧
      ∃ r s1 tr,
        SolveBFSTraced { solverOpen3 with parents := [] } ⟨0, 0⟩ 2 = .ok ((r, s1), tr) ∧
        tr.enqueued.Nodup ∧ (tr.assigned.map Prod.fst).Nodup :=
  ⟨by decide, by decide,
    enqueue_unique gridOpen3 1 solverOpen3 [] ⟨0, 0⟩ 2 rect_gridOpen3 (by decide)⟩

/-- Counterexample to C18 as stated: on the open 3x3 grid with start `(0,0)` the content of
the start cell is read, by the scan of `findEndNode` (the first five reads) and again by
the wall test of the BFS loop when `(0,0)` is the neighbour of a dequeued cell. -/
theorem index_safety_counterexample :
    NewMazeSolver gridOpen3 1 = .ok solverOpen3 ∧
      SolveBFSTraced solverOpen3 ⟨0, 0⟩ 2 =
        .ok ((([⟨0, 0⟩, ⟨1, 0⟩, ⟨1, 1⟩], true), solvedOpen3), traceOpen3) ∧
      findEndNodeTraced solverOpen3 2 = .ok ((⟨1, 1⟩, true), traceOpen3.reads.take 5) ∧
      (⟨0, 0⟩ : Point) ∈ traceOpen3.reads.take 5 ∧
      (⟨0, 0⟩ : Point) ∈ traceOpen3.reads.drop 5 :=
  ⟨by decide, by decide, by decide, by decide, by decide⟩

/-- C18 amended (index safety): for every non-empty grid whose rows all have the same width
at least 1, `NewMazeSolver` and then `SolveBFS` with any start coordinate (in or out of
bounds) and any goal value return without an index fault, and every access `maze[r][c]` of
`findEndNode` and of the BFS loop has `0 <= r < rows` and `0 <= c < cols`; in particular an
out-of-bounds start is never used as an index. (The content of an in-bounds start cell can
be read.) -/
theorem index_safety {T : Type} [DecidableEq T] (maze : List (List T)) (wall : T)
    (start : Point) (goalValue : T) (hR : Rect maze) :
    ∃ s r s1 tr, NewMazeSolver maze wall = .ok s ∧
      SolveBFSTraced s start goalValue = .ok ((r, s1), tr) ∧
      (∀ p ∈ tr.reads, 0 ≤ p.Row ∧ p.Row < s.rows ∧ 0 ≤ p.Col ∧ p.Col < s.cols) ∧
      (¬ InBounds s start → start ∉ tr.reads) := by
  obtain ⟨s, hs⟩ := new_ok wall hR
  obtain ⟨hB, _, _, _⟩ := built_of_new hR hs
  obtain ⟨path, found, s1, hrun⟩ := SolveBFS_returns s hB start goalValue
  obtain ⟨tr, htr⟩ := traced_of_run hrun
  have hrd : ∀ p ∈ tr.reads, InBounds s p := by
    rcases traced_facts hB htr with ⟨_, _, _, _, _, _, h7, _⟩ |
      ⟨e, done, cur, k, st, code, tr0, _, _, hT, _, h6, _⟩
    · exact h7
    · rw [h6]
      exact hT.rd
  exact ⟨s, (path, found), s1, tr, hs, htr, hrd, fun hout hmem => hout (hrd start hmem)⟩

/-- Witness of the amended C18 on the 1x1 grid with the start `(-1,0)` outside it. -/
theorem index_safety_witness :
    ∃ s r s1 tr, NewMazeSolver gridOne 1 = .ok s ∧
      SolveBFSTraced s ⟨-1, 0⟩ 2 = .ok ((r, s1), tr) ∧
      (∀ p ∈ tr.reads, 0 ≤ p.Row ∧ p.Row < s.rows ∧ 0 ≤ p.Col ∧ p.Col < s.cols) ∧
      (¬ InBounds s ⟨-1, 0⟩ → (⟨-1, 0⟩ : Point) ∉ tr.reads) :=
  index_safety gridOne 1 ⟨-1, 0⟩ 2 rect_gridOne

/-- C14 (parent-map invariant): after `SolveBFS` on a freshly constructed solver over a
non-empty rectangular grid, with an in-bounds non-wall start (whether it reports found or
not), every key `c` of `parents` with value `p = parents[c]` satisfies: `c` and `p` are in
bounds, `p` is a 4-neighbour of `c`, and neither the cell at `p` nor the cell at `c` holds
the wall marker. -/
theorem parents_invariant {T : Type} [DecidableEq T] (maze : List (List T)) (wall : T)
    (s : MazeSolver T) (start : Point) (goalValue : T) (r : List Point × Bool)
    (s1 : MazeSolver T) (hR : Rect maze) (hs : NewMazeSolver maze wall = .ok s)
    (hin : InBounds s start) (hnw : ¬ CellIs s start wall)
    (hrun : SolveBFS s start goalValue = .ok (r, s1))
    (c p : Point) (hc : mapFind s1.parents c = some p) :
    InBounds s c ∧ InBounds s p ∧ Adjacent4 p c ∧ ¬ CellIs s p wall ∧ ¬ CellIs s c wall := by
  obtain ⟨hB, hpar, _, hwall⟩ := built_of_new hR hs
  obtain ⟨tr, htr⟩ := traced_of_run hrun
  rcases traced_facts hB htr with ⟨_, _, _, _, h5, _⟩ |
    ⟨e, done, cur, k, st, code, tr0, _, hI, hT, h5, _⟩
  · rw [h5, hpar] at hc
    simp [mapFind] at hc
  · rw [h5] at hc
    have hc1 : mapFind st.parents c = some p := hc
    rw [hpar] at hT
    obtain ⟨hco, hcs⟩ := inv_keys hI hT c p hc1
    obtain ⟨u, d, h1, hd, hu, _, hstep, hopen⟩ := inv_parent_facts hI c hco hcs
    rw [hc1] at h1
    have hpu : p = u := Option.some.inj h1
    subst hpu
    have hpopen : Open s p := by
      by_cases hps : p = start
      · rw [hps]
        exact ⟨hin, by rw [hwall]; exact hnw⟩
      · exact inv_open hI p hu hps
    have hadj := (stepTo_adjacent hB p (fits_of_inBounds hB hpopen.1) d hd
      (by rw [← hstep]; exact hopen.1)).1
    rw [← hstep] at hadj
    rw [← hwall]
    exact ⟨hopen.1, hpopen.1, hadj, hpopen.2, hopen.2⟩

/-- Witness of C14 on the open 3x3 grid, at the key `(1,1)`, whose value is `(1,0)`. -/
theorem parents_invariant_witness :
    SolveBFS solverOpen3 ⟨0, 0⟩ 2 = .ok (([⟨0, 0⟩, ⟨1, 0⟩, ⟨1, 1⟩], true), solvedOpen3) ∧
      mapFind solvedOpen3.parents ⟨1, 1⟩ = some ⟨1, 0⟩ ∧
      (InBounds solverOpen3 ⟨1, 1⟩ ∧ InBounds solverOpen3 ⟨1, 0⟩ ∧
        Adjacent4 ⟨1, 0⟩ ⟨1, 1⟩ ∧ ¬ CellIs solverOpen3 ⟨1, 0⟩ 1 ∧
        ¬ CellIs solverOpen3 ⟨1, 1⟩ 1) :=
  ⟨by decide, by decide,
    parents_invariant gridOpen3 1 solverOpen3 ⟨0, 0⟩ 2 ([⟨0, 0⟩, ⟨1, 0⟩, ⟨1, 1⟩], true)
      solvedOpen3 rect_gridOpen3 (by decide) (by decide) (by decide) (by decide)
      ⟨1, 1⟩ ⟨1, 0⟩ (by decide)⟩

/-- C15 (the parent map is a BFS tree): after `SolveBFS` on a freshly constructed solver
over a non-empty rectangular grid, with an in-bounds non-wall start: `start` is not a key of
`parents`; the map is acyclic (following it upwards from any coordinate for one or more
steps never comes back to that coordinate); for every key `c`, following the map upwards
reaches `start` after exactly `d(c)` steps, where `d(c)` is the shortest wall-free
4-connected distance from `start` to `c`; and a returned path has length `d(goal) + 1`. -/
theorem parents_tree {T : Type} [DecidableEq T] (maze : List (List T)) (wall : T)
    (s : MazeSolver T) (start : Point) (goalValue : T) (r : List Point × Bool)
    (s1 : MazeSolver T) (hR : Rect maze) (hs : NewMazeSolver maze wall = .ok s)
    (hin : InBounds s start) (hnw : ¬ CellIs s start wall)
    (hrun : SolveBFS s start goalValue = .ok (r, s1)) :
    mapFind s1.parents start = none ∧
      (∀ c n, walkUp s1.parents (n + 1) c ≠ some c) ∧
      (∀ c p, mapFind s1.parents c = some p →
        ∃ n, walkUp s1.parents n c = some start ∧ IsDist s start c n ∧
          ∀ m, walkUp s1.parents m c = some start → m = n) ∧
      (∀ path, r = (path, true) →
        ∃ e n, path.getLast? = some e ∧ IsDist s start e n ∧ path.length = n + 1) := by
  obtain ⟨hB, hpar, _, hwall⟩ := built_of_new hR hs
  have hstart : Open s start := ⟨hin, by rw [hwall]; exact hnw⟩
  obtain ⟨tr, htr⟩ := traced_of_run hrun
  rcases traced_facts hB htr with ⟨_, _, _, _, h5, h6, _⟩ |
    ⟨e, done, cur, k, st, code, tr0, _, hI, hT, h5, _, _, _, _, hlast⟩
  · have hp1 : s1.parents = [] := by rw [h5, hpar]
    rw [hp1]
    refine ⟨rfl, ?_, ?_, ?_⟩
    · intro c n h
      simp [walkUp, mapFind] at h
    · intro c p h
      simp [mapFind] at h
    · intro path hr
      rw [h6] at hr
      simp at hr
  · have hp1 : s1.parents = st.parents := by rw [h5]
    rw [hp1]
    rw [hpar] at hT
    have hkeys := inv_keys hI hT
    refine ⟨?_, ?_, ?_, ?_⟩
    · cases hm : mapFind st.parents start with
      | none => rfl
      | some p => exact absurd rfl (hkeys start p hm).2
    · intro c n h
      have := (walkUp_order hI hkeys n c c h).2.2
      omega
    · intro c p hcp
      obtain ⟨hco, hcs⟩ := hkeys c p hcp
      refine ⟨(code c).length, walkUp_code hI (code c) c hco rfl,
        isDist_of_inv hB hI hstart c hco, ?_⟩
      intro m hm
      cases m with
      | zero =>
        have : c = start := Option.some.inj hm
        exact absurd this hcs
      | succ m =>
        have := (walkUp_order hI hkeys m c start hm).2.2
        rw [hI.startCode] at this
        simp only [List.length_nil] at this
        omega
    · intro path hr
      rcases hlast with ⟨hce, hres, _⟩ | ⟨_, _, _, hres, _⟩
      · rw [hres] at hr
        simp only [Prod.mk.injEq, and_true] at hr
        have he : e ∈ done ++ cur :: st.queue := by rw [hce]; simp
        refine ⟨e, (code e).length, ?_, isDist_of_inv hB hI hstart e he, ?_⟩
        · rw [← hr, getLast_tailPts, (hI.valid e he).2]
        · rw [← hr, List.length_cons, length_tailPts]
      · rw [hres] at hr
        simp at hr

/-- Witness of C15 on the open 3x3 grid: `start` is no key, and from the key `(2,1)` the
map leads to `start` in 3 steps, the distance of `(2,1)`. -/
theorem parents_tree_witness :
    SolveBFS solverOpen3 ⟨0, 0⟩ 2 = .ok (([⟨0, 0⟩, ⟨1, 0⟩, ⟨1, 1⟩], true), solvedOpen3) ∧
      mapFind solvedOpen3.parents ⟨0, 0⟩ = none ∧
      walkUp solvedOpen3.parents 3 ⟨2, 1⟩ = some ⟨0, 0⟩ ∧
      ∃ n, walkUp solvedOpen3.parents n ⟨2, 1⟩ = some ⟨0, 0⟩ ∧
        IsDist solverOpen3 ⟨0, 0⟩ ⟨2, 1⟩ n ∧
        ∀ m, walkUp solvedOpen3.parents m ⟨2, 1⟩ = some ⟨0, 0⟩ → m = n :=
  ⟨by decide, by decide, by decide,
    (parents_tree gridOpen3 1 solverOpen3 ⟨0, 0⟩ 2 ([⟨0, 0⟩, ⟨1, 0⟩, ⟨1, 1⟩], true)
      solvedOpen3 rect_gridOpen3 (by decide) (by decide) (by decide) (by decide)).2.2.1
      ⟨2, 1⟩ ⟨2, 0⟩ (by decide)⟩

/-- C17 (the result does not depend on stale parent-map state): on a solver over a
non-empty rectangular grid, for any two initial contents of `parents`, `SolveBFS` returns
the same `(path, found)`; and every `parents` entry read by `reconstructPath` was written
during the current call (it is among the logged assignments, with the value read). -/
theorem result_independent {T : Type} [DecidableEq T] (maze : List (List T)) (wall : T)
    (s0 : MazeSolver T) (pa pb : ParentMap) (start : Point) (goalValue : T)
    (hR : Rect maze) (hs : NewMazeSolver maze wall = .ok s0) :
    ∃ r sa sb tr,
      SolveBFS { s0 with parents := pa } start goalValue = .ok (r, sa) ∧
      SolveBFS { s0 with parents := pb } start goalValue = .ok (r, sb) ∧
      SolveBFSTraced { s0 with parents := pa } start goalValue = .ok ((r, sa), tr) ∧
      ∀ k ∈ tr.lookups, (k, mapGet sa.parents k) ∈ tr.assigned := by
  obtain ⟨hB0, _, _, _⟩ := built_of_new hR hs
  have hBa := built_with_parents hB0 pa
  have hBb := built_with_parents hB0 pb
  obtain ⟨patha, founda, sa, hra⟩ := SolveBFS_returns { s0 with parents := pa } hBa start goalValue
  obtain ⟨pathb, foundb, sb, hrb⟩ := SolveBFS_returns { s0 with parents := pb } hBb start goalValue
  have heq := result_unique hB0 pa pb hra hrb
  obtain ⟨tr, htr⟩ := traced_of_run hra
  refine ⟨(patha, founda), sa, sb, tr, hra, by rw [heq]; exact hrb, htr, ?_⟩
  rcases traced_facts hBa htr with ⟨_, _, _, h4, _⟩ |
    ⟨e, done, cur, k, st, code, tr0, _, hI, hT, h5, _, _, _, h9, hlast⟩
  · intro k hk
    rw [h4] at hk
    simp at hk
  · intro key hk
    rcases hlast with ⟨hce, _, hlk⟩ | ⟨_, _, _, _, hlk⟩
    · rw [hlk, List.mem_reverse] at hk
      have he : e ∈ done ++ cur :: st.queue := by rw [hce]; simp
      obtain ⟨hko, hks⟩ := tailPts_in_order hI (code e) e he rfl key hk
      have hktail : key ∈ tr0.enqueued.tail := by
        have hhd := hT.hd
        have henq := hT.enq
        cases hl : tr0.enqueued with
        | nil =>
          rw [hl] at hhd
          simp at hhd
        | cons a l =>
          rw [hl] at hhd henq
          simp only [List.head?_cons, Option.some.injEq] at hhd
          rw [← henq, List.mem_cons] at hko
          rcases hko with hko | hko
          · rw [hhd] at hko
            exact absurd hko hks
          · exact hko
      rw [← hT.asg, List.mem_map] at hktail
      obtain ⟨⟨k1, v1⟩, hmem, hk1⟩ := hktail
      simp only at hk1
      subst hk1
      have hfind : mapFind (tr0.assigned.foldl (fun m kv => mapSet m kv.1 kv.2) pa) k1 =
          some v1 := mapFind_foldl_mem tr0.assigned k1 v1 (tinv_tail hI hT).2.1 hmem
      have hsa : sa.parents = st.parents := by rw [h5]
      have hget : mapGet sa.parents k1 = v1 := by
        unfold mapGet
        rw [hsa, hT.par, hfind]
      rw [hget, h9]
      exact hmem
    · rw [hlk] at hk
      simp at hk

/-- Witness of C17 on the open 3x3 grid: from `(2,2)` the fresh solver and the solver left
by an earlier call return the same path. -/
theorem result_independent_witness :
    SolveBFSTraced { solverOpen3 with parents := solvedOpen3.parents } ⟨2, 2⟩ 2 =
        .ok ((([⟨2, 2⟩, ⟨1, 2⟩, ⟨1, 1⟩], true), solvedTwice), traceTwice) ∧
      ∃ r sa sb tr,
        SolveBFS { solverOpen3 with parents := solvedOpen3.parents } ⟨2, 2⟩ 2 = .ok (r, sa) ∧
        SolveBFS { solverOpen3 with parents := [] } ⟨2, 2⟩ 2 = .ok (r, sb) ∧
        SolveBFSTraced { solverOpen3 with parents := solvedOpen3.parents } ⟨2, 2⟩ 2 =
          .ok ((r, sa), tr) ∧
        ∀ k ∈ tr.lookups, (k, mapGet sa.parents k) ∈ tr.assigned :=
  ⟨by decide,
    result_independent gridOpen3 1 solverOpen3 solvedOpen3.parents [] ⟨2, 2⟩ 2
      rect_gridOpen3 (by decide)⟩

end BFSMaze
